import Mathlib

/-!
# SHA-256 (`SHA-256/sha256.c`)

A shallow embedding of `sha256.c` and the properties of it that are checked against the
specification.

Conventions of the embedding.

* A `uint8_t` is a natural number below `256`, a `uint32_t` a natural number below `2 ^ 32`;
  every C operation that can leave the range is followed by an explicit `% 2 ^ w`.
* An array is a `List Nat`; `a[i]` is `a.getD i 0` and `a[i] = v` is `a.set i v`.
* The two local arrays that C leaves uninitialised (`w` in `_sha256_transform`, `chunk` in
  `sha256_compute`) start from an arbitrary content that is a parameter of the model.
* `sha256_compute` carries, next to the C variables, a ghost list `calls` recording the chunk
  handed to every call of `_sha256_transform`, in call order.
* `int` and `unsigned int` are 32 bits wide, so that arithmetic on `uint32_t` operands is done
  modulo `2 ^ 32`; a byte promoted to `int` and shifted left by 24 keeps its bit pattern when
  the result is stored into a `uint32_t`.
-/

namespace SHA256

/-! ## Embedding of the source -/

/-- The macro `_SHA256_ROTATE_RIGHT(a,b)`, `((a) >> (b)) | ((a) << (32-(b)))`, on `uint32_t`:
the left shift is truncated to 32 bits. -/
def _SHA256_ROTATE_RIGHT (a b : Nat) : Nat :=
  (a >>> b) ||| ((a <<< (32 - b)) % 2 ^ 32)

/-- The table `_sha256_round_constants[64]`, one list for each of the eight lines of the
initialiser in the source. -/
def _sha256_round_constants : List Nat :=
  [0x428a2f98, 0x71374491, 0xb5c0fbcf, 0xe9b5dba5, 0x3956c25b, 0x59f111f1, 0x923f82a4, 0xab1c5ed5] ++
  [0xd807aa98, 0x12835b01, 0x243185be, 0x550c7dc3, 0x72be5d74, 0x80deb1fe, 0x9bdc06a7, 0xc19bf174] ++
  [0xe49b69c1, 0xefbe4786, 0x0fc19dc6, 0x240ca1cc, 0x2de92c6f, 0x4a7484aa, 0x5cb0a9dc, 0x76f988da] ++
  [0x983e5152, 0xa831c66d, 0xb00327c8, 0xbf597fc7, 0xc6e00bf3, 0xd5a79147, 0x06ca6351, 0x14292967] ++
  [0x27b70a85, 0x2e1b2138, 0x4d2c6dfc, 0x53380d13, 0x650a7354, 0x766a0abb, 0x81c2c92e, 0x92722c85] ++
  [0xa2bfe8a1, 0xa81a664b, 0xc24b8b70, 0xc76c51a3, 0xd192e819, 0xd6990624, 0xf40e3585, 0x106aa070] ++
  [0x19a4c116, 0x1e376c08, 0x2748774c, 0x34b0bcb5, 0x391c0cb3, 0x4ed8aa4a, 0x5b9cca4f, 0x682e6ff3] ++
  [0x748f82ee, 0x78a5636f, 0x84c87814, 0x8cc70208, 0x90befffa, 0xa4506ceb, 0xbef9a3f7, 0xc67178f2]

/-- The function `_sha256_init`: the eight words it stores in `ctx->hash[0..7]`. -/
def _sha256_init : List Nat :=
  [0x6a09e667, 0xbb67ae85, 0x3c6ef372, 0xa54ff53a, 0x510e527f, 0x9b05688c, 0x1f83d9ab, 0x5be0cd19]

/-- First loop of `_sha256_transform`, body for index `i`:
`w[i] = (chunk[i*4] << 24) | (chunk[i*4 + 1] << 16) | (chunk[i*4 + 2] << 8) | (chunk[i*4 + 3])`,
stored into a `uint32_t`. -/
def scheduleCopyStep (chunk : List Nat) (w : List Nat) (i : Nat) : List Nat :=
  w.set i ((((chunk.getD (i * 4) 0) <<< 24) ||| ((chunk.getD (i * 4 + 1) 0) <<< 16)
    ||| ((chunk.getD (i * 4 + 2) 0) <<< 8) ||| (chunk.getD (i * 4 + 3) 0)) % 2 ^ 32)

/-- Second loop of `_sha256_transform`, body for index `i` (`16 ≤ i < 64`):
`s0`, `s1` and `w[i] = w[i-16] + s0 + w[i-7] + s1` in `uint32_t` arithmetic. -/
def scheduleExtendStep (w : List Nat) (i : Nat) : List Nat :=
  let s0 := _SHA256_ROTATE_RIGHT (w.getD (i - 15) 0) 7 ^^^ _SHA256_ROTATE_RIGHT (w.getD (i - 15) 0) 18
    ^^^ ((w.getD (i - 15) 0) >>> 3)
  let s1 := _SHA256_ROTATE_RIGHT (w.getD (i - 2) 0) 17 ^^^ _SHA256_ROTATE_RIGHT (w.getD (i - 2) 0) 19
    ^^^ ((w.getD (i - 2) 0) >>> 10)
  w.set i ((w.getD (i - 16) 0 + s0 + w.getD (i - 7) 0 + s1) % 2 ^ 32)

/-- The message schedule array `w[64]` of `_sha256_transform` after its first two loops,
started from the content `w0` of the uninitialised array. -/
def messageSchedule (w0 : List Nat) (chunk : List Nat) : List Nat :=
  (List.range' 16 48).foldl scheduleExtendStep
    ((List.range 16).foldl (scheduleCopyStep chunk) w0)

/-- The working variables `a, b, c, d, e, f, g, h` of `_sha256_transform`. -/
structure WorkVars where
  a : Nat
  b : Nat
  c : Nat
  d : Nat
  e : Nat
  f : Nat
  g : Nat
  h : Nat
deriving DecidableEq, Repr

/-- Body of the compression loop of `_sha256_transform` for index `i`. -/
def compressionStep (w : List Nat) (v : WorkVars) (i : Nat) : WorkVars :=
  let s1 := _SHA256_ROTATE_RIGHT v.e 6 ^^^ _SHA256_ROTATE_RIGHT v.e 11 ^^^ _SHA256_ROTATE_RIGHT v.e 25
  let ch := (v.e &&& v.f) ^^^ ((2 ^ 32 - 1 - v.e) &&& v.g)
  let temp1 := (v.h + s1 + ch + _sha256_round_constants.getD i 0 + w.getD i 0) % 2 ^ 32
  let s0 := _SHA256_ROTATE_RIGHT v.a 2 ^^^ _SHA256_ROTATE_RIGHT v.a 13 ^^^ _SHA256_ROTATE_RIGHT v.a 22
  let maj := (v.a &&& v.b) ^^^ (v.a &&& v.c) ^^^ (v.b &&& v.c)
  let temp2 := (s0 + maj) % 2 ^ 32
  { h := v.g, g := v.f, f := v.e, e := (v.d + temp1) % 2 ^ 32,
    d := v.c, c := v.b, b := v.a, a := (temp1 + temp2) % 2 ^ 32 }

/-- The working variables after the compression loop `for (i = 0; i < 64; ++i)`. -/
def compressionLoop (w : List Nat) (v : WorkVars) : WorkVars :=
  (List.range 64).foldl (compressionStep w) v

/-- The function `_sha256_transform` with the initial content `w0` of its local array `w`
explicit: the new value of `ctx->hash` from the old one and the chunk. -/
def transformFrom (w0 : List Nat) (hash : List Nat) (chunk : List Nat) : List Nat :=
  let w := messageSchedule w0 chunk
  let v := compressionLoop w
    { a := hash.getD 0 0, b := hash.getD 1 0, c := hash.getD 2 0, d := hash.getD 3 0,
      e := hash.getD 4 0, f := hash.getD 5 0, g := hash.getD 6 0, h := hash.getD 7 0 }
  [(hash.getD 0 0 + v.a) % 2 ^ 32, (hash.getD 1 0 + v.b) % 2 ^ 32,
   (hash.getD 2 0 + v.c) % 2 ^ 32, (hash.getD 3 0 + v.d) % 2 ^ 32,
   (hash.getD 4 0 + v.e) % 2 ^ 32, (hash.getD 5 0 + v.f) % 2 ^ 32,
   (hash.getD 6 0 + v.g) % 2 ^ 32, (hash.getD 7 0 + v.h) % 2 ^ 32]

/-- The function `_sha256_transform`, its local array `w` starting zeroed (every entry of
`w` is written before it is read: by `messageSchedule_eq_spec` the schedule does not depend
on the initial content). -/
def _sha256_transform (hash : List Nat) (chunk : List Nat) : List Nat :=
  transformFrom (List.replicate 64 0) hash chunk

/-- The local variables of `sha256_compute` that change while it runs, with the ghost list
`calls` of the chunks handed to `_sha256_transform` so far. -/
structure ComputeState where
  /-- The array `ctx.hash`. -/
  hash : List Nat
  /-- The local array `chunk[64]`. -/
  chunk : List Nat
  /-- The variable `chunk_position`. -/
  chunk_position : Nat
  /-- Ghost: the chunks passed to `_sha256_transform`, in call order. -/
  calls : List (List Nat)
deriving DecidableEq, Repr

/-- The statement `chunk[chunk_position++] = v`. -/
def writeChunk (st : ComputeState) (v : Nat) : ComputeState :=
  { st with chunk := st.chunk.set st.chunk_position v, chunk_position := st.chunk_position + 1 }

/-- The statement `_sha256_transform(&ctx, chunk)`. -/
def callTransform (st : ComputeState) : ComputeState :=
  { st with hash := _sha256_transform st.hash st.chunk, calls := st.calls ++ [st.chunk] }

/-- Body of the loop `for (i = 0; i < length; ++i)` of `sha256_compute`. -/
def chunkingStep (buffer : List Nat) (st : ComputeState) (i : Nat) : ComputeState :=
  let st1 := writeChunk st (buffer.getD i 0)
  if st1.chunk_position = 64 then { callTransform st1 with chunk_position := 0 } else st1

/-- The loop `while (chunk_position < limit) chunk[chunk_position++] = 0x00`, unrolled at
most `fuel` times. -/
def zeroFill (limit : Nat) : Nat → ComputeState → ComputeState
  | 0, st => st
  | fuel + 1, st =>
    if st.chunk_position < limit then zeroFill limit fuel (writeChunk st 0x00) else st

/-- The call `memset(chunk, 0, n)`. -/
def memsetZero (chunk : List Nat) (n : Nat) : List Nat :=
  (List.range n).foldl (fun c i => c.set i 0) chunk

/-- The block "Pad remaining buffer" of `sha256_compute`. Both `while` loops run at most 64
times, since they stop at `chunk_position = 56` or `64` (`zeroFill_spec`). -/
def padRemaining (st : ComputeState) : ComputeState :=
  if st.chunk_position < 56 then
    zeroFill 56 64 (writeChunk st 0x80)
  else
    let st1 := callTransform (zeroFill 64 64 (writeChunk st 0x80))
    { st1 with chunk := memsetZero st1.chunk 56, chunk_position := 56 }

/-- The block "Append length of message" of `sha256_compute`: the eight stores
`chunk[56] = message_length >> 56` ... `chunk[63] = message_length`, each truncated to
`uint8_t`. -/
def appendLength (message_length : Nat) (st : ComputeState) : ComputeState :=
  let c56 := st.chunk.set 56 ((message_length >>> 56) % 256)
  let c57 := c56.set 57 ((message_length >>> 48) % 256)
  let c58 := c57.set 58 ((message_length >>> 40) % 256)
  let c59 := c58.set 59 ((message_length >>> 32) % 256)
  let c60 := c59.set 60 ((message_length >>> 24) % 256)
  let c61 := c60.set 61 ((message_length >>> 16) % 256)
  let c62 := c61.set 62 ((message_length >>> 8) % 256)
  let c63 := c62.set 63 (message_length % 256)
  { st with chunk := c63 }

/-- The value of `uint64_t message_length = length * 8`: both operands of the product are
32 bits wide (`uint32_t length`, `int` 8), so the product is computed modulo `2 ^ 32` and only
then widened. -/
def messageLength (length : Nat) : Nat :=
  (length * 8) % 2 ^ 32

/-- The function `sha256_compute` up to and including its last call of `_sha256_transform`
(everything before "Produce final hash value"), from the initial content `chunk0` of the
uninitialised array `chunk`. -/
def computeRun (chunk0 : List Nat) (buffer : List Nat) (length : Nat) : ComputeState :=
  let st0 : ComputeState :=
    { hash := _sha256_init, chunk := chunk0, chunk_position := 0, calls := [] }
  let st1 := (List.range length).foldl (chunkingStep buffer) st0
  let st2 := padRemaining st1
  let st3 := appendLength (messageLength length) st2
  callTransform st3

/-- Body of the loop "Produce final hash value" for index `i`: the four stores into
`result->hash`, each truncated to `uint8_t`. -/
def produceStep (hash : List Nat) (result : List Nat) (i : Nat) : List Nat :=
  let r0 := result.set (i * 4 + 0) ((hash.getD i 0 >>> 24) % 256)
  let r1 := r0.set (i * 4 + 1) ((hash.getD i 0 >>> 16) % 256)
  let r2 := r1.set (i * 4 + 2) ((hash.getD i 0 >>> 8) % 256)
  r2.set (i * 4 + 3) (hash.getD i 0 % 256)

/-- The loop "Produce final hash value" of `sha256_compute`: the content of `result->hash`
after it, from the content `result0` of that array before the call. -/
def produceDigest (hash : List Nat) (result0 : List Nat) : List Nat :=
  (List.range 8).foldl (produceStep hash) result0

/-- The function `sha256_compute`: the content of `result->hash` when it returns. `chunk0` is
the initial content of the local array `chunk`, `result0` the content of `result->hash`
before the call, `buffer` the memory `buffer` points to (reading it at or beyond
`buffer.length` is outside the contract of the C function and yields `0` here). The header
declaring `struct sha256_result` is not part of the sources; `result->hash` is an array of
32 bytes, the range of indices the function writes. -/
def sha256_compute (chunk0 result0 : List Nat) (buffer : List Nat) (length : Nat) : List Nat :=
  produceDigest (computeRun chunk0 buffer length).hash result0

/-! ## Definitions following the specification

The reference against which the embedding is compared: SHA-256 as the specification words it
(FIPS 180-4), written without arrays that are updated in place. -/

/-- The primes `2, 3, 5, ..., 311`; `firstPrimes_nth` shows that they are the first 64 primes,
in order. -/
def firstPrimes : List Nat :=
  [2, 3, 5, 7, 11, 13, 17, 19, 23, 29, 31, 37, 41, 43, 47, 53, 59, 61, 67, 71, 73, 79,
   83, 89, 97, 101, 103, 107, 109, 113, 127, 131, 137, 139, 149, 151, 157, 163, 167, 173, 179,
   181, 191, 193, 197, 199, 211, 223, 227, 229, 233, 239, 241, 251, 257, 263, 269, 271, 277,
   281, 283, 293, 307, 311]

/-- The search for the integer part of a `k`-th root of `n`, one bit at a time from bit
`b - 1` down to bit `0`: a bit is added to `r` when the `k`-th power stays at most `n`. -/
def rootSearch (k n : Nat) : Nat → Nat → Nat
  | 0, r => r
  | b + 1, r =>
    if (r + 2 ^ b) ^ k ≤ n then rootSearch k n b (r + 2 ^ b) else rootSearch k n b r

/-- The integer part of the `k`-th root of `n`, searched over 64 bits: for `n < 2 ^ (64 * k)`
it is the `r` with `r ^ k ≤ n < (r + 1) ^ k` (`integerRoot_spec`). -/
def integerRoot (k n : Nat) : Nat :=
  rootSearch k n 64 0

/-- The first 32 bits of the fractional part of the `k`-th root of `p`: the integer part of
that root times `2 ^ 32`, which is the integer part of the `k`-th root of `p * 2 ^ (32 * k)`,
modulo `2 ^ 32`. -/
def rootFractionBits (k p : Nat) : Nat :=
  integerRoot k (p * 2 ^ (32 * k)) % 2 ^ 32

/-- The initial hash value of SHA-256 (FIPS 180-4, 5.3.3): the first 32 bits of the
fractional parts of the square roots of the first 8 primes. It is computed here, not copied
from the source. -/
def initialHashValue : List Nat :=
  (firstPrimes.take 8).map (rootFractionBits 2)

/-- The 64 constants of SHA-256 (FIPS 180-4, 4.2.2): the first 32 bits of the fractional
parts of the cube roots of the first 64 primes. They are computed here, not copied from the
source. -/
def roundConstants : List Nat :=
  firstPrimes.map (rootFractionBits 3)

/-- Addition modulo `2 ^ 32`. -/
def add32 (x y : Nat) : Nat :=
  (x + y) % 2 ^ 32

/-- The rotation `rotr(x, n)` of a 32-bit word: the low `n` bits of `x` become the high `n`
bits, the other bits move down by `n`. -/
def rotr (x n : Nat) : Nat :=
  x / 2 ^ n + (x % 2 ^ n) * 2 ^ (32 - n)

/-- The chunk bytes `4i .. 4i+3` read as a big-endian 32-bit word. -/
def beWord (c : List Nat) (i : Nat) : Nat :=
  c.getD (4 * i) 0 * 2 ^ 24 + c.getD (4 * i + 1) 0 * 2 ^ 16 + c.getD (4 * i + 2) 0 * 2 ^ 8
    + c.getD (4 * i + 3) 0

/-- The schedule function `s0 = rotr(x,7) xor rotr(x,18) xor (x >> 3)`. -/
def sigma0 (x : Nat) : Nat :=
  rotr x 7 ^^^ rotr x 18 ^^^ (x >>> 3)

/-- The schedule function `s1 = rotr(x,17) xor rotr(x,19) xor (x >> 10)`. -/
def sigma1 (x : Nat) : Nat :=
  rotr x 17 ^^^ rotr x 19 ^^^ (x >>> 10)

/-- The word `w[i]` of the message schedule for `i ≥ 16`, from the list `w` of the `i` words
before it: `w[i-16] + s0 + w[i-7] + s1` modulo `2 ^ 32`. -/
def specScheduleNext (w : List Nat) : Nat :=
  add32 (add32 (add32 (w.getD (w.length - 16) 0) (sigma0 (w.getD (w.length - 15) 0)))
    (w.getD (w.length - 7) 0)) (sigma1 (w.getD (w.length - 2) 0))

/-- The first `16 + n` words of the message schedule of the chunk `c`. -/
def specScheduleTo (c : List Nat) : Nat → List Nat
  | 0 => (List.range 16).map (beWord c)
  | n + 1 => specScheduleTo c n ++ [specScheduleNext (specScheduleTo c n)]

/-- The message schedule `w[0..63]` of the chunk `c`. -/
def specSchedule (c : List Nat) : List Nat :=
  specScheduleTo c 48

/-- One round of the compression function with round constant `k` and schedule word `wi`. -/
def specRound (k wi : Nat) (v : WorkVars) : WorkVars :=
  let S1 := rotr v.e 6 ^^^ rotr v.e 11 ^^^ rotr v.e 25
  let ch := (v.e &&& v.f) ^^^ ((2 ^ 32 - 1 - v.e) &&& v.g)
  let t1 := add32 (add32 (add32 (add32 v.h S1) ch) k) wi
  let S0 := rotr v.a 2 ^^^ rotr v.a 13 ^^^ rotr v.a 22
  let maj := (v.a &&& v.b) ^^^ (v.a &&& v.c) ^^^ (v.b &&& v.c)
  let t2 := add32 S0 maj
  { a := add32 t1 t2, b := v.a, c := v.b, d := v.c, e := add32 v.d t1, f := v.e, g := v.f,
    h := v.g }

/-- The working variables after the rounds `0, 1, ..., n - 1`, applied in this order to `s`,
with the round constants `K` and the schedule `w`. -/
def specRounds (K w : List Nat) (s : WorkVars) : Nat → WorkVars
  | 0 => s
  | n + 1 => specRound (K.getD n 0) (w.getD n 0) (specRounds K w s n)

/-- The working variables `(a..h)` seeded from an 8-word state. -/
def WorkVars.ofState (s : List Nat) : WorkVars :=
  { a := s.getD 0 0, b := s.getD 1 0, c := s.getD 2 0, d := s.getD 3 0,
    e := s.getD 4 0, f := s.getD 5 0, g := s.getD 6 0, h := s.getD 7 0 }

/-- The working variables `(a..h)` as a list of 8 words. -/
def WorkVars.toState (v : WorkVars) : List Nat :=
  [v.a, v.b, v.c, v.d, v.e, v.f, v.g, v.h]

/-- The compression function: 64 rounds over the schedule of the chunk with the constants
`roundConstants`, then the working variables are added word-wise, modulo `2 ^ 32`, to the
state. -/
def specCompress (s c : List Nat) : List Nat :=
  List.zipWith add32 s
    (specRounds roundConstants (specSchedule c) (WorkVars.ofState s) 64).toState

/-- The number of zero bytes of the padding of a message of `L` bytes; it is the least `k`
such that `L + 1 + k + 8` is a multiple of 64 (`padZeroCount_least`). -/
def padZeroCount (L : Nat) : Nat :=
  (119 - L % 64) % 64

/-- The big-endian encoding of `n` on 8 bytes. -/
def be64 (n : Nat) : List Nat :=
  [n / 2 ^ 56 % 256, n / 2 ^ 48 % 256, n / 2 ^ 40 % 256, n / 2 ^ 32 % 256,
   n / 2 ^ 24 % 256, n / 2 ^ 16 % 256, n / 2 ^ 8 % 256, n % 256]

/-- The padding of a message whose length field holds `bits`: one byte `0x80`, the zero
bytes, the 8-byte length field. -/
def padWith (m : List Nat) (bits : Nat) : List Nat :=
  m ++ [0x80] ++ List.replicate (padZeroCount m.length) 0 ++ be64 bits

/-- The padded message: its length field holds the length of `m` in bits. -/
def padMessage (m : List Nat) : List Nat :=
  padWith m (8 * m.length)

/-- The consecutive 64-byte blocks of `l`. -/
def toBlocks (l : List Nat) : List (List Nat) :=
  (List.range (l.length / 64)).map (fun i => (l.drop (64 * i)).take 64)

/-- The big-endian encoding of a 32-bit word on 4 bytes. -/
def be32 (x : Nat) : List Nat :=
  [x / 2 ^ 24 % 256, x / 2 ^ 16 % 256, x / 2 ^ 8 % 256, x % 256]

/-- The words of a state serialised big-endian, in state order. -/
def serialise (s : List Nat) : List Nat :=
  (s.map be32).flatten

/-- The 32-bit words that a list of bytes holds, each read big-endian from 4 bytes. -/
def readWords (bytes : List Nat) : List Nat :=
  (List.range (bytes.length / 4)).map (beWord bytes)

/-- The reference SHA-256 digest of the message `m` (FIPS 180-4): the padded message is
folded block by block through the compression function from `initialHashValue`, and the
final state is serialised big-endian. No constant or function of the embedded source occurs
in it. -/
def sha256_reference (m : List Nat) : List Nat :=
  serialise ((toBlocks (padMessage m)).foldl specCompress initialHashValue)

/-! ## Definitions used to state the behaviour of `sha256_compute` -/

/-- The eight bytes that "Append length of message" stores at `chunk[56..63]`. -/
def lengthBytes (message_length : Nat) : List Nat :=
  [(message_length >>> 56) % 256, (message_length >>> 48) % 256, (message_length >>> 40) % 256,
   (message_length >>> 32) % 256, (message_length >>> 24) % 256, (message_length >>> 16) % 256,
   (message_length >>> 8) % 256, message_length % 256]

/-- The invariant of the loop "Break message into 512-bit chunks" of `sha256_compute` once
`i` bytes of `buffer` are consumed. -/
structure ChunkInv (buffer : List Nat) (i : Nat) (st : ComputeState) : Prop where
  len : st.chunk.length = 64
  pos : st.chunk_position = i % 64
  data : st.calls.flatten ++ st.chunk.take st.chunk_position = buffer.take i
  count : st.calls.length = i / 64
  blocks : ∀ c ∈ st.calls, c.length = 64
  hash : st.hash = st.calls.foldl _sha256_transform _sha256_init

/-- The chunks that `sha256_compute` hands to `_sha256_transform` after the chunking loop,
from the state `st` the loop ends in. -/
def tailCalls (st : ComputeState) (ml : Nat) : List (List Nat) :=
  if st.chunk_position < 56 then
    [st.chunk.take st.chunk_position ++ [0x80] ++ List.replicate (55 - st.chunk_position) 0
      ++ lengthBytes ml]
  else
    [st.chunk.take st.chunk_position ++ [0x80] ++ List.replicate (63 - st.chunk_position) 0,
     List.replicate 56 0 ++ lengthBytes ml]

/-! ## Data for the round constants -/

/-- The integer parts of the cube roots of the primes of `firstPrimes`. -/
def cubeRootIntegerParts : List Nat :=
  [1, 1, 1, 1, 2, 2, 2, 2, 2, 3, 3, 3, 3, 3, 3, 3, 3, 3, 4, 4, 4, 4, 4, 4, 4, 4, 4, 4, 4, 4, 5, 5,
   5, 5, 5, 5, 5, 5, 5, 5, 5, 5, 5, 5, 5, 5, 5, 6, 6, 6, 6, 6, 6, 6, 6, 6, 6, 6, 6, 6, 6, 6, 6, 6]

/-! ## The source with checked array accesses

A second embedding of `sha256.c` in which every array access is checked: reading or writing
outside an array, and a `while` loop that is still running when its fuel is used up, give
`none`. Index arithmetic on `uint32_t` wraps around; what is computed is as in the first
embedding. -/

/-- The read `a[i]`: `none` outside the array. -/
def readAt (a : List Nat) (i : Nat) : Option Nat :=
  a[i]?

/-- The store `a[i] = v`: `none` outside the array. -/
def writeAt (a : List Nat) (i v : Nat) : Option (List Nat) :=
  if i < a.length then some (a.set i v) else none

/-- The difference `i - k` of `uint32_t` values. -/
def sub32 (i k : Nat) : Nat :=
  (i + 2 ^ 32 - k) % 2 ^ 32

/-- First loop of `_sha256_transform`, body for index `i`, with checked accesses. -/
def scheduleCopyStepChecked (chunk : List Nat) (w : List Nat) (i : Nat) : Option (List Nat) := do
  let b0 ← readAt chunk (i * 4)
  let b1 ← readAt chunk (i * 4 + 1)
  let b2 ← readAt chunk (i * 4 + 2)
  let b3 ← readAt chunk (i * 4 + 3)
  writeAt w i (((b0 <<< 24) ||| (b1 <<< 16) ||| (b2 <<< 8) ||| b3) % 2 ^ 32)

/-- Second loop of `_sha256_transform`, body for index `i`, with checked accesses. -/
def scheduleExtendStepChecked (w : List Nat) (i : Nat) : Option (List Nat) := do
  let w15 ← readAt w (sub32 i 15)
  let s0 := _SHA256_ROTATE_RIGHT w15 7 ^^^ _SHA256_ROTATE_RIGHT w15 18 ^^^ (w15 >>> 3)
  let w2 ← readAt w (sub32 i 2)
  let s1 := _SHA256_ROTATE_RIGHT w2 17 ^^^ _SHA256_ROTATE_RIGHT w2 19 ^^^ (w2 >>> 10)
  let w16 ← readAt w (sub32 i 16)
  let w7 ← readAt w (sub32 i 7)
  writeAt w i ((w16 + s0 + w7 + s1) % 2 ^ 32)

/-- The two schedule loops of `_sha256_transform` with checked accesses. -/
def messageScheduleChecked (w0 : List Nat) (chunk : List Nat) : Option (List Nat) := do
  let w ← (List.range 16).foldlM (scheduleCopyStepChecked chunk) w0
  (List.range' 16 48).foldlM scheduleExtendStepChecked w

/-- Body of the compression loop of `_sha256_transform` with checked accesses. -/
def compressionStepChecked (w : List Nat) (v : WorkVars) (i : Nat) : Option WorkVars := do
  let s1 := _SHA256_ROTATE_RIGHT v.e 6 ^^^ _SHA256_ROTATE_RIGHT v.e 11 ^^^ _SHA256_ROTATE_RIGHT v.e 25
  let ch := (v.e &&& v.f) ^^^ ((2 ^ 32 - 1 - v.e) &&& v.g)
  let k ← readAt _sha256_round_constants i
  let wi ← readAt w i
  let temp1 := (v.h + s1 + ch + k + wi) % 2 ^ 32
  let s0 := _SHA256_ROTATE_RIGHT v.a 2 ^^^ _SHA256_ROTATE_RIGHT v.a 13 ^^^ _SHA256_ROTATE_RIGHT v.a 22
  let maj := (v.a &&& v.b) ^^^ (v.a &&& v.c) ^^^ (v.b &&& v.c)
  let temp2 := (s0 + maj) % 2 ^ 32
  some { h := v.g, g := v.f, f := v.e, e := (v.d + temp1) % 2 ^ 32,
         d := v.c, c := v.b, b := v.a, a := (temp1 + temp2) % 2 ^ 32 }

/-- The statement `ctx->hash[i] += x` with checked accesses. -/
def addToHash (hash : List Nat) (i x : Nat) : Option (List Nat) := do
  let old ← readAt hash i
  writeAt hash i ((old + x) % 2 ^ 32)

/-- The block "Initialize working variables to current hash value" of `_sha256_transform`
with checked accesses. -/
def loadWorkVars (hash : List Nat) : Option WorkVars := do
  let a ← readAt hash 0
  let b ← readAt hash 1
  let c ← readAt hash 2
  let d ← readAt hash 3
  let e ← readAt hash 4
  let f ← readAt hash 5
  let g ← readAt hash 6
  let h ← readAt hash 7
  some { a := a, b := b, c := c, d := d, e := e, f := f, g := g, h := h }

/-- The block "Add compressed chunk to current hash value" of `_sha256_transform` with
checked accesses. -/
def addWorkVars (hash : List Nat) (v : WorkVars) : Option (List Nat) := do
  let h0 ← addToHash hash 0 v.a
  let h1 ← addToHash h0 1 v.b
  let h2 ← addToHash h1 2 v.c
  let h3 ← addToHash h2 3 v.d
  let h4 ← addToHash h3 4 v.e
  let h5 ← addToHash h4 5 v.f
  let h6 ← addToHash h5 6 v.g
  addToHash h6 7 v.h

/-- The function `_sha256_transform` with checked accesses, its local array `w` starting
zeroed as in `_sha256_transform`. -/
def transformChecked (hash : List Nat) (chunk : List Nat) : Option (List Nat) := do
  let w ← messageScheduleChecked (List.replicate 64 0) chunk
  let v0 ← loadWorkVars hash
  let v ← (List.range 64).foldlM (compressionStepChecked w) v0
  addWorkVars hash v

/-- The statement `chunk[chunk_position++] = v` with a checked access. -/
def writeChunkChecked (st : ComputeState) (v : Nat) : Option ComputeState := do
  let chunk ← writeAt st.chunk st.chunk_position v
  some { st with chunk := chunk, chunk_position := st.chunk_position + 1 }

/-- The statement `_sha256_transform(&ctx, chunk)` with checked accesses. -/
def callTransformChecked (st : ComputeState) : Option ComputeState := do
  let hash ← transformChecked st.hash st.chunk
  some { st with hash := hash, calls := st.calls ++ [st.chunk] }

/-- Body of the loop `for (i = 0; i < length; ++i)` of `sha256_compute` with checked
accesses. -/
def chunkingStepChecked (buffer : List Nat) (st : ComputeState) (i : Nat) :
    Option ComputeState := do
  let byte ← readAt buffer i
  let st1 ← writeChunkChecked st byte
  if st1.chunk_position = 64 then
    let st2 ← callTransformChecked st1
    some { st2 with chunk_position := 0 }
  else
    some st1

/-- The loop `while (chunk_position < limit) chunk[chunk_position++] = 0x00` with checked
accesses: `none` also when the loop has not ended after `fuel` passes. -/
def zeroFillChecked (limit : Nat) : Nat → ComputeState → Option ComputeState
  | 0, st => if st.chunk_position < limit then none else some st
  | fuel + 1, st =>
    if st.chunk_position < limit then
      (writeChunkChecked st 0x00).bind (zeroFillChecked limit fuel)
    else some st

/-- The call `memset(chunk, 0, n)`: `none` when `n` exceeds the array. -/
def memsetZeroChecked (chunk : List Nat) (n : Nat) : Option (List Nat) :=
  if n ≤ chunk.length then some (memsetZero chunk n) else none

/-- The block "Pad remaining buffer" of `sha256_compute` with checked accesses. -/
def padRemainingChecked (st : ComputeState) : Option ComputeState := do
  if st.chunk_position < 56 then
    let st1 ← writeChunkChecked st 0x80
    zeroFillChecked 56 64 st1
  else
    let st1 ← writeChunkChecked st 0x80
    let st2 ← zeroFillChecked 64 64 st1
    let st3 ← callTransformChecked st2
    let chunk ← memsetZeroChecked st3.chunk 56
    some { st3 with chunk := chunk, chunk_position := 56 }

/-- The block "Append length of message" of `sha256_compute` with checked accesses. -/
def appendLengthChecked (message_length : Nat) (st : ComputeState) : Option ComputeState := do
  let c56 ← writeAt st.chunk 56 ((message_length >>> 56) % 256)
  let c57 ← writeAt c56 57 ((message_length >>> 48) % 256)
  let c58 ← writeAt c57 58 ((message_length >>> 40) % 256)
  let c59 ← writeAt c58 59 ((message_length >>> 32) % 256)
  let c60 ← writeAt c59 60 ((message_length >>> 24) % 256)
  let c61 ← writeAt c60 61 ((message_length >>> 16) % 256)
  let c62 ← writeAt c61 62 ((message_length >>> 8) % 256)
  let c63 ← writeAt c62 63 (message_length % 256)
  some { st with chunk := c63 }

/-- The function `sha256_compute` up to its last call of `_sha256_transform`, with checked
accesses. -/
def computeRunChecked (chunk0 : List Nat) (buffer : List Nat) (length : Nat) :
    Option ComputeState := do
  let st0 : ComputeState :=
    { hash := _sha256_init, chunk := chunk0, chunk_position := 0, calls := [] }
  let st1 ← (List.range length).foldlM (chunkingStepChecked buffer) st0
  let st2 ← padRemainingChecked st1
  let st3 ← appendLengthChecked (messageLength length) st2
  callTransformChecked st3

/-- Body of the loop "Produce final hash value" for index `i` with checked accesses. -/
def produceStepChecked (hash : List Nat) (result : List Nat) (i : Nat) : Option (List Nat) := do
  let x0 ← readAt hash i
  let r0 ← writeAt result (i * 4 + 0) ((x0 >>> 24) % 256)
  let x1 ← readAt hash i
  let r1 ← writeAt r0 (i * 4 + 1) ((x1 >>> 16) % 256)
  let x2 ← readAt hash i
  let r2 ← writeAt r1 (i * 4 + 2) ((x2 >>> 8) % 256)
  let x3 ← readAt hash i
  writeAt r2 (i * 4 + 3) (x3 % 256)

/-- The function `sha256_compute` with checked accesses: `some` of the content of
`result->hash` when every access was inside its array and every loop ended. -/
def sha256_compute_checked (chunk0 result0 : List Nat) (buffer : List Nat) (length : Nat) :
    Option (List Nat) := do
  let st ← computeRunChecked chunk0 buffer length
  (List.range 8).foldlM (produceStepChecked st.hash) result0

/-! ## The function on explicit memory

A second embedding of `sha256_compute`, in which every store of the function is a store into
one memory. The memory is a list of cells and an address is an index into it; a cell holds one
element of the arrays involved (a byte of `buffer`, of `chunk` or of `result->hash`, a word of
`ctx.hash`). The pointers `buffer` and `result->hash` of the caller are addresses, and so are
the local arrays `chunk` and `ctx.hash` of `sha256_compute`, whose addresses the function
hands to `_sha256_transform`. The scalar local variables and the array `w` of
`_sha256_transform`, whose addresses are not taken, are values as before. Nothing is assumed
on how the four regions lie in memory. -/

/-- The store `p[i] = v`. -/
def store (m : List Nat) (p i v : Nat) : List Nat :=
  m.set (p + i) v

/-- The value `p[i]`. -/
def load (m : List Nat) (p i : Nat) : Nat :=
  m.getD (p + i) 0

/-- The values `p[0], ..., p[n-1]`. -/
def loadArray (m : List Nat) (p n : Nat) : List Nat :=
  (List.range n).map (load m p)

/-- The function `_sha256_init` on memory: the eight stores `ctx->hash[k] = ...`. -/
def initAt (m : List Nat) (ctx : Nat) : List Nat :=
  (List.range 8).foldl (fun mem k => store mem ctx k (_sha256_init.getD k 0)) m

/-- The function `_sha256_transform(ctx, chunk)` on memory. The two schedule loops read
`chunk[0..63]` and the working variables are loaded from `ctx->hash[0..7]`; the only stores
are the eight statements `ctx->hash[k] += ...` at the end. -/
def transformAt (m : List Nat) (ctx chunk : Nat) : List Nat :=
  let w := messageSchedule (List.replicate 64 0) (loadArray m chunk 64)
  let v := compressionLoop w
    { a := load m ctx 0, b := load m ctx 1, c := load m ctx 2, d := load m ctx 3,
      e := load m ctx 4, f := load m ctx 5, g := load m ctx 6, h := load m ctx 7 }
  let m0 := store m ctx 0 ((load m ctx 0 + v.a) % 2 ^ 32)
  let m1 := store m0 ctx 1 ((load m0 ctx 1 + v.b) % 2 ^ 32)
  let m2 := store m1 ctx 2 ((load m1 ctx 2 + v.c) % 2 ^ 32)
  let m3 := store m2 ctx 3 ((load m2 ctx 3 + v.d) % 2 ^ 32)
  let m4 := store m3 ctx 4 ((load m3 ctx 4 + v.e) % 2 ^ 32)
  let m5 := store m4 ctx 5 ((load m4 ctx 5 + v.f) % 2 ^ 32)
  let m6 := store m5 ctx 6 ((load m5 ctx 6 + v.g) % 2 ^ 32)
  store m6 ctx 7 ((load m6 ctx 7 + v.h) % 2 ^ 32)

/-- The memory and the variable `chunk_position` while `sha256_compute` runs. -/
structure MemState where
  /-- The memory. -/
  mem : List Nat
  /-- The variable `chunk_position`. -/
  chunk_position : Nat
deriving DecidableEq, Repr

/-- The statement `chunk[chunk_position++] = v` on memory. -/
def writeChunkAt (chunk : Nat) (s : MemState) (v : Nat) : MemState :=
  { mem := store s.mem chunk s.chunk_position v, chunk_position := s.chunk_position + 1 }

/-- The statement `_sha256_transform(&ctx, chunk)` on memory. -/
def callTransformAt (ctx chunk : Nat) (s : MemState) : MemState :=
  { s with mem := transformAt s.mem ctx chunk }

/-- Body of the loop `for (i = 0; i < length; ++i)` on memory. -/
def chunkingStepAt (buffer ctx chunk : Nat) (s : MemState) (i : Nat) : MemState :=
  let s1 := writeChunkAt chunk s (load s.mem buffer i)
  if s1.chunk_position = 64 then { callTransformAt ctx chunk s1 with chunk_position := 0 }
  else s1

/-- The loop `while (chunk_position < limit) chunk[chunk_position++] = 0x00` on memory,
unrolled at most `fuel` times. -/
def zeroFillAt (chunk limit : Nat) : Nat → MemState → MemState
  | 0, s => s
  | fuel + 1, s =>
    if s.chunk_position < limit then zeroFillAt chunk limit fuel (writeChunkAt chunk s 0x00)
    else s

/-- The call `memset(chunk, 0, n)` on memory. -/
def memsetZeroAt (m : List Nat) (chunk n : Nat) : List Nat :=
  (List.range n).foldl (fun mem i => store mem chunk i 0) m

/-- The block "Pad remaining buffer" on memory. -/
def padRemainingAt (ctx chunk : Nat) (s : MemState) : MemState :=
  if s.chunk_position < 56 then
    zeroFillAt chunk 56 64 (writeChunkAt chunk s 0x80)
  else
    let s1 := callTransformAt ctx chunk (zeroFillAt chunk 64 64 (writeChunkAt chunk s 0x80))
    { mem := memsetZeroAt s1.mem chunk 56, chunk_position := 56 }

/-- The block "Append length of message" on memory. -/
def appendLengthAt (chunk : Nat) (message_length : Nat) (s : MemState) : MemState :=
  let c56 := store s.mem chunk 56 ((message_length >>> 56) % 256)
  let c57 := store c56 chunk 57 ((message_length >>> 48) % 256)
  let c58 := store c57 chunk 58 ((message_length >>> 40) % 256)
  let c59 := store c58 chunk 59 ((message_length >>> 32) % 256)
  let c60 := store c59 chunk 60 ((message_length >>> 24) % 256)
  let c61 := store c60 chunk 61 ((message_length >>> 16) % 256)
  let c62 := store c61 chunk 62 ((message_length >>> 8) % 256)
  let c63 := store c62 chunk 63 (message_length % 256)
  { s with mem := c63 }

/-- Body of the loop "Produce final hash value" on memory: four stores into `result->hash`,
each of a value read from `ctx.hash[i]`. -/
def produceStepAt (ctx result : Nat) (m : List Nat) (i : Nat) : List Nat :=
  let r0 := store m result (i * 4 + 0) ((load m ctx i >>> 24) % 256)
  let r1 := store r0 result (i * 4 + 1) ((load r0 ctx i >>> 16) % 256)
  let r2 := store r1 result (i * 4 + 2) ((load r1 ctx i >>> 8) % 256)
  store r2 result (i * 4 + 3) (load r2 ctx i % 256)

/-- The function `sha256_compute(buffer, length, result)` on memory: the memory when the
function returns, from the memory `m` at the call. `ctx` and `chunk` are the addresses of its
local arrays `ctx.hash` and `chunk`. -/
def sha256_compute_at (m : List Nat) (buffer length result ctx chunk : Nat) : List Nat :=
  let s0 : MemState := { mem := initAt m ctx, chunk_position := 0 }
  let s1 := (List.range length).foldl (chunkingStepAt buffer ctx chunk) s0
  let s2 := padRemainingAt ctx chunk s1
  let s3 := appendLengthAt chunk (messageLength length) s2
  let s4 := callTransformAt ctx chunk s3
  (List.range 8).foldl (produceStepAt ctx result) s4.mem

/-- The layout that C gives the objects of a call `sha256_compute(buffer, length, result)`:
the array `result->hash` and the local arrays lie in memory, and the local arrays `ctx.hash`
and `chunk`, being objects of their own, overlap neither each other nor the message nor
`result->hash`. The message and `result->hash` may overlap. -/
structure Layout (m : List Nat) (buffer length result ctx chunk : Nat) : Prop where
  chunk_in : chunk + 64 ≤ m.length
  ctx_in : ctx + 8 ≤ m.length
  result_in : result + 32 ≤ m.length
  ctx_chunk : ctx + 8 ≤ chunk ∨ chunk + 64 ≤ ctx
  buffer_chunk : buffer + length ≤ chunk ∨ chunk + 64 ≤ buffer
  buffer_ctx : buffer + length ≤ ctx ∨ ctx + 8 ≤ buffer
  result_ctx : result + 32 ≤ ctx ∨ ctx + 8 ≤ result
  result_chunk : result + 32 ≤ chunk ∨ chunk + 64 ≤ result

/-- The relation between a memory and the local arrays of the first embedding: the cells of
`chunk` and `ctx.hash` hold the arrays `ch` and `hs`, and the other cells are those of `m0`. -/
structure MemSim (m0 : List Nat) (ctx chunk : Nat) (mem ch hs : List Nat) : Prop where
  len : mem.length = m0.length
  frame : ∀ a, ¬ (ctx ≤ a ∧ a < ctx + 8) → ¬ (chunk ≤ a ∧ a < chunk + 64) →
    mem.getD a 0 = m0.getD a 0
  chunk_eq : loadArray mem chunk 64 = ch
  hash_eq : loadArray mem ctx 8 = hs

/-- The relation between the states of the two embeddings. -/
def Sim (m0 : List Nat) (ctx chunk : Nat) (s : MemState) (st : ComputeState) : Prop :=
  MemSim m0 ctx chunk s.mem st.chunk st.hash ∧ s.chunk_position = st.chunk_position

end SHA256

/-! # The container `FreeStoreArray<T,N,A>` (`FreeStoreArray/freestorearray.h`)

Conventions of the embedding.

* The block of `N` objects that `A().allocate(N)` returns is a `List T`; what the block holds
  before anything is constructed in it is a parameter `fresh` of the constructors, and the
  allocation is taken to succeed.
* The member `m_data` is `none` for `nullptr` and `some cells` when it points to a block that
  holds `cells`.
* A thrown exception is an `Except.error`; so is undefined behaviour (`Failure.undefined`):
  reading through `nullptr` or outside the block.
* `size_t` is 64 bits wide.
-/

namespace FreeStore

/-- What a member function ends in when it does not return normally. -/
inductive Failure where
  /-- The exception `std::runtime_error("FreeStoreArray: Invalid access to moved-from
  container.")`. -/
  | runtime_error : Failure
  /-- The exception `std::out_of_range("FreeStoreArray: Subscript out of range.")`. -/
  | out_of_range : Failure
  /-- Undefined behaviour. -/
  | undefined : Failure
deriving DecidableEq, Repr

/-- A value of type `T*` that points into the block of the container at hand, or nowhere. -/
inductive Pointer where
  /-- The pointer `nullptr`. -/
  | null : Pointer
  /-- The pointer to the element at `offset` from the start of the block. -/
  | elem (offset : Int) : Pointer
  /-- The result of pointer arithmetic that is undefined. -/
  | invalid : Pointer
deriving DecidableEq, Repr

/-- The pointer `p + k`; `nullptr + 0` is `nullptr`, `nullptr + k` is undefined otherwise. -/
def Pointer.add : Pointer → Int → Pointer
  | Pointer.null, k => if k = 0 then Pointer.null else Pointer.invalid
  | Pointer.elem o, k => Pointer.elem (o + k)
  | Pointer.invalid, _ => Pointer.invalid

/-- The class `FreeStoreArray<T,N,A>`: its only data member is `T* m_data`. -/
structure FreeStoreArray (T : Type) (N : Nat) where
  /-- The member `m_data`: `none` is `nullptr`, `some cells` a block that holds `cells`. -/
  m_data : Option (List T)

/-- The class invariant: the block `m_data` points to holds `N` objects. -/
def FreeStoreArray.Valid {T : Type} {N : Nat} (a : FreeStoreArray T N) : Prop :=
  ∀ cells, a.m_data = some cells → cells.length = N

/-- The library function `std::uninitialized_fill_n(block, n, value)`. -/
def uninitialized_fill_n {T : Type} (block : List T) (n : Nat) (value : T) : List T :=
  List.replicate n value ++ block.drop n

/-- The library function `std::uninitialized_copy(first, last, block)` for the range
`[first, last)` that holds `src`: `none` (undefined behaviour) when the range is longer than
the block. -/
def uninitialized_copy {T : Type} (src : List T) (block : List T) : Option (List T) :=
  if src.length ≤ block.length then some (src ++ block.drop src.length) else none

/-- The constructor `FreeStoreArray()`; `init` is the value-initialised `T{}`. -/
def FreeStoreArray.construct {T : Type} {N : Nat} (fresh : List T) (init : T) :
    FreeStoreArray T N :=
  { m_data := some (uninitialized_fill_n fresh N init) }

/-- The constructor `FreeStoreArray(std::initializer_list<T> list)`. -/
def FreeStoreArray.fromList {T : Type} {N : Nat} (fresh : List T) (list : List T) :
    Option (FreeStoreArray T N) :=
  (uninitialized_copy list fresh).map (fun cells => { m_data := some cells })

/-- The constructor `FreeStoreArray(FreeStoreArray&& other)`: the new object and `other` as
the constructor leaves it. -/
def FreeStoreArray.moveConstruct {T : Type} {N : Nat} (other : FreeStoreArray T N) :
    FreeStoreArray T N × FreeStoreArray T N :=
  ({ m_data := other.m_data }, { m_data := none })

/-- The member function `checkRange`. -/
def FreeStoreArray.checkRange {T : Type} {N : Nat} (a : FreeStoreArray T N) (n : Nat) :
    Except Failure Unit :=
  if a.m_data.isNone then Except.error Failure.runtime_error
  else if n ≥ N then Except.error Failure.out_of_range
  else Except.ok ()

/-- The expression `m_data[n]`, which is the body of `operator[]`. -/
def FreeStoreArray.subscript {T : Type} {N : Nat} (a : FreeStoreArray T N) (n : Nat) :
    Except Failure T :=
  match a.m_data with
  | none => Except.error Failure.undefined
  | some cells =>
    match cells[n]? with
    | some x => Except.ok x
    | none => Except.error Failure.undefined

/-- The member function `at`. -/
def FreeStoreArray.at {T : Type} {N : Nat} (a : FreeStoreArray T N) (n : Nat) :
    Except Failure T := do
  a.checkRange n
  a.subscript n

/-- The member function `front`. -/
def FreeStoreArray.front {T : Type} {N : Nat} (a : FreeStoreArray T N) : Except Failure T :=
  a.at 0

/-- The member function `back`; `N - 1` is computed in `size_t`. -/
def FreeStoreArray.back {T : Type} {N : Nat} (a : FreeStoreArray T N) : Except Failure T :=
  a.at ((N + 2 ^ 64 - 1) % 2 ^ 64)

/-- The member function `size`. -/
def FreeStoreArray.size {T : Type} {N : Nat} (a : FreeStoreArray T N) : Nat :=
  if a.m_data.isSome then N else 0

/-- The member function `empty`. -/
def FreeStoreArray.empty {T : Type} {N : Nat} (a : FreeStoreArray T N) : Bool :=
  a.size == 0

/-- The member function `data`, and the pointer that `m_data` is. -/
def FreeStoreArray.data {T : Type} {N : Nat} (a : FreeStoreArray T N) : Pointer :=
  match a.m_data with
  | none => Pointer.null
  | some _ => Pointer.elem 0

/-- The member function `begin`. -/
def FreeStoreArray.begin {T : Type} {N : Nat} (a : FreeStoreArray T N) : Pointer :=
  a.data

/-- The member function `end`. -/
def FreeStoreArray.end {T : Type} {N : Nat} (a : FreeStoreArray T N) : Pointer :=
  a.data.add a.size

/-- The expression `*p` for a pointer `p` into the block of `a`. -/
def FreeStoreArray.deref {T : Type} {N : Nat} (a : FreeStoreArray T N) :
    Pointer → Except Failure T
  | Pointer.elem o => if 0 ≤ o then a.subscript o.toNat else Except.error Failure.undefined
  | _ => Except.error Failure.undefined

/-- The loop `for (; it != last; ++it) visit(*it)`: the objects visited, in order; `none`
when a dereference is undefined or the loop has not ended after `fuel` passes. -/
def FreeStoreArray.visitRange {T : Type} {N : Nat} (a : FreeStoreArray T N) (last : Pointer) :
    Nat → Pointer → Option (List T)
  | 0, it => if it = last then some [] else none
  | fuel + 1, it =>
    if it = last then some []
    else
      match a.deref it with
      | Except.ok x => (a.visitRange last fuel (it.add 1)).map (fun rest => x :: rest)
      | Except.error _ => none

/-- The range-based loop `for (T& x : a)`, from `a.begin()` to `a.end()`: the objects
visited, in order. At most `N` passes are needed (`rangeFor_valid`). -/
def FreeStoreArray.rangeFor {T : Type} {N : Nat} (a : FreeStoreArray T N) : Option (List T) :=
  a.visitRange a.end N a.begin

/-- The function `testSpan` of `test.cpp` on the span over `a`, which runs from `a.data()`
over `a.size()` elements: the sum it prints. The `double` values of the test are integers
whose sums are exact, and are integers here. -/
def testSpan {N : Nat} (a : FreeStoreArray Int N) : Option Int :=
  (a.visitRange (a.data.add a.size) N a.data).map (fun data => data.foldl (fun sum d => sum + d) 0)

/-- The constructor `FreeStoreArray(const FreeStoreArray& other)`: a block is allocated and
the objects between `other.begin()` and `other.end()` are copied into it. -/
def FreeStoreArray.copyConstruct {T : Type} {N : Nat} (fresh : List T)
    (other : FreeStoreArray T N) : Option (FreeStoreArray T N) :=
  other.rangeFor.bind (fun src =>
    (uninitialized_copy src fresh).map (fun cells => { m_data := some cells }))

end FreeStore

/-! # The CRC table generators (`CRC/gen16.c`, `CRC/gen32.c`) -/

namespace CRC

/-- The macro `CRC16_POLYNOM` of `gen16.c`. -/
def CRC16_POLYNOM : Nat := 0xa001

/-- The macro `CRC32_POLYNOM` of `gen32.c`. -/
def CRC32_POLYNOM : Nat := 0xedb88320

/-- The exponents of the polynomial that the comment of `gen16.c` gives:
`x^16 + x^15 + x^2 + x^0`. -/
def crc16Exponents : List Nat := [16, 15, 2, 0]

/-- The exponents of the polynomial that the comment of `gen32.c` gives:
`X^32 + X^26 + X^23 + X^22 + X^16 + X^12 + X^11 + X^10 + X^8 + X^7 + X^5 + X^4 + X^2 + X^1
+ X^0`. -/
def crc32Exponents : List Nat := [32, 26, 23, 22, 16, 12, 11, 10, 8, 7, 5, 4, 2, 1, 0]

/-- Body of the inner loop of `gen16.c` on the `uint16_t` variable `crc`. -/
def step16 (crc : Nat) : Nat :=
  if crc &&& 0x0001 ≠ 0 then ((crc >>> 1) ^^^ CRC16_POLYNOM) % 2 ^ 16
  else (crc >>> 1) % 2 ^ 16

/-- The value stored in `table[i]` by `gen16.c`: the inner loop run from `(uint16_t)i`. -/
def entry16 (i : Nat) : Nat :=
  (List.range 8).foldl (fun crc _ => step16 crc) (i % 2 ^ 16)

/-- The array `table` of `gen16.c` after the loop "Compute table"; a static array starts
zeroed. -/
def table16 : List Nat :=
  (List.range 256).foldl (fun table i => table.set i (entry16 i)) (List.replicate 256 0)

/-- Body of the inner loop of `gen32.c` on the `uint32_t` variable `crc`. -/
def step32 (crc : Nat) : Nat :=
  if crc &&& 0x00000001 ≠ 0 then ((crc >>> 1) ^^^ CRC32_POLYNOM) % 2 ^ 32
  else (crc >>> 1) % 2 ^ 32

/-- The value stored in `table[i]` by `gen32.c`: the inner loop run from `(uint32_t)i`. -/
def entry32 (i : Nat) : Nat :=
  (List.range 8).foldl (fun crc _ => step32 crc) (i % 2 ^ 32)

/-- The array `table` of `gen32.c` after the loop "Compute table"; a static array starts
zeroed. -/
def table32 : List Nat :=
  (List.range 256).foldl (fun table i => table.set i (entry32 i)) (List.replicate 256 0)

/-- The step of a bitwise CRC with the polynomial constant `poly`: if the low bit is set then
`(x >> 1) xor poly`, else `x >> 1`. -/
def bitwiseStep (poly x : Nat) : Nat :=
  if x % 2 = 1 then (x >>> 1) ^^^ poly else x >>> 1

/-- Bitwise updating: the byte `b` is xored into `crc`, then the step is applied eight
times. -/
def bitwiseUpdate (poly crc b : Nat) : Nat :=
  (bitwiseStep poly)^[8] (crc ^^^ b)

/-- Table-driven updating: `table[(crc xor b) and 0xff] xor (crc >> 8)`. -/
def tableUpdate (table : List Nat) (crc b : Nat) : Nat :=
  table.getD ((crc ^^^ b) &&& 0xff) 0 ^^^ (crc >>> 8)

end CRC

/-! # The peer port of `TcpSocket` (`TcpSocket/tcpsocket.cpp`)

Only the data members of a `TcpSocket` and what its two constructors store in them are
embedded, for a run in which every system call succeeds. The byte order of the host is a
parameter: `htons`, `ntohs`, `htonl` and `ntohl` swap the bytes on a little-endian host and
change nothing on a big-endian one. -/

namespace Tcp

/-- The 16-bit value `x` with its two bytes swapped. -/
def swap16 (x : Nat) : Nat :=
  (x % 256) * 256 + (x / 256) % 256

/-- The 32-bit value `x` with its four bytes reversed. -/
def swap32 (x : Nat) : Nat :=
  (x % 256) * 2 ^ 24 + (x / 2 ^ 8 % 256) * 2 ^ 16 + (x / 2 ^ 16 % 256) * 2 ^ 8
    + (x / 2 ^ 24) % 256

/-- The library function `htons` on a host that is little-endian or not. -/
def htons (littleEndian : Bool) (x : Nat) : Nat :=
  if littleEndian then swap16 x else x % 2 ^ 16

/-- The library function `ntohs` on a host that is little-endian or not. -/
def ntohs (littleEndian : Bool) (x : Nat) : Nat :=
  if littleEndian then swap16 x else x % 2 ^ 16

/-- The library function `htonl` on a host that is little-endian or not. -/
def htonl (littleEndian : Bool) (x : Nat) : Nat :=
  if littleEndian then swap32 x else x % 2 ^ 32

/-- The library function `ntohl` on a host that is little-endian or not. -/
def ntohl (littleEndian : Bool) (x : Nat) : Nat :=
  if littleEndian then swap32 x else x % 2 ^ 32

/-- The fields of the system structure `sockaddr_in` that the class uses, both held in
network byte order and read here as the host reads them. -/
structure sockaddr_in where
  /-- The field `sin_port`. -/
  sin_port : Nat
  /-- The field `sin_addr.s_addr`. -/
  sin_addr : Nat
deriving DecidableEq, Repr

/-- The constructor `TcpAddress(const sockaddr_in& addr)`: the four bytes `m_bytes`. -/
def addressOfSockaddr (littleEndian : Bool) (addr : sockaddr_in) : List Nat :=
  let address := ntohl littleEndian addr.sin_addr
  [(address >>> 24) % 256, (address >>> 16) % 256, (address >>> 8) % 256, (address >>> 0) % 256]

/-- The data members of a `TcpSocket`: the descriptor `d->fd`, the bytes of `m_address` and
`m_port`. -/
structure TcpSocket where
  /-- The member `d->fd`. -/
  fd : Int
  /-- The bytes of the member `m_address`. -/
  m_address : List Nat
  /-- The member `m_port`. -/
  m_port : Nat
deriving DecidableEq, Repr

/-- The constructor `TcpSocket(int fd, const sockaddr_in& sockaddr)`. -/
def TcpSocket.fromDescriptor (littleEndian : Bool) (fd : Int) (sockaddr : sockaddr_in) :
    TcpSocket :=
  { fd := fd, m_address := addressOfSockaddr littleEndian sockaddr, m_port := sockaddr.sin_port }

/-- The structure `sockaddr` that the member function `connect` fills in and hands to the
system call `connect`. -/
def connectSockaddr (littleEndian : Bool) (address : List Nat) (port : Nat) : sockaddr_in :=
  { sin_port := htons littleEndian port,
    sin_addr := htonl littleEndian (((address.getD 0 0) <<< 24) ||| ((address.getD 1 0) <<< 16)
      ||| ((address.getD 2 0) <<< 8) ||| (address.getD 3 0)) }

/-- The constructor `TcpSocket(const TcpAddress& address, uint16_t port, timeout)` when the
system calls succeed and give the descriptor `fd`. -/
def TcpSocket.connectTo (fd : Int) (address : List Nat) (port : Nat) : TcpSocket :=
  { fd := fd, m_address := address, m_port := port }

/-- The member function `port`. -/
def TcpSocket.port (s : TcpSocket) : Nat :=
  s.m_port

end Tcp

/-! # The sizes of `SincFilter` (`SincFilter/sincfilter.cpp`)

Conventions of the embedding.

* The coefficients are values of a type `R` with the arithmetic the operators use; the claims
  are about the number of coefficients only.
* `size_t` is 64 bits wide: a sum or difference of sizes is taken modulo `2 ^ 64`.
* The parameter `ndebug` says whether the program is built with `NDEBUG` defined. When it is
  not, a failed `assert` ends the call with `Failure.assertion`; when it is, `assert` does
  nothing.
* A `std::vector<double>` holds at most `max_size` elements, and constructing a larger one
  throws `std::length_error`; constructing one of at most `max_size` elements is taken to
  succeed.
* An access outside a vector or a span is undefined behaviour, `Failure.undefined`.
* A moved-from `SincFilter` holds the empty vector, which is what the move constructor of
  `std::vector` leaves in its source.
-/

namespace Sinc

/-- The assertions of `sincfilter.cpp`. -/
inductive Assertion where
  /-- In `SincFilter(size_t)`: `size >= MinimumSize && size % 2 == 1`. -/
  | constructorSize : Assertion
  /-- In `SincFilter(size_t, double, WindowType)`: `fc > MinimumFrequency &&
  fc < MaximumFrequency`. -/
  | frequency : Assertion
  /-- In `operator+` and `operator-`: `rhs.size() == m_coeffs.size()`. -/
  | sameSize : Assertion
  /-- In `stopBand`: `fl < fh`. -/
  | bandOrder : Assertion
  /-- In `convolve`: `out.size() >= in1.size() + in2.size() - 1`. -/
  | convolveSize : Assertion
deriving DecidableEq, Repr

/-- What ends a call that returns no result. -/
inductive Failure where
  /-- A failed `assert`, in a build without `NDEBUG`. -/
  | assertion : Assertion → Failure
  /-- The exception `std::length_error` of the constructor of `std::vector`. -/
  | length_error : Failure
  /-- Undefined behaviour: an access outside a vector or a span. -/
  | undefined : Failure
deriving DecidableEq, Repr

/-- The constant `SincFilter::MinimumSize`. -/
def MinimumSize : Nat := 3

/-- The value of `std::vector<double>::max_size()` (64-bit libstdc++: `PTRDIFF_MAX / 8`). The
proofs use only that it is below `2 ^ 63`. -/
def max_size : Nat := 2 ^ 60 - 1

/-- The sum `x + y` of two values of type `size_t`. -/
def size_add (x y : Nat) : Nat :=
  (x + y) % 2 ^ 64

/-- The difference `x - y` of two values of type `size_t`. -/
def size_sub (x y : Nat) : Nat :=
  (x + (2 ^ 64 - y % 2 ^ 64)) % 2 ^ 64

/-- The macro `assert(cond)`. -/
def assert (ndebug : Bool) (cond : Bool) (a : Assertion) : Except Failure Unit :=
  if ndebug || cond then Except.ok () else Except.error (Failure.assertion a)

/-- The constructor call `std::vector<double>(size, 0.0)`. -/
def vector {R : Type} [Zero R] (size : Nat) : Except Failure (List R) :=
  if size ≤ max_size then Except.ok (List.replicate size 0)
  else Except.error Failure.length_error

/-- The class `SincFilter`: its only data member is the vector `m_coeffs`. -/
structure SincFilter (R : Type) where
  /-- The member `m_coeffs`. -/
  m_coeffs : List R

/-- The member function `size`. -/
def SincFilter.size {R : Type} (f : SincFilter R) : Nat :=
  f.m_coeffs.length

/-- The constructor `SincFilter(size_t size)`: the member `m_coeffs` is initialised first,
then the body runs the assertion. -/
def SincFilter.construct {R : Type} [Zero R] (ndebug : Bool) (size : Nat) :
    Except Failure (SincFilter R) :=
  (vector size).bind (fun coeffs =>
    (assert ndebug (decide (size ≥ MinimumSize ∧ size % 2 = 1)) Assertion.constructorSize).map
      (fun _ => { m_coeffs := coeffs }))

/-- The library function `std::transform(first, last, out, op)` over the range that holds
`src`, writing into the vector that holds `dst`. -/
def transform {R : Type} (op : R → R) (src dst : List R) : Except Failure (List R) :=
  if src.length ≤ dst.length then Except.ok (src.map op ++ dst.drop src.length)
  else Except.error Failure.undefined

/-- The library function `std::transform(first1, last1, first2, out, op)` over the ranges
that hold `src1` and `src2`, writing into the vector that holds `dst`. -/
def transform2 {R : Type} (op : R → R → R) (src1 src2 dst : List R) :
    Except Failure (List R) :=
  if src1.length ≤ src2.length ∧ src1.length ≤ dst.length then
    Except.ok (List.zipWith op src1 src2 ++ dst.drop src1.length)
  else Except.error Failure.undefined

/-- The member function `operator+`. -/
def SincFilter.add {R : Type} [Zero R] [Add R] (ndebug : Bool) (lhs rhs : SincFilter R) :
    Except Failure (SincFilter R) :=
  (assert ndebug (decide (rhs.size = lhs.m_coeffs.length)) Assertion.sameSize).bind (fun _ =>
    (SincFilter.construct ndebug lhs.m_coeffs.length).bind (fun out =>
      (transform2 (fun x y => x + y) lhs.m_coeffs rhs.m_coeffs out.m_coeffs).map
        (fun coeffs => { m_coeffs := coeffs })))

/-- The member function `operator-`. -/
def SincFilter.sub {R : Type} [Zero R] [Sub R] (ndebug : Bool) (lhs rhs : SincFilter R) :
    Except Failure (SincFilter R) :=
  (assert ndebug (decide (rhs.size = lhs.m_coeffs.length)) Assertion.sameSize).bind (fun _ =>
    (SincFilter.construct ndebug lhs.m_coeffs.length).bind (fun out =>
      (transform2 (fun x y => x - y) lhs.m_coeffs rhs.m_coeffs out.m_coeffs).map
        (fun coeffs => { m_coeffs := coeffs })))

/-- The statement `out[i + j] += in1[i] * in2[j]` of `convolve`. -/
def convolveStep {R : Type} [Zero R] [Add R] [Mul R] (in1 in2 : List R) (i : Nat)
    (out : List R) (j : Nat) : Except Failure (List R) :=
  if i + j < out.length then
    Except.ok (out.set (i + j) (out.getD (i + j) 0 + in1.getD i 0 * in2.getD j 0))
  else Except.error Failure.undefined

/-- The static member function `convolve`: the assertion, `std::fill(out, 0.0)` and the two
nested loops. -/
def convolve {R : Type} [Zero R] [Add R] [Mul R] (ndebug : Bool) (in1 in2 out : List R) :
    Except Failure (List R) :=
  (assert ndebug (decide (out.length ≥ size_sub (size_add in1.length in2.length) 1))
    Assertion.convolveSize).bind (fun _ =>
    (List.range in1.length).foldlM
      (fun acc i => (List.range in2.length).foldlM (convolveStep in1 in2 i) acc)
      (List.replicate out.length 0))

/-- The member function `operator*`. -/
def SincFilter.mul {R : Type} [Zero R] [Add R] [Mul R] (ndebug : Bool)
    (lhs rhs : SincFilter R) : Except Failure (SincFilter R) :=
  (SincFilter.construct ndebug (size_sub (size_add lhs.m_coeffs.length rhs.size) 1)).bind
    (fun out => (convolve ndebug lhs.m_coeffs rhs.m_coeffs out.m_coeffs).map
      (fun coeffs => { m_coeffs := coeffs }))

/-- The member function `operator~`. -/
def SincFilter.invert {R : Type} [Zero R] [One R] [Add R] [Neg R] (ndebug : Bool)
    (f : SincFilter R) : Except Failure (SincFilter R) :=
  (SincFilter.construct ndebug f.m_coeffs.length).bind (fun out =>
    (transform (fun x => -x) f.m_coeffs out.m_coeffs).bind (fun negated =>
      let centre := size_sub negated.length 1 / 2
      if centre < negated.length then
        Except.ok { m_coeffs := negated.set centre (negated.getD centre 0 + 1) }
      else Except.error Failure.undefined))

/-- The static member function `lowPass`, which is the constructor
`SincFilter(size_t, double, WindowType)`: `fcInRange` says whether `fc` passes the assertion,
and `design i` is the value that the constructor, the window and `normalize` leave in
`m_coeffs[i]`. -/
def SincFilter.lowPass {R : Type} [Zero R] (ndebug : Bool) (size : Nat) (fcInRange : Bool)
    (design : Nat → R) : Except Failure (SincFilter R) :=
  (SincFilter.construct ndebug size).bind (fun out =>
    (assert ndebug fcInRange Assertion.frequency).map (fun _ =>
      { m_coeffs := (List.range out.m_coeffs.length).foldl
          (fun coeffs i => coeffs.set i (design i)) out.m_coeffs }))

/-- The static member function `highPass`: `~lowPass(size, fc, window)`. -/
def SincFilter.highPass {R : Type} [Zero R] [One R] [Add R] [Neg R] (ndebug : Bool)
    (size : Nat) (fcInRange : Bool) (design : Nat → R) : Except Failure (SincFilter R) :=
  (SincFilter.lowPass ndebug size fcInRange design).bind (fun f => f.invert ndebug)

/-- The static member function `stopBand`: the assertion `fl < fh`, then
`lowPass(size, fl, window) + highPass(size, fh, window)`, the left operand taken first. -/
def SincFilter.stopBand {R : Type} [Zero R] [One R] [Add R] [Neg R] (ndebug : Bool)
    (size : Nat) (flBelowFh flInRange fhInRange : Bool) (designLow designHigh : Nat → R) :
    Except Failure (SincFilter R) :=
  (assert ndebug flBelowFh Assertion.bandOrder).bind (fun _ =>
    (SincFilter.lowPass ndebug size flInRange designLow).bind (fun low =>
      (SincFilter.highPass ndebug size fhInRange designHigh).bind (fun high =>
        low.add ndebug high)))

/-- The static member function `bandPass`: `~stopBand(size, fl, fh, window)`. -/
def SincFilter.bandPass {R : Type} [Zero R] [One R] [Add R] [Neg R] (ndebug : Bool)
    (size : Nat) (flBelowFh flInRange fhInRange : Bool) (designLow designHigh : Nat → R) :
    Except Failure (SincFilter R) :=
  (SincFilter.stopBand ndebug size flBelowFh flInRange fhInRange designLow designHigh).bind
    (fun f => f.invert ndebug)

/-- The filters that a program can hold through the public interface: the results of
`lowPass` and of the operators on such filters (the other static member functions are
compositions of these, see `compositions_reachable`, and a copy has the coefficients of its
source), and the moved-from filter that the implicit move constructor and move assignment
leave behind. The member functions `size`, `coefficients` and `apply` leave the filter as it
is. -/
inductive Reachable {R : Type} [Zero R] [One R] [Add R] [Sub R] [Neg R] [Mul R]
    (ndebug : Bool) : SincFilter R → Prop where
  | lowPass (size : Nat) (fcInRange : Bool) (design : Nat → R) (f : SincFilter R) :
      SincFilter.lowPass ndebug size fcInRange design = Except.ok f → Reachable ndebug f
  | add (a b f : SincFilter R) :
      Reachable ndebug a → Reachable ndebug b → a.add ndebug b = Except.ok f →
      Reachable ndebug f
  | sub (a b f : SincFilter R) :
      Reachable ndebug a → Reachable ndebug b → a.sub ndebug b = Except.ok f →
      Reachable ndebug f
  | mul (a b f : SincFilter R) :
      Reachable ndebug a → Reachable ndebug b → a.mul ndebug b = Except.ok f →
      Reachable ndebug f
  | invert (a f : SincFilter R) :
      Reachable ndebug a → a.invert ndebug = Except.ok f → Reachable ndebug f
  | moved (a : SincFilter R) : Reachable ndebug a → Reachable ndebug { m_coeffs := [] }

/-- The invariant: an odd number of coefficients, at least `MinimumSize`. -/
def SincFilter.OddSize {R : Type} (f : SincFilter R) : Prop :=
  f.size ≥ MinimumSize ∧ f.size % 2 = 1

end Sinc

namespace SHA256

/-! ## Auxiliary facts on lists and on 32-bit words -/

theorem getD_set_ne (l : List Nat) {i j : Nat} (v d : Nat) (h : i ≠ j) :
    (l.set j v).getD i d = l.getD i d := by
  simp [List.getD_eq_getElem?_getD, List.getElem?_set_ne (Ne.symm h)]

theorem getD_set_eq (l : List Nat) {j : Nat} (v d : Nat) (h : j < l.length) :
    (l.set j v).getD j d = v := by
  simp [List.getD_eq_getElem?_getD, List.getElem?_set_self, h]

theorem getD_take (l : List Nat) {i k : Nat} (d : Nat) (h : i < k) :
    (l.take k).getD i d = l.getD i d := by
  simp [List.getD_eq_getElem?_getD, List.getElem?_take, h]

theorem take_succ_set (l : List Nat) {i : Nat} (v : Nat) (h : i < l.length) :
    (l.set i v).take (i + 1) = l.take i ++ [v] := by
  induction l generalizing i with
  | nil => simp at h
  | cons a t ih =>
    cases i with
    | zero => simp
    | succ k =>
      have hk : k < t.length := by simpa using h
      simp [ih hk]

theorem getD_lt_of_forall (l : List Nat) (i B : Nat) (hB : 0 < B) (h : ∀ x ∈ l, x < B) :
    l.getD i 0 < B := by
  rw [List.getD_eq_getElem?_getD]
  cases hi : l[i]? with
  | none => simpa using hB
  | some x =>
    have := List.getElem?_mem hi
    simpa using h x this

theorem rotate_right_eq_rotr (x n : Nat) (hx : x < 2 ^ 32) (hn : n ≤ 32) :
    _SHA256_ROTATE_RIGHT x n = rotr x n := by
  unfold _SHA256_ROTATE_RIGHT rotr
  have h1 : x >>> n < 2 ^ (32 - n) := by
    rw [Nat.shiftRight_eq_div_pow]
    apply Nat.div_lt_of_lt_mul
    rw [← pow_add]
    have : n + (32 - n) = 32 := by omega
    rw [this]; exact hx
  have h2 : (x <<< (32 - n)) % 2 ^ 32 = (x % 2 ^ n) <<< (32 - n) := by
    rw [Nat.shiftLeft_eq, Nat.shiftLeft_eq]
    have : (2:Nat) ^ 32 = 2 ^ n * 2 ^ (32 - n) := by
      rw [← pow_add]; congr 1; omega
    rw [this, Nat.mul_mod_mul_right]
  rw [h2, Nat.lor_comm, Nat.shiftLeft_eq, Nat.mul_comm, ← Nat.mul_add_lt_is_or h1,
    Nat.shiftRight_eq_div_pow, Nat.add_comm, Nat.mul_comm]

theorem copyWord_eq (b0 b1 b2 b3 : Nat) (h0 : b0 < 256) (h1 : b1 < 256) (h2 : b2 < 256)
    (h3 : b3 < 256) :
    ((b0 <<< 24) ||| (b1 <<< 16) ||| (b2 <<< 8) ||| b3) % 2 ^ 32
      = b0 * 2 ^ 24 + b1 * 2 ^ 16 + b2 * 2 ^ 8 + b3 := by
  have e3 : (b2 <<< 8) ||| b3 = 2 ^ 8 * b2 + b3 := by
    rw [Nat.shiftLeft_eq, Nat.mul_comm]
    exact (Nat.mul_add_lt_is_or (by omega) _).symm
  have e2 : (b1 <<< 16) ||| (2 ^ 8 * b2 + b3) = 2 ^ 16 * b1 + (2 ^ 8 * b2 + b3) := by
    rw [Nat.shiftLeft_eq, Nat.mul_comm]
    exact (Nat.mul_add_lt_is_or (by omega) _).symm
  have e1 : (b0 <<< 24) ||| (2 ^ 16 * b1 + (2 ^ 8 * b2 + b3))
      = 2 ^ 24 * b0 + (2 ^ 16 * b1 + (2 ^ 8 * b2 + b3)) := by
    rw [Nat.shiftLeft_eq, Nat.mul_comm]
    exact (Nat.mul_add_lt_is_or (by omega) _).symm
  rw [Nat.lor_assoc, Nat.lor_assoc, e3, e2, e1]
  omega

/-! ## The constants of the reference -/

theorem rootSearch_spec (k n : Nat) : ∀ (b r : Nat), r ^ k ≤ n → n < (r + 2 ^ b) ^ k →
    rootSearch k n b r ^ k ≤ n ∧ n < (rootSearch k n b r + 1) ^ k := by
  intro b
  induction b with
  | zero =>
    intro r h1 h2
    exact ⟨h1, by simpa using h2⟩
  | succ b ih =>
    intro r h1 h2
    unfold rootSearch
    split
    · next h =>
      apply ih _ h
      have e : r + 2 ^ b + 2 ^ b = r + 2 ^ (b + 1) := by rw [pow_succ]; omega
      rw [e]; exact h2
    · next h =>
      exact ih _ h1 (by omega)

/-- The value `integerRoot k n` is the integer part of the `k`-th root of `n`. -/
theorem integerRoot_spec (k n : Nat) (hk : 0 < k) (hn : n < 2 ^ (64 * k)) :
    integerRoot k n ^ k ≤ n ∧ n < (integerRoot k n + 1) ^ k := by
  unfold integerRoot
  apply rootSearch_spec
  · rw [zero_pow (by omega)]; exact Nat.zero_le _
  · rw [Nat.zero_add, ← pow_mul]; exact hn

theorem integerRoot_two (n : Nat) (hn : n < 2 ^ 128) : integerRoot 2 n = Nat.sqrt n := by
  obtain ⟨h1, h2⟩ := integerRoot_spec 2 n (by norm_num) (by simpa using hn)
  exact Nat.eq_sqrt'.mpr ⟨h1, h2⟩

/-! ## The message schedule -/

theorem specScheduleTo_length (c : List Nat) (n : Nat) :
    (specScheduleTo c n).length = 16 + n := by
  induction n with
  | zero => simp [specScheduleTo]
  | succ n ih => simp [specScheduleTo, ih]; omega

theorem add32_lt (x y : Nat) : add32 x y < 2 ^ 32 :=
  Nat.mod_lt _ (by norm_num)

theorem beWord_lt (c : List Nat) (hc : ∀ b ∈ c, b < 256) (i : Nat) : beWord c i < 2 ^ 32 := by
  have h0 := getD_lt_of_forall c (4 * i) 256 (by norm_num) hc
  have h1 := getD_lt_of_forall c (4 * i + 1) 256 (by norm_num) hc
  have h2 := getD_lt_of_forall c (4 * i + 2) 256 (by norm_num) hc
  have h3 := getD_lt_of_forall c (4 * i + 3) 256 (by norm_num) hc
  unfold beWord
  omega

theorem specScheduleTo_lt (c : List Nat) (hc : ∀ b ∈ c, b < 256) (n : Nat) :
    ∀ x ∈ specScheduleTo c n, x < 2 ^ 32 := by
  induction n with
  | zero =>
    intro x hx
    simp only [specScheduleTo, List.mem_map] at hx
    obtain ⟨i, _, rfl⟩ := hx
    exact beWord_lt c hc i
  | succ n ih =>
    intro x hx
    simp only [specScheduleTo, List.mem_append, List.mem_singleton] at hx
    rcases hx with hx | rfl
    · exact ih x hx
    · exact add32_lt _ _

theorem copyStep_eq_beWord (c w : List Nat) (hc : ∀ b ∈ c, b < 256) (i : Nat) :
    scheduleCopyStep c w i = w.set i (beWord c i) := by
  unfold scheduleCopyStep beWord
  rw [copyWord_eq _ _ _ _ (getD_lt_of_forall c _ 256 (by norm_num) hc)
    (getD_lt_of_forall c _ 256 (by norm_num) hc) (getD_lt_of_forall c _ 256 (by norm_num) hc)
    (getD_lt_of_forall c _ 256 (by norm_num) hc), Nat.mul_comm i 4]

theorem copyLoop_spec (c w0 : List Nat) (hc : ∀ b ∈ c, b < 256) (hw : w0.length = 64)
    (n : Nat) (hn : n ≤ 16) :
    ((List.range n).foldl (scheduleCopyStep c) w0).length = 64 ∧
      ((List.range n).foldl (scheduleCopyStep c) w0).take n = (List.range n).map (beWord c) := by
  induction n with
  | zero => simp [hw]
  | succ n ih =>
    obtain ⟨hl, ht⟩ := ih (by omega)
    rw [List.range_succ, List.foldl_append, List.map_append]
    simp only [List.foldl_cons, List.foldl_nil, List.map_cons, List.map_nil]
    rw [copyStep_eq_beWord c _ hc]
    refine ⟨by simp [hl], ?_⟩
    rw [take_succ_set _ _ (by omega), ht]

theorem extendStep_eq_next (W : List Nat) (n : Nat) (hW : ∀ x ∈ W.take (16 + n), x < 2 ^ 32)
    (hl : 16 + n ≤ W.length) :
    scheduleExtendStep W (16 + n)
      = W.set (16 + n) (specScheduleNext (W.take (16 + n))) := by
  have hb : ∀ j, j < 16 + n → W.getD j 0 < 2 ^ 32 := by
    intro j hj
    rw [← getD_take W 0 hj]
    exact getD_lt_of_forall _ _ _ (by norm_num) hW
  unfold scheduleExtendStep specScheduleNext sigma0 sigma1 add32
  simp only [List.length_take, Nat.min_eq_left hl]
  rw [getD_take W 0 (show 16 + n - 16 < 16 + n by omega),
    getD_take W 0 (show 16 + n - 15 < 16 + n by omega),
    getD_take W 0 (show 16 + n - 7 < 16 + n by omega),
    getD_take W 0 (show 16 + n - 2 < 16 + n by omega)]
  rw [rotate_right_eq_rotr _ 7 (hb _ (by omega)) (by norm_num),
    rotate_right_eq_rotr _ 18 (hb _ (by omega)) (by norm_num),
    rotate_right_eq_rotr _ 17 (hb _ (by omega)) (by norm_num),
    rotate_right_eq_rotr _ 19 (hb _ (by omega)) (by norm_num)]
  congr 1
  omega

theorem extendLoop_spec (c W1 : List Nat) (hc : ∀ b ∈ c, b < 256) (hl : W1.length = 64)
    (h1 : W1.take 16 = (List.range 16).map (beWord c)) (n : Nat) (hn : n ≤ 48) :
    ((List.range' 16 n).foldl scheduleExtendStep W1).length = 64 ∧
      ((List.range' 16 n).foldl scheduleExtendStep W1).take (16 + n) = specScheduleTo c n := by
  induction n with
  | zero => simpa [hl, specScheduleTo] using h1
  | succ n ih =>
    obtain ⟨hlen, ht⟩ := ih (by omega)
    rw [List.range'_concat, List.foldl_append]
    simp only [List.foldl_cons, List.foldl_nil, Nat.one_mul]
    rw [extendStep_eq_next _ n (by rw [ht]; exact specScheduleTo_lt c hc n) (by omega)]
    refine ⟨by simp [hlen], ?_⟩
    rw [← Nat.add_assoc, take_succ_set _ _ (by omega), ht]
    rfl

theorem messageSchedule_eq_spec (w0 c : List Nat) (hw : w0.length = 64)
    (hc : ∀ b ∈ c, b < 256) : messageSchedule w0 c = specSchedule c := by
  obtain ⟨h1, h2⟩ := copyLoop_spec c w0 hc hw 16 (le_refl _)
  obtain ⟨h3, h4⟩ := extendLoop_spec c _ hc h1 h2 48 (le_refl _)
  unfold messageSchedule specSchedule
  rw [← h4, List.take_of_length_le (by omega)]

/-! ## The compression rounds -/

theorem compressionStep_eq_specRound (w : List Nat) (v : WorkVars) (i : Nat)
    (ha : v.a < 2 ^ 32) (he : v.e < 2 ^ 32) :
    compressionStep w v i = specRound (_sha256_round_constants.getD i 0) (w.getD i 0) v := by
  unfold compressionStep specRound add32
  rw [rotate_right_eq_rotr _ 6 he (by norm_num), rotate_right_eq_rotr _ 11 he (by norm_num),
    rotate_right_eq_rotr _ 25 he (by norm_num), rotate_right_eq_rotr _ 2 ha (by norm_num),
    rotate_right_eq_rotr _ 13 ha (by norm_num), rotate_right_eq_rotr _ 22 ha (by norm_num)]
  simp only [WorkVars.mk.injEq, true_and, and_true]
  constructor <;> omega

theorem specRound_a_lt (k wi : Nat) (v : WorkVars) : (specRound k wi v).a < 2 ^ 32 :=
  add32_lt _ _

theorem specRound_e_lt (k wi : Nat) (v : WorkVars) : (specRound k wi v).e < 2 ^ 32 :=
  add32_lt _ _

theorem specRounds_lt (K w : List Nat) (s : WorkVars) (ha : s.a < 2 ^ 32) (he : s.e < 2 ^ 32)
    (n : Nat) : (specRounds K w s n).a < 2 ^ 32 ∧ (specRounds K w s n).e < 2 ^ 32 := by
  cases n with
  | zero => exact ⟨ha, he⟩
  | succ n => exact ⟨specRound_a_lt _ _ _, specRound_e_lt _ _ _⟩

theorem compressionLoop_upTo (w : List Nat) (s : WorkVars) (ha : s.a < 2 ^ 32)
    (he : s.e < 2 ^ 32) (n : Nat) :
    (List.range n).foldl (compressionStep w) s = specRounds _sha256_round_constants w s n := by
  induction n with
  | zero => rfl
  | succ n ih =>
    rw [List.range_succ, List.foldl_append, ih]
    simp only [List.foldl_cons, List.foldl_nil]
    obtain ⟨h1, h2⟩ := specRounds_lt _sha256_round_constants w s ha he n
    rw [compressionStep_eq_specRound w _ n h1 h2]
    rfl

theorem length_eq_eight (s : List Nat) (hs : s.length = 8) :
    ∃ a b c d e f g h, s = [a, b, c, d, e, f, g, h] := by
  rcases s with _ | ⟨a, _ | ⟨b, _ | ⟨c, _ | ⟨d, _ | ⟨e, _ | ⟨f, _ | ⟨g, _ | ⟨h, _ | ⟨i, t⟩⟩⟩⟩⟩⟩⟩⟩⟩ <;>
    simp at hs
  exact ⟨a, b, c, d, e, f, g, h, rfl⟩

theorem transformFrom_eq_rounds (w0 s c : List Nat) (hs : s.length = 8)
    (hlt : ∀ x ∈ s, x < 2 ^ 32) :
    transformFrom w0 s c = List.zipWith add32 s
      (specRounds _sha256_round_constants (messageSchedule w0 c) (WorkVars.ofState s) 64).toState := by
  obtain ⟨a, b, c', d, e, f, g, h, rfl⟩ := length_eq_eight s hs
  have ha : a < 2 ^ 32 := hlt a (by simp)
  have he : e < 2 ^ 32 := hlt e (by simp)
  unfold transformFrom compressionLoop
  have := compressionLoop_upTo (messageSchedule w0 c) (WorkVars.ofState [a, b, c', d, e, f, g, h])
    ha he 64
  simp only [WorkVars.ofState, List.getD_cons_zero, List.getD_cons_succ] at this ⊢
  rw [this]
  rfl

/-- When the table of the source holds the constants of the reference, `_sha256_transform`
is the compression function of the reference. -/
theorem transformFrom_eq_spec (hK : roundConstants = _sha256_round_constants)
    (w0 s c : List Nat) (hw : w0.length = 64) (hs : s.length = 8)
    (hlt : ∀ x ∈ s, x < 2 ^ 32) (hc : ∀ b ∈ c, b < 256) :
    transformFrom w0 s c = specCompress s c := by
  rw [transformFrom_eq_rounds w0 s c hs hlt, messageSchedule_eq_spec w0 c hw hc]
  unfold specCompress
  rw [hK]

theorem specCompress_length (s c : List Nat) (hs : s.length = 8) :
    (specCompress s c).length = 8 := by
  simp [specCompress, WorkVars.toState, hs]

theorem specCompress_lt (s c : List Nat) : ∀ x ∈ specCompress s c, x < 2 ^ 32 := by
  intro x hx
  unfold specCompress at hx
  rw [List.mem_iff_getElem] at hx
  obtain ⟨i, hi, rfl⟩ := hx
  rw [List.getElem_zipWith]
  exact add32_lt _ _

theorem transform_length (w0 s c : List Nat) : (transformFrom w0 s c).length = 8 := rfl

theorem transform_lt (w0 s c : List Nat) : ∀ x ∈ transformFrom w0 s c, x < 2 ^ 32 := by
  intro x hx
  simp only [transformFrom, List.mem_cons, List.mem_singleton, List.not_mem_nil, or_false] at hx
  rcases hx with h | h | h | h | h | h | h | h <;> rw [h] <;> exact Nat.mod_lt _ (by norm_num)

/-! ## The chunking loop and the padding -/

theorem take_succ_getD (l : List Nat) {i : Nat} (h : i < l.length) :
    l.take (i + 1) = l.take i ++ [l.getD i 0] := by
  rw [List.take_succ, List.getD_eq_getElem?_getD, List.getElem?_eq_getElem h]
  rfl

theorem chunkingStep_inv (buffer : List Nat) (i : Nat) (st : ComputeState)
    (h : ChunkInv buffer i st) (hi : i < buffer.length) :
    ChunkInv buffer (i + 1) (chunkingStep buffer st i) := by
  obtain ⟨hlen, hpos, hdata, hcount, hblocks, hhash⟩ := h
  have hp : st.chunk_position < 64 := by rw [hpos]; exact Nat.mod_lt _ (by norm_num)
  have htake : (st.chunk.set st.chunk_position (buffer.getD i 0)).take (st.chunk_position + 1)
      = st.chunk.take st.chunk_position ++ [buffer.getD i 0] :=
    take_succ_set _ _ (by omega)
  unfold chunkingStep
  by_cases h64 : st.chunk_position + 1 = 64
  · simp only [writeChunk, h64, if_true, callTransform]
    have hfull : st.chunk.set st.chunk_position (buffer.getD i 0)
        = st.chunk.take st.chunk_position ++ [buffer.getD i 0] := by
      rw [← htake, h64, List.take_of_length_le (by simp [hlen])]
    refine ⟨by simp [hlen], by simp only []; omega, ?_, ?_, ?_, ?_⟩
    · simp only [List.flatten_append, List.flatten_cons, List.flatten_nil, List.append_nil,
        List.take_zero]
      rw [hfull, ← List.append_assoc, hdata, take_succ_getD _ hi]
    · simp only [List.length_append, List.length_singleton, hcount]; omega
    · intro c hc
      simp only [List.mem_append, List.mem_singleton] at hc
      rcases hc with hc | rfl
      · exact hblocks c hc
      · simp [hlen]
    · simp only [List.foldl_append, List.foldl_cons, List.foldl_nil, hhash]
  · simp only [writeChunk, h64, if_false]
    refine ⟨by simp [hlen], by simp only []; omega, ?_, by simp only [hcount]; omega,
      hblocks, hhash⟩
    simp only []
    rw [htake, ← List.append_assoc, hdata, take_succ_getD _ hi]

theorem chunkingLoop_inv (chunk0 buffer : List Nat) (hc : chunk0.length = 64) (n : Nat)
    (hn : n ≤ buffer.length) :
    ChunkInv buffer n ((List.range n).foldl (chunkingStep buffer)
      { hash := _sha256_init, chunk := chunk0, chunk_position := 0, calls := [] }) := by
  induction n with
  | zero => exact ⟨hc, rfl, rfl, rfl, by simp, rfl⟩
  | succ n ih =>
    rw [List.range_succ, List.foldl_append]
    exact chunkingStep_inv buffer n _ (ih (by omega)) (by omega)

theorem zeroFill_spec (limit : Nat) (hl : limit ≤ 64) (fuel : Nat) (st : ComputeState)
    (hlen : st.chunk.length = 64) (hp : st.chunk_position ≤ limit)
    (hf : limit - st.chunk_position ≤ fuel) :
    (zeroFill limit fuel st).chunk_position = limit ∧
    (zeroFill limit fuel st).chunk.length = 64 ∧
    (zeroFill limit fuel st).chunk.take limit
      = st.chunk.take st.chunk_position ++ List.replicate (limit - st.chunk_position) 0 ∧
    (zeroFill limit fuel st).calls = st.calls ∧
    (zeroFill limit fuel st).hash = st.hash := by
  induction fuel generalizing st with
  | zero =>
    have : st.chunk_position = limit := by omega
    simp [zeroFill, this, hlen]
  | succ fuel ih =>
    unfold zeroFill
    by_cases hlt : st.chunk_position < limit
    · simp only [hlt, if_true]
      obtain ⟨h1, h2, h3, h4, h5⟩ := ih (writeChunk st 0) (by simp [writeChunk, hlen])
        (by simp only [writeChunk]; omega) (by simp only [writeChunk]; omega)
      refine ⟨h1, h2, ?_, h4, h5⟩
      rw [h3]
      simp only [writeChunk]
      rw [take_succ_set _ _ (by omega), List.append_assoc]
      congr 1
      have : limit - st.chunk_position = (limit - (st.chunk_position + 1)) + 1 := by omega
      rw [this, List.replicate_succ]
      rfl
    · have : st.chunk_position = limit := by omega
      simp [hlt, this, hlen]

theorem memsetZero_spec (chunk : List Nat) (n : Nat) (hn : n ≤ chunk.length) :
    (memsetZero chunk n).length = chunk.length ∧
      (memsetZero chunk n).take n = List.replicate n 0 := by
  unfold memsetZero
  induction n with
  | zero => simp
  | succ n ih =>
    obtain ⟨h1, h2⟩ := ih (by omega)
    rw [List.range_succ, List.foldl_append]
    simp only [List.foldl_cons, List.foldl_nil]
    refine ⟨by simp [h1], ?_⟩
    rw [take_succ_set _ _ (by omega), h2, List.replicate_succ']

theorem appendLength_chunk (ml : Nat) (st : ComputeState) (hlen : st.chunk.length = 64) :
    (appendLength ml st).chunk = st.chunk.take 56 ++ lengthBytes ml := by
  unfold appendLength
  simp only []
  refine Eq.trans (List.take_of_length_le (by simp [hlen] : _ ≤ 64)).symm ?_
  rw [take_succ_set _ _ (by simp [hlen]), take_succ_set _ _ (by simp [hlen]),
    take_succ_set _ _ (by simp [hlen]), take_succ_set _ _ (by simp [hlen]),
    take_succ_set _ _ (by simp [hlen]), take_succ_set _ _ (by simp [hlen]),
    take_succ_set _ _ (by simp [hlen]), take_succ_set _ _ (by simp [hlen])]
  simp [lengthBytes]


theorem lengthBytes_eq_be64 (ml : Nat) : lengthBytes ml = be64 ml := by
  simp [lengthBytes, be64, Nat.shiftRight_eq_div_pow]

theorem padRemaining_lt (st : ComputeState) (hlen : st.chunk.length = 64)
    (hp : st.chunk_position < 56) :
    (padRemaining st).chunk.length = 64 ∧
    (padRemaining st).chunk.take 56 = st.chunk.take st.chunk_position ++ [0x80]
      ++ List.replicate (55 - st.chunk_position) 0 ∧
    (padRemaining st).calls = st.calls ∧ (padRemaining st).hash = st.hash := by
  unfold padRemaining
  simp only [hp, if_true]
  obtain ⟨_, h2, h3, h4, h5⟩ := zeroFill_spec 56 (by norm_num) 64 (writeChunk st 0x80)
    (by simp [writeChunk, hlen]) (by simp only [writeChunk]; omega)
    (by simp only [writeChunk]; omega)
  refine ⟨h2, ?_, h4, h5⟩
  rw [h3]
  simp only [writeChunk]
  rw [take_succ_set _ _ (by omega)]
  congr 2
  omega

theorem padRemaining_ge (st : ComputeState) (hlen : st.chunk.length = 64)
    (hp : 56 ≤ st.chunk_position) (hp64 : st.chunk_position < 64) :
    (padRemaining st).chunk.length = 64 ∧
    (padRemaining st).chunk.take 56 = List.replicate 56 0 ∧
    (padRemaining st).calls = st.calls ++ [st.chunk.take st.chunk_position ++ [0x80]
      ++ List.replicate (63 - st.chunk_position) 0] ∧
    (padRemaining st).hash = _sha256_transform st.hash (st.chunk.take st.chunk_position ++ [0x80]
      ++ List.replicate (63 - st.chunk_position) 0) := by
  unfold padRemaining
  have hnp : ¬ st.chunk_position < 56 := by omega
  simp only [hnp, if_false]
  obtain ⟨_, h2, h3, h4, h5⟩ := zeroFill_spec 64 (by norm_num) 64 (writeChunk st 0x80)
    (by simp [writeChunk, hlen]) (by simp only [writeChunk]; omega)
    (by simp only [writeChunk]; omega)
  rw [List.take_of_length_le (by omega)] at h3
  have hchunk : (zeroFill 64 64 (writeChunk st 0x80)).chunk
      = st.chunk.take st.chunk_position ++ [0x80]
        ++ List.replicate (63 - st.chunk_position) 0 := by
    rw [h3]
    simp only [writeChunk]
    rw [take_succ_set _ _ (by omega)]
    congr 2
    omega
  obtain ⟨m1, m2⟩ := memsetZero_spec (callTransform (zeroFill 64 64 (writeChunk st 0x80))).chunk
    56 (by simp only [callTransform]; omega)
  refine ⟨by rw [m1]; exact h2, m2, ?_, ?_⟩
  · simp only [callTransform, h4, hchunk]
    rfl
  · simp only [callTransform, h5, hchunk]
    rfl

theorem finish_spec (st : ComputeState) (ml : Nat) (hlen : st.chunk.length = 64)
    (hp64 : st.chunk_position < 64) :
    (callTransform (appendLength ml (padRemaining st))).calls = st.calls ++ tailCalls st ml ∧
    (callTransform (appendLength ml (padRemaining st))).hash
      = (tailCalls st ml).foldl _sha256_transform st.hash := by
  unfold tailCalls
  by_cases hp : st.chunk_position < 56
  · obtain ⟨h1, h2, h3, h4⟩ := padRemaining_lt st hlen hp
    have hc := appendLength_chunk ml _ h1
    simp only [hp, if_true, callTransform, hc, h2, List.foldl_cons, List.foldl_nil]
    exact ⟨by rw [← h3]; rfl, by rw [← h4]; rfl⟩
  · obtain ⟨h1, h2, h3, h4⟩ := padRemaining_ge st hlen (by omega) hp64
    have hc := appendLength_chunk ml _ h1
    simp only [hp, if_false, callTransform, hc, h2, List.foldl_cons, List.foldl_nil]
    constructor
    · show (padRemaining st).calls ++ _ = _
      rw [h3]; simp
    · show _sha256_transform (padRemaining st).hash _ = _
      rw [h4]

/-! ## The chunks handed to the compression function -/

theorem length_flatten_blocks (cs : List (List Nat)) (h : ∀ c ∈ cs, c.length = 64) :
    cs.flatten.length = 64 * cs.length := by
  induction cs with
  | nil => rfl
  | cons c t ih =>
    have hc := h c (by simp)
    have := ih (fun x hx => h x (by simp [hx]))
    simp only [List.flatten_cons, List.length_append, List.length_cons, hc, this]
    omega

theorem drop_flatten_blocks (cs : List (List Nat)) (h : ∀ c ∈ cs, c.length = 64) (i : Nat) :
    cs.flatten.drop (64 * i) = (cs.drop i).flatten := by
  induction cs generalizing i with
  | nil => simp
  | cons c t ih =>
    cases i with
    | zero => simp
    | succ k =>
      have hc := h c (by simp)
      have e : 64 * (k + 1) = c.length + 64 * k := by omega
      rw [List.flatten_cons, e, List.drop_append, List.drop_succ_cons]
      exact ih (fun x hx => h x (by simp [hx])) k

theorem toBlocks_flatten (cs : List (List Nat)) (h : ∀ c ∈ cs, c.length = 64) :
    toBlocks cs.flatten = cs := by
  have hl := length_flatten_blocks cs h
  have hdiv : cs.flatten.length / 64 = cs.length := by omega
  unfold toBlocks
  rw [hdiv]
  apply List.ext_getElem (by simp)
  intro i h1 h2
  simp only [List.getElem_map, List.getElem_range]
  rw [drop_flatten_blocks cs h i, List.drop_eq_getElem_cons h2, List.flatten_cons]
  exact List.take_left' (h _ (List.getElem_mem _))

theorem tailCalls_length (st : ComputeState) (ml : Nat) (hlen : st.chunk.length = 64)
    (hp : st.chunk_position < 64) : ∀ c ∈ tailCalls st ml, c.length = 64 := by
  intro c hc
  unfold tailCalls at hc
  by_cases h : st.chunk_position < 56
  · simp only [h, if_true, List.mem_singleton] at hc
    subst hc
    simp [lengthBytes, hlen]
    omega
  · simp only [h, if_false, List.mem_cons, List.mem_singleton, List.not_mem_nil, or_false] at hc
    rcases hc with rfl | rfl
    · simp [hlen]; omega
    · simp [lengthBytes]

theorem tailCalls_flatten (st : ComputeState) (ml : Nat) (hp : st.chunk_position < 64) :
    (tailCalls st ml).flatten = st.chunk.take st.chunk_position ++ [0x80]
      ++ List.replicate ((119 - st.chunk_position) % 64) 0 ++ be64 ml := by
  unfold tailCalls
  by_cases h : st.chunk_position < 56
  · have e : (119 - st.chunk_position) % 64 = 55 - st.chunk_position := by omega
    simp [h, e, lengthBytes_eq_be64]
  · have e : (119 - st.chunk_position) % 64 = (63 - st.chunk_position) + 56 := by omega
    simp [h, e, lengthBytes_eq_be64, List.replicate_add]

theorem tailCalls_count (st : ComputeState) (ml : Nat) :
    (tailCalls st ml).length = if st.chunk_position < 56 then 1 else 2 := by
  unfold tailCalls
  split <;> rfl

/-- What `sha256_compute` has done when it reaches "Produce final hash value". -/
theorem computeRun_spec (chunk0 buffer : List Nat) (length : Nat) (hc : chunk0.length = 64)
    (hL : length ≤ buffer.length) :
    ∃ st, ChunkInv buffer length st ∧
      (computeRun chunk0 buffer length).calls = st.calls ++ tailCalls st (messageLength length) ∧
      (computeRun chunk0 buffer length).hash
        = (computeRun chunk0 buffer length).calls.foldl _sha256_transform _sha256_init := by
  have inv := chunkingLoop_inv chunk0 buffer hc length hL
  refine ⟨_, inv, ?_⟩
  have hp : ((List.range length).foldl (chunkingStep buffer)
      { hash := _sha256_init, chunk := chunk0, chunk_position := 0, calls := [] }).chunk_position
        < 64 := by
    rw [inv.pos]; exact Nat.mod_lt _ (by norm_num)
  obtain ⟨h1, h2⟩ := finish_spec _ (messageLength length) inv.len hp
  unfold computeRun
  simp only []
  refine ⟨h1, ?_⟩
  rw [h2, h1, List.foldl_append, ← inv.hash]

theorem computeRun_blocks (chunk0 buffer : List Nat) (length : Nat) (hc : chunk0.length = 64)
    (hL : length ≤ buffer.length) :
    ∀ c ∈ (computeRun chunk0 buffer length).calls, c.length = 64 := by
  obtain ⟨st, inv, h1, _⟩ := computeRun_spec chunk0 buffer length hc hL
  have hp : st.chunk_position < 64 := by rw [inv.pos]; exact Nat.mod_lt _ (by norm_num)
  intro c hcm
  rw [h1, List.mem_append] at hcm
  rcases hcm with h | h
  · exact inv.blocks c h
  · exact tailCalls_length st _ inv.len hp c h

theorem computeRun_flatten (chunk0 buffer : List Nat) (length : Nat) (hc : chunk0.length = 64)
    (hL : length ≤ buffer.length) :
    (computeRun chunk0 buffer length).calls.flatten
      = padWith (buffer.take length) (messageLength length) := by
  obtain ⟨st, inv, h1, _⟩ := computeRun_spec chunk0 buffer length hc hL
  have hp : st.chunk_position < 64 := by rw [inv.pos]; exact Nat.mod_lt _ (by norm_num)
  rw [h1, List.flatten_append, tailCalls_flatten st _ hp]
  unfold padWith padZeroCount
  rw [List.length_take, Nat.min_eq_left hL, ← inv.pos, ← inv.data]
  simp only [List.append_assoc]

theorem computeRun_eq_toBlocks (chunk0 buffer : List Nat) (length : Nat)
    (hc : chunk0.length = 64) (hL : length ≤ buffer.length) :
    (computeRun chunk0 buffer length).calls
      = toBlocks (padWith (buffer.take length) (messageLength length)) := by
  rw [← computeRun_flatten chunk0 buffer length hc hL,
    toBlocks_flatten _ (computeRun_blocks chunk0 buffer length hc hL)]

theorem computeRun_count (chunk0 buffer : List Nat) (length : Nat) (hc : chunk0.length = 64)
    (hL : length ≤ buffer.length) :
    (computeRun chunk0 buffer length).calls.length
      = length / 64 + (if length % 64 < 56 then 1 else 2) := by
  obtain ⟨st, inv, h1, _⟩ := computeRun_spec chunk0 buffer length hc hL
  rw [h1, List.length_append, tailCalls_count, inv.count, inv.pos]

theorem computeRun_last (chunk0 buffer : List Nat) (length : Nat) (hc : chunk0.length = 64)
    (hL : length ≤ buffer.length) :
    ∃ last, (computeRun chunk0 buffer length).calls.getLast? = some last ∧
      last.length = 64 ∧ last.drop 56 = be64 (messageLength length) ∧
      (56 ≤ length % 64 → last.take 56 = List.replicate 56 0) := by
  obtain ⟨st, inv, h1, _⟩ := computeRun_spec chunk0 buffer length hc hL
  have hp : st.chunk_position < 64 := by rw [inv.pos]; exact Nat.mod_lt _ (by norm_num)
  have hlen := inv.len
  rw [h1]
  unfold tailCalls
  by_cases h : st.chunk_position < 56
  · simp only [h, if_true]
    have e : (st.chunk.take st.chunk_position ++ [0x80]
        ++ List.replicate (55 - st.chunk_position) 0).length = 56 := by
      simp [hlen]; omega
    refine ⟨st.chunk.take st.chunk_position ++ [0x80]
      ++ List.replicate (55 - st.chunk_position) 0 ++ lengthBytes (messageLength length),
      List.getLast?_concat _, ?_, ?_, ?_⟩
    · rw [List.length_append, e]; rfl
    · rw [List.drop_append_eq_append_drop, List.drop_of_length_le (by omega), e]
      simp [lengthBytes_eq_be64]
    · intro h56; rw [inv.pos] at h; omega
  · simp only [h, if_false]
    refine ⟨List.replicate 56 0 ++ lengthBytes (messageLength length), ?_, ?_, ?_, ?_⟩
    · rw [show ∀ (x y : List Nat), [x, y] = [x] ++ [y] from fun _ _ => rfl,
        ← List.append_assoc]
      exact List.getLast?_concat _
    · rw [List.length_append, List.length_replicate]; rfl
    · rw [List.drop_append_eq_append_drop, List.drop_of_length_le (by simp)]
      simp [lengthBytes_eq_be64]
    · intro _
      exact List.take_left' (List.length_replicate _ _)

/-! ## The digest -/

theorem take_set_of_eq_succ (l : List Nat) {i k : Nat} (v : Nat) (h : i < l.length)
    (hk : k = i + 1) : (l.set i v).take k = l.take i ++ [v] := by
  subst hk
  exact take_succ_set l v h

theorem produceStep_spec (hash r : List Nat) (n : Nat) (hr : r.length = 32) (hn : n < 8) :
    (produceStep hash r n).length = 32 ∧
      (produceStep hash r n).take (4 * (n + 1)) = r.take (4 * n) ++ be32 (hash.getD n 0) := by
  unfold produceStep
  refine ⟨by simp [hr], ?_⟩
  simp only []
  rw [take_set_of_eq_succ _ _ (by simp [hr]; omega) (show 4 * (n + 1) = n * 4 + 3 + 1 by omega),
    take_set_of_eq_succ _ _ (by simp [hr]; omega) (show n * 4 + 3 = n * 4 + 2 + 1 by omega),
    take_set_of_eq_succ _ _ (by simp [hr]; omega) (show n * 4 + 2 = n * 4 + 1 + 1 by omega),
    take_set_of_eq_succ r _ (show n * 4 + 0 < r.length by omega) (show n * 4 + 1 = n * 4 + 0 + 1 by omega)]
  simp [be32, Nat.shiftRight_eq_div_pow, Nat.mul_comm]

theorem serialise_take_succ (hash : List Nat) (n : Nat) (hn : n < hash.length) :
    serialise (hash.take (n + 1)) = serialise (hash.take n) ++ be32 (hash.getD n 0) := by
  unfold serialise
  rw [take_succ_getD hash hn]
  simp

theorem produceLoop_spec (hash result0 : List Nat) (hh : hash.length = 8)
    (hr : result0.length = 32) (n : Nat) (hn : n ≤ 8) :
    ((List.range n).foldl (produceStep hash) result0).length = 32 ∧
      ((List.range n).foldl (produceStep hash) result0).take (4 * n)
        = serialise (hash.take n) := by
  induction n with
  | zero => simp [hr, serialise]
  | succ n ih =>
    obtain ⟨h1, h2⟩ := ih (by omega)
    rw [List.range_succ, List.foldl_append]
    simp only [List.foldl_cons, List.foldl_nil]
    obtain ⟨h3, h4⟩ := produceStep_spec hash _ n h1 (by omega)
    refine ⟨h3, ?_⟩
    rw [h4, h2, serialise_take_succ hash n (by omega)]

theorem produceDigest_eq_serialise (hash result0 : List Nat) (hh : hash.length = 8)
    (hr : result0.length = 32) : produceDigest hash result0 = serialise hash := by
  obtain ⟨h1, h2⟩ := produceLoop_spec hash result0 hh hr 8 (le_refl _)
  unfold produceDigest
  rw [List.take_of_length_le (by omega), List.take_of_length_le (by omega)] at h2
  exact h2

theorem foldl_transform_length (cs : List (List Nat)) (s : List Nat) (hs : s.length = 8) :
    (cs.foldl _sha256_transform s).length = 8 := by
  induction cs generalizing s with
  | nil => exact hs
  | cons c t ih => exact ih _ (transform_length _ _ _)

theorem foldl_transform_eq_spec (hK : roundConstants = _sha256_round_constants)
    (cs : List (List Nat)) (hcs : ∀ c ∈ cs, ∀ b ∈ c, b < 256)
    (s : List Nat) (hs : s.length = 8) (hlt : ∀ x ∈ s, x < 2 ^ 32) :
    cs.foldl _sha256_transform s = cs.foldl specCompress s := by
  induction cs generalizing s with
  | nil => rfl
  | cons c t ih =>
    have e : _sha256_transform s c = specCompress s c :=
      transformFrom_eq_spec hK _ s c (List.length_replicate _ _) hs hlt
        (hcs c (by simp))
    simp only [List.foldl_cons]
    rw [e]
    exact ih (fun c' hc' => hcs c' (by simp [hc'])) _ (specCompress_length s c hs)
      (specCompress_lt s c)

theorem sha256_init_lt : ∀ x ∈ _sha256_init, x < 2 ^ 32 := by
  decide

theorem be64_lt (n : Nat) : ∀ b ∈ be64 n, b < 256 := by
  intro b hb
  simp only [be64, List.mem_cons, List.mem_singleton, List.not_mem_nil, or_false] at hb
  rcases hb with h | h | h | h | h | h | h | h <;> rw [h] <;> exact Nat.mod_lt _ (by norm_num)

theorem padWith_lt (m : List Nat) (bits : Nat) (hm : ∀ b ∈ m, b < 256) :
    ∀ b ∈ padWith m bits, b < 256 := by
  intro b hb
  simp only [padWith, List.mem_append, List.mem_singleton, List.mem_replicate] at hb
  rcases hb with ((h | h) | h) | h
  · exact hm b h
  · omega
  · omega
  · exact be64_lt bits b h

/-- The digest of `sha256_compute` in terms of the embedded compression function. -/
theorem sha256_compute_eq_fold (chunk0 result0 buffer : List Nat) (length : Nat)
    (hc : chunk0.length = 64) (hr : result0.length = 32) (hL : length ≤ buffer.length) :
    sha256_compute chunk0 result0 buffer length
      = serialise ((toBlocks (padWith (buffer.take length) (messageLength length))).foldl
          _sha256_transform _sha256_init) := by
  obtain ⟨st, _, _, h2⟩ := computeRun_spec chunk0 buffer length hc hL
  unfold sha256_compute
  rw [h2, computeRun_eq_toBlocks chunk0 buffer length hc hL,
    produceDigest_eq_serialise _ _ (foldl_transform_length _ _sha256_init rfl) hr]

/-- The digest of `sha256_compute` in terms of the compression function of the
specification. -/
theorem sha256_compute_eq_spec (hK : roundConstants = _sha256_round_constants)
    (hIV : initialHashValue = _sha256_init) (chunk0 result0 buffer : List Nat) (length : Nat)
    (hc : chunk0.length = 64) (hr : result0.length = 32) (hL : length ≤ buffer.length)
    (hb : ∀ b ∈ buffer, b < 256) :
    sha256_compute chunk0 result0 buffer length
      = serialise ((toBlocks (padWith (buffer.take length) (messageLength length))).foldl
          specCompress initialHashValue) := by
  rw [sha256_compute_eq_fold chunk0 result0 buffer length hc hr hL, hIV]
  congr 1
  apply foldl_transform_eq_spec hK _ _ _sha256_init rfl sha256_init_lt
  intro c hcm b hbc
  have hmem : b ∈ (toBlocks (padWith (buffer.take length) (messageLength length))).flatten :=
    List.mem_flatten.mpr ⟨c, hcm, hbc⟩
  rw [← computeRun_eq_toBlocks chunk0 buffer length hc hL,
    computeRun_flatten chunk0 buffer length hc hL] at hmem
  exact padWith_lt _ _ (fun x hx => hb x (List.mem_of_mem_take hx)) b hmem

theorem messageLength_of_lt (length : Nat) (h : length < 2 ^ 29) :
    messageLength length = 8 * length := by
  unfold messageLength
  omega

theorem padZeroCount_least (L : Nat) :
    64 ∣ L + 1 + padZeroCount L + 8 ∧ ∀ k, 64 ∣ L + 1 + k + 8 → padZeroCount L ≤ k := by
  unfold padZeroCount
  constructor
  · omega
  · intro k hk
    omega

/-! ## Further auxiliary facts -/

theorem getD_toBlocks (P : List Nat) (i : Nat) (hi : i < P.length / 64) :
    (toBlocks P).getD i [] = (P.drop (64 * i)).take 64 := by
  unfold toBlocks
  rw [List.getD_eq_getElem?_getD, List.getElem?_eq_getElem (by simpa using hi)]
  simp

theorem take_drop_append_left (m rest : List Nat) (i : Nat) (hi : 64 * i + 64 ≤ m.length) :
    ((m ++ rest).drop (64 * i)).take 64 = (m.drop (64 * i)).take 64 := by
  rw [List.drop_append_of_le_length (by omega),
    List.take_append_of_le_length (by rw [List.length_drop]; omega)]

theorem specScheduleTo_getD_succ (c : List Nat) (n i : Nat) (hi : i < 16 + n) :
    (specScheduleTo c (n + 1)).getD i 0 = (specScheduleTo c n).getD i 0 := by
  have hl := specScheduleTo_length c n
  simp only [specScheduleTo, List.getD_eq_getElem?_getD]
  rw [List.getElem?_append_left (by omega)]

theorem specScheduleTo_getD_stable (c : List Nat) (n i : Nat) (hi : i < 16 + n) (k : Nat) :
    (specScheduleTo c (n + k)).getD i 0 = (specScheduleTo c n).getD i 0 := by
  induction k with
  | zero => rfl
  | succ k ih =>
    rw [← Nat.add_assoc, specScheduleTo_getD_succ c (n + k) i (by omega), ih]

theorem specScheduleTo_getD_new (c : List Nat) (n : Nat) :
    (specScheduleTo c (n + 1)).getD (16 + n) 0 = specScheduleNext (specScheduleTo c n) := by
  have hl := specScheduleTo_length c n
  simp only [specScheduleTo, List.getD_eq_getElem?_getD]
  rw [List.getElem?_append_right (by omega), hl]
  simp

theorem specSchedule_getD_low (c : List Nat) (i : Nat) (hi : i < 16) :
    (specSchedule c).getD i 0 = beWord c i := by
  unfold specSchedule
  have := specScheduleTo_getD_stable c 0 i (by omega) 48
  rw [Nat.zero_add] at this
  rw [this]
  simp only [specScheduleTo, List.getD_eq_getElem?_getD]
  rw [List.getElem?_eq_getElem (by simpa using hi)]
  simp

theorem specSchedule_getD_high (c : List Nat) (i : Nat) (h16 : 16 ≤ i) (h64 : i < 64) :
    (specSchedule c).getD i 0 =
      add32 (add32 (add32 ((specSchedule c).getD (i - 16) 0)
        (sigma0 ((specSchedule c).getD (i - 15) 0))) ((specSchedule c).getD (i - 7) 0))
        (sigma1 ((specSchedule c).getD (i - 2) 0)) := by
  obtain ⟨n, rfl⟩ : ∃ n, i = 16 + n := ⟨i - 16, by omega⟩
  have key : ∀ j, j < 16 + n → (specSchedule c).getD j 0 = (specScheduleTo c n).getD j 0 := by
    intro j hj
    have := specScheduleTo_getD_stable c n j hj (48 - n)
    rwa [show n + (48 - n) = 48 by omega] at this
  have top : (specSchedule c).getD (16 + n) 0 = specScheduleNext (specScheduleTo c n) := by
    have := specScheduleTo_getD_stable c (n + 1) (16 + n) (by omega) (47 - n)
    rw [show n + 1 + (47 - n) = 48 by omega] at this
    rw [← specScheduleTo_getD_new c n, ← this]
    rfl
  rw [top, key _ (show 16 + n - 16 < 16 + n by omega), key _ (show 16 + n - 15 < 16 + n by omega),
    key _ (show 16 + n - 7 < 16 + n by omega), key _ (show 16 + n - 2 < 16 + n by omega)]
  unfold specScheduleNext
  rw [specScheduleTo_length]

theorem be32_roundtrip (x : Nat) (hx : x < 2 ^ 32) :
    x / 2 ^ 24 % 256 * 2 ^ 24 + x / 2 ^ 16 % 256 * 2 ^ 16 + x / 2 ^ 8 % 256 * 2 ^ 8 + x % 256
      = x := by
  omega

theorem nth_prime_of_count (p i : Nat) (hp : Nat.Prime p) (hc : Nat.count Nat.Prime p = i) :
    Nat.nth Nat.Prime i = p := by
  rw [← hc]
  exact Nat.nth_count hp

theorem sqrt_mod_eq (n q r : Nat) (h1 : q * q ≤ n) (h2 : n < (q + 1) * (q + 1))
    (h3 : q % 2 ^ 32 = r) : Nat.sqrt n % 2 ^ 32 = r := by
  have : q = Nat.sqrt n := Nat.eq_sqrt.mpr ⟨h1, h2⟩
  rw [← this, h3]

/-! ## The round constants and the primes -/

theorem count_congr_below (p q : Nat → Prop) [DecidablePred p] [DecidablePred q] (n : Nat)
    (h : ∀ k, k < n → (p k ↔ q k)) : Nat.count p n = Nat.count q n := by
  induction n with
  | zero => simp
  | succ n ih =>
    rw [Nat.count_succ, Nat.count_succ, ih (fun k hk => h k (by omega))]
    have := h n (by omega)
    by_cases hp : p n
    · simp [hp, this.mp hp]
    · have hq : ¬ q n := fun hq => hp (this.mpr hq)
      simp [hp, hq]

theorem prime_iff_small_divisors (k : Nat) (hk : k < 312) :
    Nat.Prime k ↔ (2 ≤ k ∧ ∀ m, m < 18 → 2 ≤ m → m ∣ k → m = k) := by
  constructor
  · intro hp
    refine ⟨hp.two_le, fun m _ h2 hd => ?_⟩
    rcases (Nat.dvd_prime hp).mp hd with h | h
    · omega
    · exact h
  · rintro ⟨h2, h⟩
    rw [Nat.prime_def_le_sqrt]
    refine ⟨h2, fun m hm hs hd => ?_⟩
    have hlt : Nat.sqrt k < k := Nat.sqrt_lt_self (by omega)
    have h18 : Nat.sqrt k < 18 := Nat.sqrt_lt'.mpr (by omega)
    have := h m (by omega) hm hd
    omega

theorem small_divisors_iff_mem_firstPrimes : ∀ k, k < 312 →
    ((2 ≤ k ∧ ∀ m, m < 18 → 2 ≤ m → m ∣ k → m = k) ↔ k ∈ firstPrimes) := by
  decide!

theorem prime_iff_mem_firstPrimes (k : Nat) (hk : k < 312) : Nat.Prime k ↔ k ∈ firstPrimes :=
  (prime_iff_small_divisors k hk).trans (small_divisors_iff_mem_firstPrimes k hk)

theorem firstPrimes_count_mem : ∀ i, i < 64 →
    firstPrimes.getD i 0 ∈ firstPrimes ∧ firstPrimes.getD i 0 < 312 ∧
      Nat.count (fun k => k ∈ firstPrimes) (firstPrimes.getD i 0) = i := by
  decide!

theorem firstPrimes_nth (i : Nat) (hi : i < 64) :
    Nat.nth Nat.Prime i = firstPrimes.getD i 0 := by
  obtain ⟨h1, h2, h3⟩ := firstPrimes_count_mem i hi
  have hp : Nat.Prime (firstPrimes.getD i 0) := (prime_iff_mem_firstPrimes _ h2).mpr h1
  have hc : Nat.count Nat.Prime (firstPrimes.getD i 0) = i := by
    rw [count_congr_below Nat.Prime (fun k => k ∈ firstPrimes) _
      (fun k hk => prime_iff_mem_firstPrimes k (by omega)), h3]
  exact nth_prime_of_count _ i hp hc

theorem round_constants_cube_roots : ∀ i, i < 64 →
    (cubeRootIntegerParts.getD i 0 * 2 ^ 32 + _sha256_round_constants.getD i 0) ^ 3
        ≤ firstPrimes.getD i 0 * 2 ^ 96 ∧
    firstPrimes.getD i 0 * 2 ^ 96
        < (cubeRootIntegerParts.getD i 0 * 2 ^ 32 + _sha256_round_constants.getD i 0 + 1) ^ 3 ∧
    _sha256_round_constants.getD i 0 < 2 ^ 32 := by
  decide!

/-! ## The digest storage -/

theorem produceStep_append (hash r behind : List Nat) (n : Nat) (hr : r.length = 32)
    (hn : n < 8) : produceStep hash (r ++ behind) n = produceStep hash r n ++ behind := by
  unfold produceStep
  simp only []
  rw [List.set_append_left _ _ (by omega), List.set_append_left _ _ (by simp [hr]; omega),
    List.set_append_left _ _ (by simp [hr]; omega), List.set_append_left _ _ (by simp [hr]; omega)]

theorem produceStep_length (hash r : List Nat) (n : Nat) :
    (produceStep hash r n).length = r.length := by
  simp [produceStep]

theorem produceLoop_append (hash r behind : List Nat) (hr : r.length = 32) (n : Nat)
    (hn : n ≤ 8) :
    ((List.range n).foldl (produceStep hash) r).length = 32 ∧
    (List.range n).foldl (produceStep hash) (r ++ behind)
      = (List.range n).foldl (produceStep hash) r ++ behind := by
  induction n with
  | zero => exact ⟨hr, rfl⟩
  | succ n ih =>
    obtain ⟨h1, h2⟩ := ih (by omega)
    rw [List.range_succ, List.foldl_append, List.foldl_append, h2]
    simp only [List.foldl_cons, List.foldl_nil]
    exact ⟨by rw [produceStep_length, h1], produceStep_append hash _ behind n h1 (by omega)⟩

theorem produceDigest_append (hash r behind : List Nat) (hr : r.length = 32) :
    produceDigest hash (r ++ behind) = produceDigest hash r ++ behind :=
  (produceLoop_append hash r behind hr 8 (le_refl _)).2

theorem produceDigest_length (hash r : List Nat) (hr : r.length = 32) :
    (produceDigest hash r).length = 32 :=
  (produceLoop_append hash r [] hr 8 (le_refl _)).1

theorem computeRun_hash_length (chunk0 buffer : List Nat) (length : Nat) :
    (computeRun chunk0 buffer length).hash.length = 8 := rfl

/-! ## The checked embedding -/

theorem readAt_eq (a : List Nat) (i : Nat) (h : i < a.length) :
    readAt a i = some (a.getD i 0) := by
  simp [readAt, List.getD_eq_getElem?_getD, List.getElem?_eq_getElem h]

theorem writeAt_eq (a : List Nat) (i v : Nat) (h : i < a.length) :
    writeAt a i v = some (a.set i v) := by
  simp [writeAt, h]

theorem sub32_eq (i k : Nat) (hk : k ≤ i) (hi : i < 2 ^ 32) : sub32 i k = i - k := by
  unfold sub32
  omega

theorem foldlM_eq_some_foldl {σ : Type} (Inv : σ → Prop) (f : σ → Nat → σ)
    (fC : σ → Nat → Option σ) (l : List Nat)
    (hstep : ∀ s i, i ∈ l → Inv s → fC s i = some (f s i) ∧ Inv (f s i)) (s0 : σ)
    (h0 : Inv s0) : l.foldlM fC s0 = some (l.foldl f s0) ∧ Inv (l.foldl f s0) := by
  induction l generalizing s0 with
  | nil => exact ⟨rfl, h0⟩
  | cons x t ih =>
    obtain ⟨h1, h2⟩ := hstep s0 x (by simp) h0
    rw [List.foldlM_cons, h1, List.foldl_cons]
    exact ih (fun s i hi hs => hstep s i (by simp [hi]) hs) _ h2

theorem scheduleCopyStepChecked_eq (chunk w : List Nat) (i : Nat) (hc : chunk.length = 64)
    (hw : w.length = 64) (hi : i < 16) :
    scheduleCopyStepChecked chunk w i = some (scheduleCopyStep chunk w i) := by
  unfold scheduleCopyStepChecked scheduleCopyStep
  rw [readAt_eq chunk _ (by omega), readAt_eq chunk _ (by omega), readAt_eq chunk _ (by omega),
    readAt_eq chunk _ (by omega)]
  simp only [Option.bind_eq_bind, Option.some_bind]
  exact writeAt_eq w i _ (by omega)

theorem scheduleCopyStep_length (chunk w : List Nat) (i : Nat) :
    (scheduleCopyStep chunk w i).length = w.length := by
  simp [scheduleCopyStep]

theorem scheduleExtendStep_length (w : List Nat) (i : Nat) :
    (scheduleExtendStep w i).length = w.length := by
  simp [scheduleExtendStep]

theorem scheduleExtendStepChecked_eq (w : List Nat) (i : Nat) (hw : w.length = 64)
    (h16 : 16 ≤ i) (hi : i < 64) :
    scheduleExtendStepChecked w i = some (scheduleExtendStep w i) := by
  unfold scheduleExtendStepChecked scheduleExtendStep
  rw [sub32_eq i 15 (by omega) (by omega), sub32_eq i 2 (by omega) (by omega),
    sub32_eq i 16 (by omega) (by omega), sub32_eq i 7 (by omega) (by omega),
    readAt_eq w _ (by omega), readAt_eq w _ (by omega), readAt_eq w _ (by omega),
    readAt_eq w _ (by omega)]
  simp only [Option.bind_eq_bind, Option.some_bind]
  exact writeAt_eq w i _ (by omega)

theorem messageScheduleChecked_eq (w0 chunk : List Nat) (hw : w0.length = 64)
    (hc : chunk.length = 64) :
    messageScheduleChecked w0 chunk = some (messageSchedule w0 chunk) ∧
      (messageSchedule w0 chunk).length = 64 := by
  obtain ⟨h1, h2⟩ := foldlM_eq_some_foldl (fun w : List Nat => w.length = 64)
    (scheduleCopyStep chunk) (scheduleCopyStepChecked chunk) (List.range 16)
    (fun s i hi hs => ⟨scheduleCopyStepChecked_eq chunk s i hc hs (List.mem_range.mp hi),
      (scheduleCopyStep_length chunk s i).trans hs⟩) w0 hw
  obtain ⟨h3, h4⟩ := foldlM_eq_some_foldl (fun w : List Nat => w.length = 64)
    scheduleExtendStep scheduleExtendStepChecked (List.range' 16 48)
    (fun s i hi hs => by
      have hi' := List.mem_range'_1.mp hi
      exact ⟨scheduleExtendStepChecked_eq s i hs (by omega) (by omega),
        (scheduleExtendStep_length s i).trans hs⟩) _ h2
  unfold messageScheduleChecked messageSchedule
  rw [h1]
  simp only [Option.bind_eq_bind, Option.some_bind]
  exact ⟨h3, h4⟩

theorem compressionStepChecked_eq (w : List Nat) (v : WorkVars) (i : Nat) (hw : w.length = 64)
    (hi : i < 64) : compressionStepChecked w v i = some (compressionStep w v i) := by
  unfold compressionStepChecked compressionStep
  rw [readAt_eq _sha256_round_constants i (by simpa [_sha256_round_constants] using hi),
    readAt_eq w i (by omega)]
  rfl

theorem compressionLoopChecked_eq (w : List Nat) (v : WorkVars) (hw : w.length = 64) :
    (List.range 64).foldlM (compressionStepChecked w) v = some (compressionLoop w v) :=
  (foldlM_eq_some_foldl (fun _ => True) (compressionStep w) (compressionStepChecked w)
    (List.range 64)
    (fun s i hi _ => ⟨compressionStepChecked_eq w s i hw (List.mem_range.mp hi), trivial⟩)
    v trivial).1

theorem transformChecked_eq (hash chunk : List Nat) (hh : hash.length = 8)
    (hc : chunk.length = 64) :
    transformChecked hash chunk = some (_sha256_transform hash chunk) := by
  obtain ⟨h1, h2⟩ := messageScheduleChecked_eq (List.replicate 64 0) chunk
    (List.length_replicate _ _) hc
  obtain ⟨a, b, c, d, e, f, g, h, rfl⟩ := length_eq_eight hash hh
  unfold transformChecked _sha256_transform transformFrom
  rw [h1]
  simp only [Option.bind_eq_bind, Option.some_bind]
  have hload : loadWorkVars [a, b, c, d, e, f, g, h]
      = some { a := a, b := b, c := c, d := d, e := e, f := f, g := g, h := h } := rfl
  rw [hload]
  simp only [Option.some_bind]
  rw [compressionLoopChecked_eq _ _ h2]
  simp only [Option.some_bind]
  rfl


theorem writeChunkChecked_eq (st : ComputeState) (v : Nat) (hlen : st.chunk.length = 64)
    (hp : st.chunk_position < 64) : writeChunkChecked st v = some (writeChunk st v) := by
  unfold writeChunkChecked writeChunk
  rw [writeAt_eq _ _ _ (by omega)]
  rfl

theorem callTransformChecked_eq (st : ComputeState) (hh : st.hash.length = 8)
    (hlen : st.chunk.length = 64) : callTransformChecked st = some (callTransform st) := by
  unfold callTransformChecked callTransform
  rw [transformChecked_eq _ _ hh hlen]
  rfl

theorem chunkingStepChecked_eq (buffer : List Nat) (st : ComputeState) (i : Nat)
    (hi : i < buffer.length) (hlen : st.chunk.length = 64) (hp : st.chunk_position < 64)
    (hh : st.hash.length = 8) :
    chunkingStepChecked buffer st i = some (chunkingStep buffer st i) ∧
      (chunkingStep buffer st i).chunk.length = 64 ∧
      (chunkingStep buffer st i).chunk_position < 64 ∧
      (chunkingStep buffer st i).hash.length = 8 := by
  unfold chunkingStepChecked chunkingStep
  rw [readAt_eq buffer i hi]
  simp only [Option.bind_eq_bind, Option.some_bind]
  rw [writeChunkChecked_eq st _ hlen hp]
  simp only [Option.some_bind]
  have hl1 : (writeChunk st (buffer.getD i 0)).chunk.length = 64 := by
    simp [writeChunk, hlen]
  have hh1 : (writeChunk st (buffer.getD i 0)).hash.length = 8 := hh
  have hp1 : (writeChunk st (buffer.getD i 0)).chunk_position = st.chunk_position + 1 := rfl
  by_cases h64 : (writeChunk st (buffer.getD i 0)).chunk_position = 64
  · simp only [h64, if_true]
    rw [callTransformChecked_eq _ hh1 hl1]
    exact ⟨rfl, hl1, by decide, rfl⟩
  · simp only [h64, if_false]
    exact ⟨trivial, hl1, by omega, hh1⟩

theorem chunkingLoopChecked_eq (chunk0 buffer : List Nat) (length : Nat)
    (hc : chunk0.length = 64) (hL : length ≤ buffer.length) :
    (List.range length).foldlM (chunkingStepChecked buffer)
        { hash := _sha256_init, chunk := chunk0, chunk_position := 0, calls := [] }
      = some ((List.range length).foldl (chunkingStep buffer)
        { hash := _sha256_init, chunk := chunk0, chunk_position := 0, calls := [] }) :=
  (foldlM_eq_some_foldl
    (fun st : ComputeState =>
      st.chunk.length = 64 ∧ st.chunk_position < 64 ∧ st.hash.length = 8)
    (chunkingStep buffer) (chunkingStepChecked buffer) (List.range length)
    (fun s i hi hs => by
      have hlt := List.mem_range.mp hi
      obtain ⟨h1, h2, h3, h4⟩ := chunkingStepChecked_eq buffer s i (by omega) hs.1 hs.2.1 hs.2.2
      exact ⟨h1, h2, h3, h4⟩)
    { hash := _sha256_init, chunk := chunk0, chunk_position := 0, calls := [] }
    ⟨hc, Nat.zero_lt_succ _, rfl⟩).1

theorem zeroFillChecked_eq (limit : Nat) (hl : limit ≤ 64) (fuel : Nat) (st : ComputeState)
    (hlen : st.chunk.length = 64) (hp : st.chunk_position ≤ limit)
    (hf : limit - st.chunk_position ≤ fuel) :
    zeroFillChecked limit fuel st = some (zeroFill limit fuel st) := by
  induction fuel generalizing st with
  | zero =>
    have : ¬ st.chunk_position < limit := by omega
    simp [zeroFillChecked, zeroFill, this]
  | succ fuel ih =>
    unfold zeroFillChecked zeroFill
    by_cases hlt : st.chunk_position < limit
    · simp only [hlt, if_true]
      rw [writeChunkChecked_eq st _ hlen (by omega), Option.some_bind]
      exact ih (writeChunk st 0) (by simp [writeChunk, hlen]) (by simp only [writeChunk]; omega)
        (by simp only [writeChunk]; omega)
    · simp only [hlt, if_false]

theorem padRemainingChecked_eq (st : ComputeState) (hlen : st.chunk.length = 64)
    (hp : st.chunk_position < 64) (hh : st.hash.length = 8) :
    padRemainingChecked st = some (padRemaining st) := by
  have hw := writeChunkChecked_eq st 0x80 hlen hp
  have hl1 : (writeChunk st 0x80).chunk.length = 64 := by simp [writeChunk, hlen]
  unfold padRemainingChecked padRemaining
  by_cases h56 : st.chunk_position < 56
  · simp only [h56, if_true, hw, Option.bind_eq_bind, Option.some_bind]
    exact zeroFillChecked_eq 56 (by norm_num) 64 _ hl1 (by simp only [writeChunk]; omega)
      (by simp only [writeChunk]; omega)
  · simp only [h56, if_false, hw, Option.bind_eq_bind, Option.some_bind]
    obtain ⟨_, z2, _, _, z5⟩ := zeroFill_spec 64 (by norm_num) 64 (writeChunk st 0x80) hl1
      (by simp only [writeChunk]; omega) (by simp only [writeChunk]; omega)
    rw [zeroFillChecked_eq 64 (by norm_num) 64 _ hl1 (by simp only [writeChunk]; omega)
      (by simp only [writeChunk]; omega), Option.some_bind,
      callTransformChecked_eq _ (by rw [z5]; exact hh) z2, Option.some_bind]
    have hm : memsetZeroChecked (callTransform (zeroFill 64 64 (writeChunk st 0x80))).chunk 56
        = some (memsetZero (callTransform (zeroFill 64 64 (writeChunk st 0x80))).chunk 56) := by
      unfold memsetZeroChecked
      rw [if_pos]
      show 56 ≤ (zeroFill 64 64 (writeChunk st 0x80)).chunk.length
      omega
    rw [hm, Option.some_bind]

theorem appendLengthChecked_eq (ml : Nat) (st : ComputeState) (hlen : st.chunk.length = 64) :
    appendLengthChecked ml st = some (appendLength ml st) := by
  unfold appendLengthChecked appendLength
  rw [writeAt_eq _ 56 _ (by omega)]
  simp only [Option.bind_eq_bind, Option.some_bind]
  rw [writeAt_eq _ 57 _ (by simp [hlen])]
  simp only [Option.some_bind]
  rw [writeAt_eq _ 58 _ (by simp [hlen])]
  simp only [Option.some_bind]
  rw [writeAt_eq _ 59 _ (by simp [hlen])]
  simp only [Option.some_bind]
  rw [writeAt_eq _ 60 _ (by simp [hlen])]
  simp only [Option.some_bind]
  rw [writeAt_eq _ 61 _ (by simp [hlen])]
  simp only [Option.some_bind]
  rw [writeAt_eq _ 62 _ (by simp [hlen])]
  simp only [Option.some_bind]
  rw [writeAt_eq _ 63 _ (by simp [hlen])]
  simp only [Option.some_bind]

theorem padRemaining_safe (st : ComputeState) (hlen : st.chunk.length = 64)
    (hp : st.chunk_position < 64) (hh : st.hash.length = 8) :
    (padRemaining st).chunk.length = 64 ∧ (padRemaining st).hash.length = 8 := by
  by_cases h56 : st.chunk_position < 56
  · obtain ⟨h1, _, _, h4⟩ := padRemaining_lt st hlen h56
    exact ⟨h1, by rw [h4]; exact hh⟩
  · obtain ⟨h1, _, _, h4⟩ := padRemaining_ge st hlen (by omega) hp
    exact ⟨h1, by rw [h4]; rfl⟩

theorem computeRunChecked_eq (chunk0 buffer : List Nat) (length : Nat)
    (hc : chunk0.length = 64) (hL : length ≤ buffer.length) :
    computeRunChecked chunk0 buffer length = some (computeRun chunk0 buffer length) := by
  have inv := chunkingLoop_inv chunk0 buffer hc length hL
  have hp : ((List.range length).foldl (chunkingStep buffer)
      { hash := _sha256_init, chunk := chunk0, chunk_position := 0, calls := [] }).chunk_position
        < 64 := by
    rw [inv.pos]; exact Nat.mod_lt _ (by norm_num)
  have hh : ((List.range length).foldl (chunkingStep buffer)
      { hash := _sha256_init, chunk := chunk0, chunk_position := 0, calls := [] }).hash.length
        = 8 := by
    rw [inv.hash]; exact foldl_transform_length _ _sha256_init rfl
  obtain ⟨p1, p2⟩ := padRemaining_safe _ inv.len hp hh
  unfold computeRunChecked computeRun
  simp only []
  rw [chunkingLoopChecked_eq chunk0 buffer length hc hL]
  simp only [Option.bind_eq_bind, Option.some_bind]
  rw [padRemainingChecked_eq _ inv.len hp hh, Option.some_bind,
    appendLengthChecked_eq _ _ p1, Option.some_bind]
  exact callTransformChecked_eq _ p2
    (by rw [appendLength_chunk _ _ p1]; simp [lengthBytes]; omega)

theorem produceStepChecked_eq (hash r : List Nat) (i : Nat) (hh : hash.length = 8)
    (hr : r.length = 32) (hi : i < 8) :
    produceStepChecked hash r i = some (produceStep hash r i) := by
  unfold produceStepChecked produceStep
  rw [readAt_eq hash i (by omega)]
  simp only [Option.bind_eq_bind, Option.some_bind]
  rw [writeAt_eq _ _ _ (by omega)]
  simp only [Option.some_bind]
  rw [writeAt_eq _ _ _ (by simp [hr]; omega)]
  simp only [Option.some_bind]
  rw [writeAt_eq _ _ _ (by simp [hr]; omega)]
  simp only [Option.some_bind]
  rw [writeAt_eq _ _ _ (by simp [hr]; omega)]

theorem produceLoopChecked_eq (hash result0 : List Nat) (hh : hash.length = 8)
    (hr : result0.length = 32) :
    (List.range 8).foldlM (produceStepChecked hash) result0
      = some (produceDigest hash result0) :=
  (foldlM_eq_some_foldl (fun r : List Nat => r.length = 32) (produceStep hash)
    (produceStepChecked hash) (List.range 8)
    (fun s i hi hs => ⟨produceStepChecked_eq hash s i hh hs (List.mem_range.mp hi),
      (produceStep_length hash s i).trans hs⟩) result0 hr).1


/-! ## The embedding on explicit memory -/

theorem store_length (m : List Nat) (p i v : Nat) : (store m p i v).length = m.length := by
  simp [store]

theorem getD_store_ne (m : List Nat) (p i v a : Nat) (h : a ≠ p + i) :
    (store m p i v).getD a 0 = m.getD a 0 :=
  getD_set_ne m v 0 h

theorem load_store_ne (m : List Nat) (p i v q j : Nat) (h : q + j ≠ p + i) :
    load (store m p i v) q j = load m q j :=
  getD_set_ne m v 0 h

theorem load_store_eq (m : List Nat) (p i v : Nat) (h : p + i < m.length) :
    load (store m p i v) p i = v :=
  getD_set_eq m v 0 h

theorem loadArray_length (m : List Nat) (p n : Nat) : (loadArray m p n).length = n := by
  simp [loadArray]

theorem getD_loadArray (m : List Nat) (p n j : Nat) (h : j < n) :
    (loadArray m p n).getD j 0 = load m p j := by
  simp [loadArray, List.getD_eq_getElem?_getD, List.getElem?_map, List.getElem?_range h]

theorem loadArray_congr (m m1 : List Nat) (p n : Nat)
    (h : ∀ j, j < n → load m1 p j = load m p j) : loadArray m1 p n = loadArray m p n := by
  unfold loadArray
  apply List.map_congr_left
  intro j hj
  exact h j (List.mem_range.mp hj)

theorem loadArray_store_in (m : List Nat) (p n i v : Nat) (hi : i < n)
    (hn : p + n ≤ m.length) : loadArray (store m p i v) p n = (loadArray m p n).set i v := by
  apply List.ext_getElem
  · simp [loadArray]
  · intro j h1 h2
    have hj : j < n := by simpa [loadArray] using h1
    rw [List.getElem_set]
    simp only [loadArray, List.getElem_map, List.getElem_range]
    by_cases hij : i = j
    · subst hij
      rw [if_pos rfl]
      exact load_store_eq m p i v (by omega)
    · rw [if_neg hij]
      exact load_store_ne m p i v p j (by omega)

theorem loadArray_eight (m : List Nat) (p : Nat) :
    loadArray m p 8 = [load m p 0, load m p 1, load m p 2, load m p 3, load m p 4, load m p 5,
      load m p 6, load m p 7] := rfl

theorem transformAt_length (m : List Nat) (ctx chunk : Nat) :
    (transformAt m ctx chunk).length = m.length := by
  simp [transformAt, store_length]

theorem transformAt_getD (m : List Nat) (ctx chunk a : Nat) (h : ¬ (ctx ≤ a ∧ a < ctx + 8)) :
    (transformAt m ctx chunk).getD a 0 = m.getD a 0 := by
  simp only [transformAt]
  rw [getD_store_ne _ _ _ _ _ (by omega), getD_store_ne _ _ _ _ _ (by omega),
    getD_store_ne _ _ _ _ _ (by omega), getD_store_ne _ _ _ _ _ (by omega),
    getD_store_ne _ _ _ _ _ (by omega), getD_store_ne _ _ _ _ _ (by omega),
    getD_store_ne _ _ _ _ _ (by omega), getD_store_ne _ _ _ _ _ (by omega)]

theorem transformAt_hash (m : List Nat) (ctx chunk : Nat) (h : ctx + 8 ≤ m.length) :
    loadArray (transformAt m ctx chunk) ctx 8
      = _sha256_transform (loadArray m ctx 8) (loadArray m chunk 64) := by
  rw [loadArray_eight]
  simp only [transformAt, _sha256_transform, transformFrom, loadArray_eight,
    List.getD_cons_zero, List.getD_cons_succ]
  simp (disch := first | omega | (simp only [store_length]; omega)) only
    [load_store_ne, load_store_eq]


theorem memSim_store (m0 : List Nat) (ctx chunk : Nat) (mem ch hs : List Nat)
    (hin : chunk + 64 ≤ m0.length) (hcc : ctx + 8 ≤ chunk ∨ chunk + 64 ≤ ctx)
    (h : MemSim m0 ctx chunk mem ch hs) (i v : Nat) (hi : i < 64) :
    MemSim m0 ctx chunk (store mem chunk i v) (ch.set i v) hs := by
  obtain ⟨h1, h2, h3, h4⟩ := h
  refine ⟨by rw [store_length, h1], fun a ha hb => ?_, ?_, ?_⟩
  · rw [getD_store_ne _ _ _ _ _ (by omega)]
    exact h2 a ha hb
  · rw [loadArray_store_in _ _ _ _ _ hi (by omega), h3]
  · rw [← h4]
    exact loadArray_congr _ _ _ _ (fun j hj => load_store_ne _ _ _ _ _ _ (by omega))

theorem memSim_transform (m0 : List Nat) (ctx chunk : Nat) (mem ch hs : List Nat)
    (hin : ctx + 8 ≤ m0.length) (hcc : ctx + 8 ≤ chunk ∨ chunk + 64 ≤ ctx)
    (h : MemSim m0 ctx chunk mem ch hs) :
    MemSim m0 ctx chunk (transformAt mem ctx chunk) ch (_sha256_transform hs ch) := by
  obtain ⟨h1, h2, h3, h4⟩ := h
  refine ⟨by rw [transformAt_length, h1], fun a ha hb => ?_, ?_, ?_⟩
  · rw [transformAt_getD _ _ _ _ ha]
    exact h2 a ha hb
  · rw [← h3]
    exact loadArray_congr _ _ _ _ (fun j hj => transformAt_getD _ _ _ _ (by omega))
  · rw [transformAt_hash _ _ _ (by omega), h3, h4]

theorem sim_writeChunk (m0 : List Nat) (ctx chunk : Nat) (s : MemState) (st : ComputeState)
    (hin : chunk + 64 ≤ m0.length) (hcc : ctx + 8 ≤ chunk ∨ chunk + 64 ≤ ctx)
    (h : Sim m0 ctx chunk s st) (v : Nat) (hp : st.chunk_position < 64) :
    Sim m0 ctx chunk (writeChunkAt chunk s v) (writeChunk st v) := by
  obtain ⟨h1, h2⟩ := h
  refine ⟨?_, ?_⟩
  · show MemSim m0 ctx chunk (store s.mem chunk s.chunk_position v)
      (st.chunk.set st.chunk_position v) st.hash
    rw [h2]
    exact memSim_store m0 ctx chunk _ _ _ hin hcc h1 _ v hp
  · show s.chunk_position + 1 = st.chunk_position + 1
    rw [h2]

theorem sim_callTransform (m0 : List Nat) (ctx chunk : Nat) (s : MemState)
    (st : ComputeState) (hin : ctx + 8 ≤ m0.length) (hcc : ctx + 8 ≤ chunk ∨ chunk + 64 ≤ ctx)
    (h : Sim m0 ctx chunk s st) :
    Sim m0 ctx chunk (callTransformAt ctx chunk s) (callTransform st) :=
  ⟨memSim_transform m0 ctx chunk _ _ _ hin hcc h.1, h.2⟩

theorem sim_chunkingStep (m0 : List Nat) (buffer length ctx chunk : Nat) (s : MemState)
    (st : ComputeState) (hci : chunk + 64 ≤ m0.length) (hxi : ctx + 8 ≤ m0.length)
    (hcc : ctx + 8 ≤ chunk ∨ chunk + 64 ≤ ctx)
    (hbc : buffer + length ≤ chunk ∨ chunk + 64 ≤ buffer)
    (hbx : buffer + length ≤ ctx ∨ ctx + 8 ≤ buffer)
    (h : Sim m0 ctx chunk s st) (i : Nat) (hi : i < length) (hp : st.chunk_position < 64) :
    Sim m0 ctx chunk (chunkingStepAt buffer ctx chunk s i)
      (chunkingStep (loadArray m0 buffer length) st i) := by
  have hb : load s.mem buffer i = (loadArray m0 buffer length).getD i 0 := by
    rw [getD_loadArray _ _ _ _ hi]
    exact h.1.frame _ (by omega) (by omega)
  have hw := sim_writeChunk m0 ctx chunk s st hci hcc h (load s.mem buffer i) hp
  unfold chunkingStepAt chunkingStep
  simp only []
  rw [← hb]
  have hpos : (writeChunkAt chunk s (load s.mem buffer i)).chunk_position
      = (writeChunk st (load s.mem buffer i)).chunk_position := hw.2
  rw [hpos]
  split
  · exact ⟨(sim_callTransform m0 ctx chunk _ _ hxi hcc hw).1, rfl⟩
  · exact hw

theorem sim_chunkingLoop (m0 : List Nat) (buffer length ctx chunk : Nat) (s0 : MemState)
    (hci : chunk + 64 ≤ m0.length) (hxi : ctx + 8 ≤ m0.length)
    (hcc : ctx + 8 ≤ chunk ∨ chunk + 64 ≤ ctx)
    (hbc : buffer + length ≤ chunk ∨ chunk + 64 ≤ buffer)
    (hbx : buffer + length ≤ ctx ∨ ctx + 8 ≤ buffer)
    (chunk0 : List Nat) (hc0 : chunk0.length = 64)
    (h : Sim m0 ctx chunk s0
      { hash := _sha256_init, chunk := chunk0, chunk_position := 0, calls := [] })
    (n : Nat) (hn : n ≤ length) :
    Sim m0 ctx chunk ((List.range n).foldl (chunkingStepAt buffer ctx chunk) s0)
      ((List.range n).foldl (chunkingStep (loadArray m0 buffer length))
        { hash := _sha256_init, chunk := chunk0, chunk_position := 0, calls := [] }) := by
  induction n with
  | zero => exact h
  | succ n ih =>
    rw [List.range_succ, List.foldl_append, List.foldl_append]
    have hinv := chunkingLoop_inv chunk0 (loadArray m0 buffer length) hc0 n
      (by rw [loadArray_length]; omega)
    exact sim_chunkingStep m0 buffer length ctx chunk _ _ hci hxi hcc hbc hbx (ih (by omega)) n
      (by omega) (by rw [hinv.pos]; exact Nat.mod_lt _ (by norm_num))

theorem sim_zeroFill (m0 : List Nat) (ctx chunk limit : Nat) (hl : limit ≤ 64)
    (hin : chunk + 64 ≤ m0.length) (hcc : ctx + 8 ≤ chunk ∨ chunk + 64 ≤ ctx) (fuel : Nat) :
    ∀ (s : MemState) (st : ComputeState), Sim m0 ctx chunk s st →
      Sim m0 ctx chunk (zeroFillAt chunk limit fuel s) (zeroFill limit fuel st) := by
  induction fuel with
  | zero => intro s st h; exact h
  | succ fuel ih =>
    intro s st h
    unfold zeroFillAt zeroFill
    rw [h.2]
    split
    · next hlt => exact ih _ _ (sim_writeChunk m0 ctx chunk s st hin hcc h 0x00 (by omega))
    · exact h

theorem memSim_memset (m0 : List Nat) (ctx chunk : Nat) (mem ch hs : List Nat)
    (hin : chunk + 64 ≤ m0.length) (hcc : ctx + 8 ≤ chunk ∨ chunk + 64 ≤ ctx)
    (h : MemSim m0 ctx chunk mem ch hs) (n : Nat) (hn : n ≤ 64) :
    MemSim m0 ctx chunk (memsetZeroAt mem chunk n) (memsetZero ch n) hs := by
  unfold memsetZeroAt memsetZero
  induction n with
  | zero => exact h
  | succ n ih =>
    rw [List.range_succ, List.foldl_append, List.foldl_append]
    exact memSim_store m0 ctx chunk _ _ _ hin hcc (ih (by omega)) n 0 (by omega)

theorem sim_padRemaining (m0 : List Nat) (ctx chunk : Nat) (s : MemState) (st : ComputeState)
    (hci : chunk + 64 ≤ m0.length) (hxi : ctx + 8 ≤ m0.length)
    (hcc : ctx + 8 ≤ chunk ∨ chunk + 64 ≤ ctx) (h : Sim m0 ctx chunk s st)
    (hp : st.chunk_position < 64) :
    Sim m0 ctx chunk (padRemainingAt ctx chunk s) (padRemaining st) := by
  have hw := sim_writeChunk m0 ctx chunk s st hci hcc h 0x80 hp
  unfold padRemainingAt padRemaining
  rw [h.2]
  split
  · exact sim_zeroFill m0 ctx chunk 56 (by norm_num) hci hcc 64 (writeChunkAt chunk s 0x80)
      (writeChunk st 0x80) hw
  · have hz := sim_zeroFill m0 ctx chunk 64 (by norm_num) hci hcc 64
      (writeChunkAt chunk s 0x80) (writeChunk st 0x80) hw
    have ht := sim_callTransform m0 ctx chunk _ _ hxi hcc hz
    have hm := memSim_memset m0 ctx chunk _ _ _ hci hcc ht.1 56 (by norm_num)
    unfold Sim
    simp only []
    exact ⟨hm, trivial⟩

theorem sim_appendLength (m0 : List Nat) (ctx chunk ml : Nat) (s : MemState)
    (st : ComputeState) (hci : chunk + 64 ≤ m0.length)
    (hcc : ctx + 8 ≤ chunk ∨ chunk + 64 ≤ ctx) (h : Sim m0 ctx chunk s st) :
    Sim m0 ctx chunk (appendLengthAt chunk ml s) (appendLength ml st) := by
  refine ⟨?_, h.2⟩
  have st8 := fun mem ch (hm : MemSim m0 ctx chunk mem ch st.hash) i v (hi : i < 64) =>
    memSim_store m0 ctx chunk mem ch st.hash hci hcc hm i v hi
  exact st8 _ _ (st8 _ _ (st8 _ _ (st8 _ _ (st8 _ _ (st8 _ _ (st8 _ _ (st8 _ _ h.1 56 _
    (by norm_num)) 57 _ (by norm_num)) 58 _ (by norm_num)) 59 _ (by norm_num)) 60 _
    (by norm_num)) 61 _ (by norm_num)) 62 _ (by norm_num)) 63 _ (by norm_num)


theorem initAt_eq (m : List Nat) (ctx : Nat) :
    initAt m ctx = store (store (store (store (store (store (store (store m
      ctx 0 (_sha256_init.getD 0 0)) ctx 1 (_sha256_init.getD 1 0))
      ctx 2 (_sha256_init.getD 2 0)) ctx 3 (_sha256_init.getD 3 0))
      ctx 4 (_sha256_init.getD 4 0)) ctx 5 (_sha256_init.getD 5 0))
      ctx 6 (_sha256_init.getD 6 0)) ctx 7 (_sha256_init.getD 7 0) := rfl

theorem initAt_length (m : List Nat) (ctx : Nat) : (initAt m ctx).length = m.length := by
  simp [initAt_eq, store_length]

theorem initAt_getD (m : List Nat) (ctx a : Nat) (h : ¬ (ctx ≤ a ∧ a < ctx + 8)) :
    (initAt m ctx).getD a 0 = m.getD a 0 := by
  rw [initAt_eq]
  rw [getD_store_ne _ _ _ _ _ (by omega), getD_store_ne _ _ _ _ _ (by omega),
    getD_store_ne _ _ _ _ _ (by omega), getD_store_ne _ _ _ _ _ (by omega),
    getD_store_ne _ _ _ _ _ (by omega), getD_store_ne _ _ _ _ _ (by omega),
    getD_store_ne _ _ _ _ _ (by omega), getD_store_ne _ _ _ _ _ (by omega)]

theorem initAt_hash (m : List Nat) (ctx : Nat) (h : ctx + 8 ≤ m.length) :
    loadArray (initAt m ctx) ctx 8 = _sha256_init := by
  rw [loadArray_eight, initAt_eq]
  simp (disch := first | omega | (simp only [store_length]; omega)) only
    [load_store_ne, load_store_eq]
  rfl

theorem memSim_init (m : List Nat) (ctx chunk : Nat) (hxi : ctx + 8 ≤ m.length)
    (hcc : ctx + 8 ≤ chunk ∨ chunk + 64 ≤ ctx) :
    MemSim m ctx chunk (initAt m ctx) (loadArray m chunk 64) _sha256_init :=
  ⟨initAt_length m ctx, fun a ha _ => initAt_getD m ctx a ha,
    loadArray_congr _ _ _ _ (fun j hj => initAt_getD m ctx _ (by omega)),
    initAt_hash m ctx hxi⟩

theorem produceStepAt_length (ctx result : Nat) (mem : List Nat) (i : Nat) :
    (produceStepAt ctx result mem i).length = mem.length := by
  simp [produceStepAt, store_length]

theorem produceStepAt_getD (ctx result : Nat) (mem : List Nat) (i a : Nat) (hi : i < 8)
    (h : ¬ (result ≤ a ∧ a < result + 32)) :
    (produceStepAt ctx result mem i).getD a 0 = mem.getD a 0 := by
  simp only [produceStepAt]
  rw [getD_store_ne _ _ _ _ _ (by omega), getD_store_ne _ _ _ _ _ (by omega),
    getD_store_ne _ _ _ _ _ (by omega), getD_store_ne _ _ _ _ _ (by omega)]

theorem produceStepAt_result (ctx result : Nat) (mem : List Nat) (i : Nat) (hi : i < 8)
    (hri : result + 32 ≤ mem.length) (hrx : result + 32 ≤ ctx ∨ ctx + 8 ≤ result) :
    loadArray (produceStepAt ctx result mem i) result 32
      = produceStep (loadArray mem ctx 8) (loadArray mem result 32) i := by
  simp only [produceStepAt, produceStep]
  simp (disch := first | omega | (simp only [store_length]; omega)) only
    [load_store_ne, loadArray_store_in, getD_loadArray]

theorem produceLoopAt_spec (ctx result : Nat) (mem : List Nat)
    (hri : result + 32 ≤ mem.length) (hrx : result + 32 ≤ ctx ∨ ctx + 8 ≤ result) (n : Nat)
    (hn : n ≤ 8) :
    ((List.range n).foldl (produceStepAt ctx result) mem).length = mem.length ∧
    (∀ a, ¬ (result ≤ a ∧ a < result + 32) →
      ((List.range n).foldl (produceStepAt ctx result) mem).getD a 0 = mem.getD a 0) ∧
    loadArray ((List.range n).foldl (produceStepAt ctx result) mem) result 32
      = (List.range n).foldl (produceStep (loadArray mem ctx 8)) (loadArray mem result 32) := by
  induction n with
  | zero => exact ⟨rfl, fun _ _ => rfl, rfl⟩
  | succ n ih =>
    obtain ⟨h1, h2, h3⟩ := ih (by omega)
    rw [List.range_succ, List.foldl_append, List.foldl_append]
    simp only [List.foldl_cons, List.foldl_nil]
    refine ⟨by rw [produceStepAt_length, h1], fun a ha => ?_, ?_⟩
    · rw [produceStepAt_getD _ _ _ _ _ (by omega) ha]
      exact h2 a ha
    · rw [produceStepAt_result _ _ _ _ (by omega) (by omega) hrx, h3]
      congr 1
      exact loadArray_congr _ _ _ _ (fun j hj => h2 _ (by omega))

/-- The state of the second embedding before "Produce final hash value" against the state
of the first. -/
theorem sim_computeRun (m : List Nat) (buffer length ctx chunk : Nat)
    (hci : chunk + 64 ≤ m.length) (hxi : ctx + 8 ≤ m.length)
    (hcc : ctx + 8 ≤ chunk ∨ chunk + 64 ≤ ctx)
    (hbc : buffer + length ≤ chunk ∨ chunk + 64 ≤ buffer)
    (hbx : buffer + length ≤ ctx ∨ ctx + 8 ≤ buffer) :
    Sim m ctx chunk
      (callTransformAt ctx chunk (appendLengthAt chunk (messageLength length)
        (padRemainingAt ctx chunk ((List.range length).foldl (chunkingStepAt buffer ctx chunk)
          { mem := initAt m ctx, chunk_position := 0 }))))
      (computeRun (loadArray m chunk 64) (loadArray m buffer length) length) := by
  have h0 : Sim m ctx chunk { mem := initAt m ctx, chunk_position := 0 }
      { hash := _sha256_init, chunk := loadArray m chunk 64, chunk_position := 0, calls := [] } :=
    ⟨memSim_init m ctx chunk hxi hcc, rfl⟩
  have h1 := sim_chunkingLoop m buffer length ctx chunk _ hci hxi hcc hbc hbx
    (loadArray m chunk 64) (loadArray_length _ _ _) h0 length (le_refl _)
  have hinv := chunkingLoop_inv (loadArray m chunk 64) (loadArray m buffer length)
    (loadArray_length _ _ _) length (by rw [loadArray_length])
  have h2 := sim_padRemaining m ctx chunk _ _ hci hxi hcc h1
    (by rw [hinv.pos]; exact Nat.mod_lt _ (by norm_num))
  have h3 := sim_appendLength m ctx chunk (messageLength length) _ _ hci hcc h2
  exact sim_callTransform m ctx chunk _ _ hxi hcc h3


/-! ## The claims -/

/-- C1. For every message `m` of at most 10000 bytes, `sha256_compute(m, L)` with `L` the length
of `m` writes the reference SHA-256 digest of `m` (FIPS 180-4): the digest of the message padded
with `0x80`, the least number `k` of zero bytes making `L + 1 + k + 8` a multiple of 64 and the
64-bit big-endian encoding of `8 * L`, folded block by block through the compression function
from the initialization vector and serialised big-endian. The reference takes its
initialization vector and its round constants from the square and cube roots of the first
primes, not from the source; on `"abc"` it is the published digest `ba7816bf ... f20015ad`. The
equation holds for every initial content of the local array `chunk` and of the result
storage. -/
theorem sha256_compute_eq_reference (chunk0 result0 m : List Nat) (hc : chunk0.length = 64)
    (hr : result0.length = 32) (hm : ∀ b ∈ m, b < 256) (hL : m.length ≤ 10000) :
    (64 ∣ m.length + 1 + padZeroCount m.length + 8 ∧
      ∀ k, 64 ∣ m.length + 1 + k + 8 → padZeroCount m.length ≤ k) ∧
    sha256_compute chunk0 result0 m m.length = sha256_reference m ∧
    sha256_reference [0x61, 0x62, 0x63] =
      [0xba, 0x78, 0x16, 0xbf] ++ [0x8f, 0x01, 0xcf, 0xea] ++ [0x41, 0x41, 0x40, 0xde] ++
      [0x5d, 0xae, 0x22, 0x23] ++ [0xb0, 0x03, 0x61, 0xa3] ++ [0x96, 0x17, 0x7a, 0x9c] ++
      [0xb4, 0x10, 0xff, 0x61] ++ [0xf2, 0x00, 0x15, 0xad] := by
  have hK : roundConstants = _sha256_round_constants := by decide!
  have hIV : initialHashValue = _sha256_init := by decide!
  refine ⟨padZeroCount_least m.length, ?_, by decide!⟩
  rw [sha256_compute_eq_spec hK hIV chunk0 result0 m m.length hc hr (le_refl _) hm,
    messageLength_of_lt m.length (by omega), List.take_length]
  rfl

theorem sha256_compute_eq_reference_witness :
    sha256_compute (List.replicate 64 0) (List.replicate 32 0) [0x61, 0x62, 0x63] 3
      = sha256_reference [0x61, 0x62, 0x63] :=
  (sha256_compute_eq_reference (List.replicate 64 0) (List.replicate 32 0) [0x61, 0x62, 0x63]
    (by decide) (by decide) (by decide) (by decide)).2.1

/-- C2, at the length `2 ^ 29`. The length field of the final chunk that `sha256_compute`
hands to the compression function for a message of `2 ^ 29 = 536870912` bytes is eight zero
bytes, whereas the big-endian encoding of the bit length `8 * 2 ^ 29 = 2 ^ 32` is
`00 00 00 01 00 00 00 00`: the product `length * 8` has wrapped around in 32 bits. -/
theorem length_field_wraps_at_two_pow_29 :
    ∃ last, (computeRun (List.replicate 64 0) (List.replicate 536870912 0)
        536870912).calls.getLast? = some last ∧
      last.drop 56 = [0, 0, 0, 0, 0, 0, 0, 0] ∧
      be64 (8 * 536870912) = [0, 0, 0, 1, 0, 0, 0, 0] := by
  obtain ⟨last, h1, _, h3, _⟩ := computeRun_last (List.replicate 64 0)
    (List.replicate 536870912 0) 536870912 (List.length_replicate _ _)
    (le_of_eq (List.length_replicate _ _).symm)
  refine ⟨last, h1, ?_, by decide⟩
  rw [h3]
  decide

/-- C3. On the empty message (`length = 0`) `sha256_compute` writes the digest
`e3b0c442 98fc1c14 9afbf4c8 996fb924 27ae41e4 649b934c a495991b 7852b855`, whatever the initial
content of its local array `chunk` and of the result storage. -/
theorem sha256_compute_empty (chunk0 result0 buffer : List Nat) (hc : chunk0.length = 64)
    (hr : result0.length = 32) :
    sha256_compute chunk0 result0 buffer 0 =
      [0xe3, 0xb0, 0xc4, 0x42, 0x98, 0xfc, 0x1c, 0x14, 0x9a, 0xfb, 0xf4, 0xc8, 0x99, 0x6f, 0xb9,
       0x24, 0x27, 0xae, 0x41, 0xe4, 0x64, 0x9b, 0x93, 0x4c, 0xa4, 0x95, 0x99, 0x1b, 0x78, 0x52,
       0xb8, 0x55] := by
  rw [sha256_compute_eq_fold chunk0 result0 buffer 0 hc hr (Nat.zero_le _), List.take_zero]
  decide!

theorem sha256_compute_empty_witness :
    sha256_compute (List.replicate 64 0xff) (List.replicate 32 0xff) [] 0 =
      [0xe3, 0xb0, 0xc4, 0x42, 0x98, 0xfc, 0x1c, 0x14, 0x9a, 0xfb, 0xf4, 0xc8, 0x99, 0x6f, 0xb9,
       0x24, 0x27, 0xae, 0x41, 0xe4, 0x64, 0x9b, 0x93, 0x4c, 0xa4, 0x95, 0x99, 0x1b, 0x78, 0x52,
       0xb8, 0x55] :=
  sha256_compute_empty (List.replicate 64 0xff) (List.replicate 32 0xff) [] (by decide)
    (by decide)

/-- C4. On the 3-byte message `"abc"` (bytes `0x61 0x62 0x63`, `length = 3`) `sha256_compute`
writes the digest `ba7816bf 8f01cfea 414140de 5dae2223 b00361a3 96177a9c b410ff61 f20015ad`,
whatever the initial content of its local array `chunk` and of the result storage. -/
theorem sha256_compute_abc (chunk0 result0 : List Nat) (hc : chunk0.length = 64)
    (hr : result0.length = 32) :
    sha256_compute chunk0 result0 [0x61, 0x62, 0x63] 3 =
      [0xba, 0x78, 0x16, 0xbf, 0x8f, 0x01, 0xcf, 0xea, 0x41, 0x41, 0x40, 0xde, 0x5d, 0xae, 0x22,
       0x23, 0xb0, 0x03, 0x61, 0xa3, 0x96, 0x17, 0x7a, 0x9c, 0xb4, 0x10, 0xff, 0x61, 0xf2, 0x00,
       0x15, 0xad] := by
  rw [sha256_compute_eq_fold chunk0 result0 [0x61, 0x62, 0x63] 3 hc hr (by decide)]
  decide!

theorem sha256_compute_abc_witness :
    sha256_compute (List.replicate 64 0xff) (List.replicate 32 0xff) [0x61, 0x62, 0x63] 3 =
      [0xba, 0x78, 0x16, 0xbf, 0x8f, 0x01, 0xcf, 0xea, 0x41, 0x41, 0x40, 0xde, 0x5d, 0xae, 0x22,
       0x23, 0xb0, 0x03, 0x61, 0xa3, 0x96, 0x17, 0x7a, 0x9c, 0xb4, 0x10, 0xff, 0x61, 0xf2, 0x00,
       0x15, 0xad] :=
  sha256_compute_abc (List.replicate 64 0xff) (List.replicate 32 0xff) (by decide) (by decide)

/-- C5. For every message `m` of fewer than `2 ^ 29` bytes, the chunks that `sha256_compute`
hands to `_sha256_transform`, concatenated in call order, are `m`, the byte `0x80`, `k` zero
bytes and the 8-byte big-endian bit length, `k` being the least number making
`L + 1 + k + 8` a multiple of 64; every chunk has 64 bytes; call `i`, for `i < L / 64`,
receives the message bytes `64 i .. 64 i + 63`; and when `L mod 64 ≥ 56` the last chunk is
56 zero bytes followed by the length field. -/
theorem chunks_eq_padded_message (chunk0 m : List Nat) (hc : chunk0.length = 64)
    (hL : m.length < 2 ^ 29) :
    (∃ k, (64 ∣ m.length + 1 + k + 8 ∧ ∀ j, 64 ∣ m.length + 1 + j + 8 → k ≤ j) ∧
      (computeRun chunk0 m m.length).calls.flatten
        = m ++ [0x80] ++ List.replicate k 0 ++ be64 (8 * m.length)) ∧
    (∀ c ∈ (computeRun chunk0 m m.length).calls, c.length = 64) ∧
    (∀ i, i < m.length / 64 →
      (computeRun chunk0 m m.length).calls.getD i [] = (m.drop (64 * i)).take 64) ∧
    (56 ≤ m.length % 64 →
      (computeRun chunk0 m m.length).calls.getLast?
        = some (List.replicate 56 0 ++ be64 (8 * m.length))) := by
  have hml := messageLength_of_lt m.length hL
  have hfl := computeRun_flatten chunk0 m m.length hc (le_refl _)
  rw [hml, List.take_length] at hfl
  refine ⟨⟨padZeroCount m.length, padZeroCount_least m.length, hfl⟩,
    computeRun_blocks chunk0 m m.length hc (le_refl _), ?_, ?_⟩
  · intro i hi
    have hpl : (padWith m (8 * m.length)).length / 64 ≥ m.length / 64 := by
      apply Nat.div_le_div_right
      simp only [padWith, List.length_append]
      omega
    rw [computeRun_eq_toBlocks chunk0 m m.length hc (le_refl _), hml, List.take_length,
      getD_toBlocks _ i (by omega)]
    unfold padWith
    rw [List.append_assoc, List.append_assoc]
    exact take_drop_append_left m _ i (by omega)
  · intro h56
    obtain ⟨last, h1, h2, h3, h4⟩ := computeRun_last chunk0 m m.length hc (le_refl _)
    rw [h1, ← List.take_append_drop 56 last, h3, h4 h56, hml]

theorem chunks_eq_padded_message_witness :
    (computeRun (List.replicate 64 0xff) [0x61, 0x62, 0x63] 3).calls.flatten
      = [0x61, 0x62, 0x63] ++ [0x80] ++ List.replicate 52 0 ++ be64 (8 * 3) := by
  obtain ⟨⟨k, ⟨hk1, hk2⟩, h⟩, _⟩ := chunks_eq_padded_message (List.replicate 64 0xff)
    [0x61, 0x62, 0x63] (by decide) (by decide)
  have e : k = 52 := by
    have h1 := hk2 52 (by decide)
    simp only [List.length_cons, List.length_nil] at hk1
    omega
  rw [← e]
  exact h

/-- C6. For a message of `L` bytes `sha256_compute` calls the compression function
`L / 64 + 1` times when `L mod 64 < 56` and `L / 64 + 2` times otherwise, that is
`(L + 8) / 64 + 1` times; for `L = 55, 56, 57, 64` this is `1, 2, 2, 2`. -/
theorem compression_count (chunk0 m : List Nat) (hc : chunk0.length = 64) :
    ((computeRun chunk0 m m.length).calls.length
      = if m.length % 64 < 56 then m.length / 64 + 1 else m.length / 64 + 2) ∧
    (computeRun chunk0 m m.length).calls.length = (m.length + 8) / 64 + 1 ∧
    (m.length = 55 → (computeRun chunk0 m m.length).calls.length = 1) ∧
    (m.length = 56 → (computeRun chunk0 m m.length).calls.length = 2) ∧
    (m.length = 57 → (computeRun chunk0 m m.length).calls.length = 2) ∧
    (m.length = 64 → (computeRun chunk0 m m.length).calls.length = 2) := by
  have h := computeRun_count chunk0 m m.length hc (le_refl _)
  rw [h]
  refine ⟨?_, ?_, ?_, ?_, ?_, ?_⟩
  · split <;> rfl
  · split <;> omega
  all_goals
    intro hm
    rw [hm]
    rfl

theorem compression_count_witness :
    (computeRun (List.replicate 64 0xff) (List.replicate 56 0x41) 56).calls.length = 2 := by
  have h := (compression_count (List.replicate 64 0xff) (List.replicate 56 0x41)
    (by decide)).2.2.2.1 (by decide)
  simpa using h

/-- C7. For an 8-word state `s` and a chunk `c`, `_sha256_transform` replaces `s` by
`s + R(s)`, word by word modulo `2 ^ 32`, where `R(s)` starts from `(a..h) = s` and applies
the 64 rounds `i = 0..63` in order, each with `K[i]` and the word `w[i]` of the message schedule
that the function has built from `c`; a round is `specRound`, written with the rotation `rotr`
as the specification words it. It holds whatever the local array `w` holds on entry. -/
theorem sha256_transform_rounds (w0 s c : List Nat) (hs : s.length = 8)
    (hlt : ∀ x ∈ s, x < 2 ^ 32) :
    transformFrom w0 s c = List.zipWith add32 s
        (specRounds _sha256_round_constants (messageSchedule w0 c)
          (WorkVars.ofState s) 64).toState ∧
    _sha256_transform s c = List.zipWith add32 s
        (specRounds _sha256_round_constants (messageSchedule (List.replicate 64 0) c)
          (WorkVars.ofState s) 64).toState :=
  ⟨transformFrom_eq_rounds w0 s c hs hlt,
    transformFrom_eq_rounds (List.replicate 64 0) s c hs hlt⟩

theorem sha256_transform_rounds_witness :
    _sha256_transform _sha256_init (List.replicate 64 0) = List.zipWith add32 _sha256_init
        (specRounds _sha256_round_constants
          (messageSchedule (List.replicate 64 0) (List.replicate 64 0))
          (WorkVars.ofState _sha256_init) 64).toState :=
  (sha256_transform_rounds (List.replicate 64 0) _sha256_init (List.replicate 64 0)
    (by decide) (by decide)).2

/-- C8. For a chunk `c` of bytes, the message schedule `w` that `_sha256_transform` builds has
64 words; `w[i]` is the big-endian word of the bytes `c[4i..4i+3]` for `i < 16`, and for
`16 ≤ i < 64` it is `(w[i-16] + s0 + w[i-7] + s1) mod 2 ^ 32` with
`s0 = rotr(w[i-15],7) xor rotr(w[i-15],18) xor (w[i-15] >> 3)` and
`s1 = rotr(w[i-2],17) xor rotr(w[i-2],19) xor (w[i-2] >> 10)`. It holds whatever the local
array `w` holds on entry. -/
theorem message_schedule_spec (w0 c : List Nat) (hw : w0.length = 64)
    (hc : ∀ b ∈ c, b < 256) :
    (messageSchedule w0 c).length = 64 ∧
    (∀ i, i < 16 → (messageSchedule w0 c).getD i 0
      = c.getD (4 * i) 0 * 2 ^ 24 + c.getD (4 * i + 1) 0 * 2 ^ 16 + c.getD (4 * i + 2) 0 * 2 ^ 8
        + c.getD (4 * i + 3) 0) ∧
    (∀ i, 16 ≤ i → i < 64 → (messageSchedule w0 c).getD i 0
      = ((messageSchedule w0 c).getD (i - 16) 0
          + (rotr ((messageSchedule w0 c).getD (i - 15) 0) 7
              ^^^ rotr ((messageSchedule w0 c).getD (i - 15) 0) 18
              ^^^ ((messageSchedule w0 c).getD (i - 15) 0 >>> 3))
          + (messageSchedule w0 c).getD (i - 7) 0
          + (rotr ((messageSchedule w0 c).getD (i - 2) 0) 17
              ^^^ rotr ((messageSchedule w0 c).getD (i - 2) 0) 19
              ^^^ ((messageSchedule w0 c).getD (i - 2) 0 >>> 10))) % 2 ^ 32) := by
  rw [messageSchedule_eq_spec w0 c hw hc]
  refine ⟨specScheduleTo_length c 48, fun i hi => specSchedule_getD_low c i hi, ?_⟩
  intro i h16 h64
  rw [specSchedule_getD_high c i h16 h64]
  unfold add32 sigma0 sigma1
  omega

theorem message_schedule_spec_witness :
    (messageSchedule (List.replicate 64 0xffffffff) ([0x61, 0x62, 0x63, 0x80] ++
      List.replicate 59 0 ++ [0x18])).getD 0 0 = 0x61626380 := by
  have h := (message_schedule_spec (List.replicate 64 0xffffffff) ([0x61, 0x62, 0x63, 0x80] ++
      List.replicate 59 0 ++ [0x18]) (by decide) (by decide)).2.1 0 (by decide)
  rw [h]
  decide

/-- C9. For a final hash state `(h0..h7)` of 32-bit words, the digest that the loop "Produce
final hash value" of `sha256_compute` writes has 32 bytes, `digest[4i+k]` is
`(h_i >> (24 - 8k)) mod 256` for `i < 8` and `k < 4`, and the digest read back as eight
big-endian 32-bit words is `(h0..h7)`. -/
theorem digest_is_big_endian_state (hash result0 : List Nat) (hh : hash.length = 8)
    (hlt : ∀ x ∈ hash, x < 2 ^ 32) (hr : result0.length = 32) :
    (produceDigest hash result0).length = 32 ∧
    (∀ i k, i < 8 → k < 4 →
      (produceDigest hash result0).getD (4 * i + k) 0 = (hash.getD i 0 >>> (24 - 8 * k)) % 256) ∧
    readWords (produceDigest hash result0) = hash := by
  rw [produceDigest_eq_serialise hash result0 hh hr]
  obtain ⟨a, b, c, d, e, f, g, h, rfl⟩ := length_eq_eight hash hh
  refine ⟨by simp [serialise, be32], ?_, ?_⟩
  · intro i k hi hk
    interval_cases i <;> interval_cases k <;>
      simp [serialise, be32, Nat.shiftRight_eq_div_pow]
  · have e8 : (serialise [a, b, c, d, e, f, g, h]).length / 4 = 8 := by
      simp [serialise, be32]
    unfold readWords
    rw [e8]
    simp only [serialise, be32, beWord, List.range, List.range.loop, List.map_cons, List.map_nil,
      List.flatten_cons, List.flatten_nil, List.cons_append, List.nil_append, List.append_nil,
      List.getD_cons_zero, List.getD_cons_succ, Nat.mul_zero, Nat.mul_one, Nat.zero_add,
      Nat.reduceMul, Nat.reduceAdd]
    rw [be32_roundtrip a (hlt a (by simp)), be32_roundtrip b (hlt b (by simp)),
      be32_roundtrip c (hlt c (by simp)), be32_roundtrip d (hlt d (by simp)),
      be32_roundtrip e (hlt e (by simp)), be32_roundtrip f (hlt f (by simp)),
      be32_roundtrip g (hlt g (by simp)), be32_roundtrip h (hlt h (by simp))]

theorem digest_is_big_endian_state_witness :
    readWords (produceDigest _sha256_init (List.replicate 32 0xff)) = _sha256_init :=
  (digest_is_big_endian_state _sha256_init (List.replicate 32 0xff) (by decide) (by decide)
    (by decide)).2.2

/-- C10. The eight words that `_sha256_init` stores are `0x6a09e667, 0xbb67ae85, 0x3c6ef372,
0xa54ff53a, 0x510e527f, 0x9b05688c, 0x1f83d9ab, 0x5be0cd19`, and word `i` is the first 32 bits
of the fractional part of the square root of the `i`-th prime:
`floor(sqrt(p_i * 2 ^ 64)) mod 2 ^ 32`, the primes being `2, 3, 5, 7, 11, 13, 17, 19`. -/
theorem sha256_init_is_standard_iv :
    _sha256_init = [0x6a09e667, 0xbb67ae85, 0x3c6ef372, 0xa54ff53a, 0x510e527f, 0x9b05688c,
      0x1f83d9ab, 0x5be0cd19] ∧
    (List.range 8).map (Nat.nth Nat.Prime) = [2, 3, 5, 7, 11, 13, 17, 19] ∧
    ∀ i, i < 8 → _sha256_init.getD i 0 = Nat.sqrt (Nat.nth Nat.Prime i * 2 ^ 64) % 2 ^ 32 := by
  have p0 : Nat.nth Nat.Prime 0 = 2 := nth_prime_of_count 2 0 (by norm_num) (by decide)
  have p1 : Nat.nth Nat.Prime 1 = 3 := nth_prime_of_count 3 1 (by norm_num) (by decide)
  have p2 : Nat.nth Nat.Prime 2 = 5 := nth_prime_of_count 5 2 (by norm_num) (by decide)
  have p3 : Nat.nth Nat.Prime 3 = 7 := nth_prime_of_count 7 3 (by norm_num) (by decide)
  have p4 : Nat.nth Nat.Prime 4 = 11 := nth_prime_of_count 11 4 (by norm_num) (by decide)
  have p5 : Nat.nth Nat.Prime 5 = 13 := nth_prime_of_count 13 5 (by norm_num) (by decide)
  have p6 : Nat.nth Nat.Prime 6 = 17 := nth_prime_of_count 17 6 (by norm_num) (by decide)
  have p7 : Nat.nth Nat.Prime 7 = 19 := nth_prime_of_count 19 7 (by norm_num) (by decide)
  refine ⟨rfl, ?_, ?_⟩
  · simp only [List.range, List.range.loop, List.map_cons, List.map_nil, p0, p1, p2, p3, p4, p5,
      p6, p7]
  · intro i hi
    interval_cases i
    · rw [p0]
      exact (sqrt_mod_eq _ 6074000999 0x6a09e667 (by norm_num) (by norm_num) (by norm_num)).symm
    · rw [p1]
      exact (sqrt_mod_eq _ 7439101573 0xbb67ae85 (by norm_num) (by norm_num) (by norm_num)).symm
    · rw [p2]
      exact (sqrt_mod_eq _ 9603838834 0x3c6ef372 (by norm_num) (by norm_num) (by norm_num)).symm
    · rw [p3]
      exact (sqrt_mod_eq _ 11363415354 0xa54ff53a (by norm_num) (by norm_num) (by norm_num)).symm
    · rw [p4]
      exact (sqrt_mod_eq _ 14244795007 0x510e527f (by norm_num) (by norm_num) (by norm_num)).symm
    · rw [p5]
      exact (sqrt_mod_eq _ 15485724812 0x9b05688c (by norm_num) (by norm_num) (by norm_num)).symm
    · rw [p6]
      exact (sqrt_mod_eq _ 17708603819 0x1f83d9ab (by norm_num) (by norm_num) (by norm_num)).symm
    · rw [p7]
      exact (sqrt_mod_eq _ 18721328409 0x5be0cd19 (by norm_num) (by norm_num) (by norm_num)).symm

/-- C11. The table `_sha256_round_constants` has exactly 64 entries, and entry `i` is the first
32 bits of the fractional part of the cube root of the `i`-th prime: it is `r mod 2 ^ 32` for
the largest integer `r` with `r ^ 3 ≤ p_i * 2 ^ 96`, the primes being `2, 3, 5, ..., 311`. -/
theorem round_constants_are_standard :
    _sha256_round_constants.length = 64 ∧
    (List.range 64).map (Nat.nth Nat.Prime) = firstPrimes ∧
    firstPrimes.getD 0 0 = 2 ∧ firstPrimes.getD 63 0 = 311 ∧
    ∀ i, i < 64 → ∃ r, r ^ 3 ≤ Nat.nth Nat.Prime i * 2 ^ 96 ∧
      Nat.nth Nat.Prime i * 2 ^ 96 < (r + 1) ^ 3 ∧
      _sha256_round_constants.getD i 0 = r % 2 ^ 32 := by
  refine ⟨rfl, ?_, rfl, rfl, ?_⟩
  · apply List.ext_getElem (by simp [firstPrimes])
    intro i h1 h2
    have hi : i < 64 := by simpa using h1
    rw [List.getElem_map, List.getElem_range, firstPrimes_nth i hi,
      List.getD_eq_getElem?_getD, List.getElem?_eq_getElem h2]
    rfl
  · intro i hi
    obtain ⟨h1, h2, h3⟩ := round_constants_cube_roots i hi
    refine ⟨cubeRootIntegerParts.getD i 0 * 2 ^ 32 + _sha256_round_constants.getD i 0, ?_, ?_, ?_⟩
    · rw [firstPrimes_nth i hi]; exact h1
    · rw [firstPrimes_nth i hi]; exact h2
    · rw [Nat.mul_comm, Nat.mul_add_mod, Nat.mod_eq_of_lt h3]

/-- C12. For every message, of any length, the digest that `sha256_compute` leaves in
`result->hash` has exactly 32 bytes and every one of them is written: the digest is the
big-endian serialisation of the final hash state, and it is the same whatever `result->hash`
held before the call. -/
theorem digest_has_32_written_bytes (chunk0 result0 buffer : List Nat) (length : Nat)
    (hr : result0.length = 32) :
    (sha256_compute chunk0 result0 buffer length).length = 32 ∧
    sha256_compute chunk0 result0 buffer length
      = serialise (computeRun chunk0 buffer length).hash ∧
    ∀ result1 : List Nat, result1.length = 32 →
      sha256_compute chunk0 result1 buffer length
        = sha256_compute chunk0 result0 buffer length := by
  have h : ∀ r : List Nat, r.length = 32 → sha256_compute chunk0 r buffer length
      = serialise (computeRun chunk0 buffer length).hash := fun r hr' =>
    produceDigest_eq_serialise _ r (computeRun_hash_length chunk0 buffer length) hr'
  exact ⟨produceDigest_length _ _ hr, h result0 hr, fun r1 h1 => by rw [h r1 h1, h result0 hr]⟩

theorem digest_has_32_written_bytes_witness :
    (sha256_compute (List.replicate 64 0xff) (List.replicate 32 0xff) [] 0).length = 32 :=
  (digest_has_32_written_bytes (List.replicate 64 0xff) (List.replicate 32 0xff) [] 0
    (by decide)).1

/-- C13. The digest depends on the first `L` bytes of the buffer and on `L` only: two calls of
`sha256_compute` with the same `L` on buffers that agree on their first `L` bytes give the
same digest, whatever the local array `chunk` and the result storage hold at the start. The
chunks handed to the compression function are the same in both calls, so none of their bytes
comes from the initial content of `chunk`, and the hash state is the fold of the compression
function over these chunks from `_sha256_init`. -/
theorem digest_depends_on_message_only (chunk0 chunk1 result0 result1 buffer0 buffer1 : List Nat)
    (length : Nat) (hc0 : chunk0.length = 64) (hc1 : chunk1.length = 64)
    (hr0 : result0.length = 32) (hr1 : result1.length = 32)
    (hL0 : length ≤ buffer0.length) (hL1 : length ≤ buffer1.length)
    (hagree : buffer0.take length = buffer1.take length) :
    sha256_compute chunk0 result0 buffer0 length = sha256_compute chunk1 result1 buffer1 length ∧
    (computeRun chunk0 buffer0 length).calls = (computeRun chunk1 buffer1 length).calls ∧
    (∀ c ∈ (computeRun chunk0 buffer0 length).calls, c.length = 64) ∧
    (computeRun chunk0 buffer0 length).calls.flatten
      = padWith (buffer0.take length) (messageLength length) ∧
    (computeRun chunk0 buffer0 length).hash
      = (computeRun chunk0 buffer0 length).calls.foldl _sha256_transform _sha256_init := by
  refine ⟨?_, ?_, computeRun_blocks chunk0 buffer0 length hc0 hL0,
    computeRun_flatten chunk0 buffer0 length hc0 hL0, ?_⟩
  · rw [sha256_compute_eq_fold chunk0 result0 buffer0 length hc0 hr0 hL0,
      sha256_compute_eq_fold chunk1 result1 buffer1 length hc1 hr1 hL1, hagree]
  · rw [computeRun_eq_toBlocks chunk0 buffer0 length hc0 hL0,
      computeRun_eq_toBlocks chunk1 buffer1 length hc1 hL1, hagree]
  · obtain ⟨_, _, _, h⟩ := computeRun_spec chunk0 buffer0 length hc0 hL0
    exact h

theorem digest_depends_on_message_only_witness :
    sha256_compute (List.replicate 64 0) (List.replicate 32 0) [0x61, 0x62, 0x63, 0x64] 3
      = sha256_compute (List.replicate 64 0xff) (List.replicate 32 0xff)
          [0x61, 0x62, 0x63, 0x65, 0x66] 3 :=
  (digest_depends_on_message_only (List.replicate 64 0) (List.replicate 64 0xff)
    (List.replicate 32 0) (List.replicate 32 0xff) [0x61, 0x62, 0x63, 0x64]
    [0x61, 0x62, 0x63, 0x65, 0x66] 3 (by decide) (by decide) (by decide) (by decide)
    (by decide) (by decide) (by decide)).1

/-- C14. For a buffer readable for `length` bytes, `sha256_compute` returns, and every array
access it and `_sha256_transform` make is inside its array: the embedding in which an access
outside `chunk` (64 bytes), `w` (64 words), `_sha256_round_constants` (64 words), `ctx->hash`
(8 words), `result->hash` (32 bytes) or the first `length` bytes of `buffer` fails, and in which
a `while` loop fails when still running after 64 passes, gives the same digest as the
unchecked one. When the padding starts `chunk_position` is at most 63. -/
theorem sha256_compute_total_in_bounds (chunk0 result0 buffer : List Nat) (length : Nat)
    (hc : chunk0.length = 64) (hr : result0.length = 32) (hL : length ≤ buffer.length) :
    sha256_compute_checked chunk0 result0 buffer length
      = some (sha256_compute chunk0 result0 buffer length) ∧
    ((List.range length).foldl (chunkingStep buffer)
      { hash := _sha256_init, chunk := chunk0, chunk_position := 0, calls := [] }).chunk_position
        ≤ 63 ∧
    ∀ hash chunk : List Nat, hash.length = 8 → chunk.length = 64 →
      transformChecked hash chunk = some (_sha256_transform hash chunk) := by
  refine ⟨?_, ?_, fun hash chunk hh hch => transformChecked_eq hash chunk hh hch⟩
  · unfold sha256_compute_checked sha256_compute
    rw [computeRunChecked_eq chunk0 buffer length hc hL]
    simp only [Option.bind_eq_bind, Option.some_bind]
    exact produceLoopChecked_eq _ result0 rfl hr
  · have inv := chunkingLoop_inv chunk0 buffer hc length hL
    rw [inv.pos]
    omega

theorem sha256_compute_total_in_bounds_witness :
    sha256_compute_checked (List.replicate 64 0xff) (List.replicate 32 0xff)
        [0x61, 0x62, 0x63] 3
      = some (sha256_compute (List.replicate 64 0xff) (List.replicate 32 0xff)
        [0x61, 0x62, 0x63] 3) :=
  (sha256_compute_total_in_bounds (List.replicate 64 0xff) (List.replicate 32 0xff)
    [0x61, 0x62, 0x63] 3 (by decide) (by decide) (by decide)).1

/-- C15. On explicit memory, for every layout in which the local arrays of `sha256_compute`
are objects of their own: the function leaves the size of the memory and every cell outside
`result->hash[0..31]` and its two local arrays as they were; it leaves every byte of the
message as it was when the message does not overlap `result->hash`; and `result->hash[0..31]`
holds the digest of the message, also when the two overlap. The compression function
changes no cell outside `ctx->hash[0..7]`; it leaves the chunk as it was when the chunk does
not overlap the hash state, and the new hash state is the one `_sha256_transform` computes. -/
theorem compute_writes_result_only (m : List Nat) (buffer length result ctx chunk : Nat)
    (h : Layout m buffer length result ctx chunk) :
    (sha256_compute_at m buffer length result ctx chunk).length = m.length ∧
    (∀ a, ¬ (result ≤ a ∧ a < result + 32) → ¬ (ctx ≤ a ∧ a < ctx + 8) →
      ¬ (chunk ≤ a ∧ a < chunk + 64) →
      (sha256_compute_at m buffer length result ctx chunk).getD a 0 = m.getD a 0) ∧
    ((buffer + length ≤ result ∨ result + 32 ≤ buffer) →
      loadArray (sha256_compute_at m buffer length result ctx chunk) buffer length
        = loadArray m buffer length) ∧
    loadArray (sha256_compute_at m buffer length result ctx chunk) result 32
      = sha256_compute (loadArray m chunk 64) (loadArray m result 32)
          (loadArray m buffer length) length ∧
    ∀ (m1 : List Nat) (p q : Nat),
      (transformAt m1 p q).length = m1.length ∧
      (∀ a, ¬ (p ≤ a ∧ a < p + 8) → (transformAt m1 p q).getD a 0 = m1.getD a 0) ∧
      ((p + 8 ≤ q ∨ q + 64 ≤ p) → loadArray (transformAt m1 p q) q 64 = loadArray m1 q 64) ∧
      (p + 8 ≤ m1.length → loadArray (transformAt m1 p q) p 8
        = _sha256_transform (loadArray m1 p 8) (loadArray m1 q 64)) := by
  obtain ⟨hci, hxi, hri, hcc, hbc, hbx, hrx, hrc⟩ := h
  obtain ⟨⟨s1, s2, _, s4⟩, _⟩ := sim_computeRun m buffer length ctx chunk hci hxi hcc hbc hbx
  obtain ⟨p1, p2, p3⟩ := produceLoopAt_spec ctx result _ (by rw [s1]; exact hri) hrx 8
    (le_refl _)
  have hframe : ∀ a, ¬ (result ≤ a ∧ a < result + 32) → ¬ (ctx ≤ a ∧ a < ctx + 8) →
      ¬ (chunk ≤ a ∧ a < chunk + 64) →
      (sha256_compute_at m buffer length result ctx chunk).getD a 0 = m.getD a 0 :=
    fun a ha hb hc => (p2 a ha).trans (s2 a hb hc)
  refine ⟨p1.trans s1, hframe, fun hbr => ?_, ?_, fun m1 p q => ⟨transformAt_length m1 p q,
    fun a ha => transformAt_getD m1 p q a ha, fun hpq => ?_, transformAt_hash m1 p q⟩⟩
  · exact loadArray_congr _ _ _ _ (fun j hj => hframe _ (by omega) (by omega) (by omega))
  · refine p3.trans ?_
    rw [s4]
    have e : loadArray (callTransformAt ctx chunk (appendLengthAt chunk (messageLength length)
        (padRemainingAt ctx chunk ((List.range length).foldl (chunkingStepAt buffer ctx chunk)
          { mem := initAt m ctx, chunk_position := 0 })))).mem result 32
        = loadArray m result 32 :=
      loadArray_congr _ _ _ _ (fun j hj => s2 _ (by omega) (by omega))
    rw [e]
    rfl
  · exact loadArray_congr _ _ _ _ (fun j hj => transformAt_getD m1 p q _ (by omega))

theorem compute_writes_result_only_witness :
    loadArray (sha256_compute_at ([0x61, 0x62, 0x63] ++ List.replicate 104 0xff) 0 3 3 35 43)
        0 3 = loadArray ([0x61, 0x62, 0x63] ++ List.replicate 104 0xff) 0 3 :=
  (compute_writes_result_only ([0x61, 0x62, 0x63] ++ List.replicate 104 0xff) 0 3 3 35 43
    ⟨by decide, by decide, by decide, by decide, by decide, by decide, by decide,
      by decide⟩).2.2.1 (by decide)

/-- C15, with the message inside the result storage. For `struct sha256_result r` whose
bytes `r.hash[0..2]` hold `"abc"`, the call `sha256_compute(r.hash, 3, &r)` overwrites the
three bytes of the message with the first bytes `ba 78 16` of the digest. -/
theorem compute_overwrites_overlapping_message :
    Layout ([0x61, 0x62, 0x63] ++ List.replicate 101 0) 0 3 0 32 40 ∧
    loadArray ([0x61, 0x62, 0x63] ++ List.replicate 101 0) 0 3 = [0x61, 0x62, 0x63] ∧
    loadArray (sha256_compute_at ([0x61, 0x62, 0x63] ++ List.replicate 101 0) 0 3 0 32 40) 0 3
      = [0xba, 0x78, 0x16] :=
  ⟨⟨by decide, by decide, by decide, by decide, by decide, by decide, by decide, by decide⟩,
    by decide, by decide!⟩

theorem be64_high_zero (x : Nat) (hx : x < 2 ^ 32) : (be64 x).take 4 = [0, 0, 0, 0] := by
  have h1 : x / 2 ^ 56 % 256 = 0 := by omega
  have h2 : x / 2 ^ 48 % 256 = 0 := by omega
  have h3 : x / 2 ^ 40 % 256 = 0 := by omega
  have h4 : x / 2 ^ 32 % 256 = 0 := by omega
  simp only [be64, List.take, h1, h2, h3, h4]

/-- C22. For every length `L`, the length field that `sha256_compute` writes into bytes
56..63 of the final chunk is the 64-bit big-endian encoding of `(8 * L) mod 2 ^ 32`: the
product `length * 8` is taken in 32-bit arithmetic before it is widened. Bytes 56..59 are
zero, and two messages whose lengths differ by a multiple of `2 ^ 29` get the same length
field. -/
theorem length_field_is_32_bit_product (chunk0 buffer : List Nat) (length : Nat)
    (hc : chunk0.length = 64) (hL : length ≤ buffer.length) :
    ∃ last, (computeRun chunk0 buffer length).calls.getLast? = some last ∧
      last.drop 56 = be64 ((8 * length) % 2 ^ 32) ∧
      (last.drop 56).take 4 = [0, 0, 0, 0] ∧
      ∀ (chunk1 buffer1 : List Nat) (length1 : Nat), chunk1.length = 64 →
        length1 ≤ buffer1.length → length1 % 2 ^ 29 = length % 2 ^ 29 →
        ∃ last1, (computeRun chunk1 buffer1 length1).calls.getLast? = some last1 ∧
          last1.drop 56 = last.drop 56 := by
  obtain ⟨last, h1, _, h3, _⟩ := computeRun_last chunk0 buffer length hc hL
  have hm : messageLength length = (8 * length) % 2 ^ 32 := by
    unfold messageLength; rw [Nat.mul_comm]
  rw [hm] at h3
  refine ⟨last, h1, h3, ?_, ?_⟩
  · rw [h3]
    exact be64_high_zero _ (Nat.mod_lt _ (by norm_num))
  · intro chunk1 buffer1 length1 hc1 hL1 hmod
    obtain ⟨last1, g1, _, g3, _⟩ := computeRun_last chunk1 buffer1 length1 hc1 hL1
    refine ⟨last1, g1, ?_⟩
    rw [g3, h3]
    congr 1
    unfold messageLength
    omega

theorem length_field_is_32_bit_product_witness :
    ∃ last, (computeRun (List.replicate 64 0xff) [0x61, 0x62, 0x63] 3).calls.getLast?
        = some last ∧ last.drop 56 = be64 ((8 * 3) % 2 ^ 32) := by
  obtain ⟨last, h1, h2, _⟩ := length_field_is_32_bit_product (List.replicate 64 0xff)
    [0x61, 0x62, 0x63] 3 (by decide) (by decide)
  exact ⟨last, h1, h2⟩

end SHA256

namespace FreeStore

/-! ## The container: auxiliary facts -/

variable {T : Type} {N : Nat}

theorem checkRange_live (a : FreeStoreArray T N) (cells : List T) (h : a.m_data = some cells)
    (n : Nat) :
    a.checkRange n = if n ≥ N then Except.error Failure.out_of_range else Except.ok () := by
  simp [FreeStoreArray.checkRange, h]

theorem checkRange_moved (a : FreeStoreArray T N) (h : a.m_data = none) (n : Nat) :
    a.checkRange n = Except.error Failure.runtime_error := by
  simp [FreeStoreArray.checkRange, h]

theorem subscript_live (a : FreeStoreArray T N) (cells : List T) (h : a.m_data = some cells)
    (n : Nat) (hn : n < cells.length) : a.subscript n = Except.ok cells[n] := by
  simp [FreeStoreArray.subscript, h, List.getElem?_eq_getElem hn]

theorem at_live_lt (a : FreeStoreArray T N) (cells : List T) (h : a.m_data = some cells)
    (hv : cells.length = N) (n : Nat) (hn : n < N) :
    a.at n = Except.ok (cells.get ⟨n, by omega⟩) := by
  unfold FreeStoreArray.at
  rw [checkRange_live a cells h, if_neg (by omega), subscript_live a cells h n (by omega)]
  rfl

theorem at_live_ge (a : FreeStoreArray T N) (cells : List T) (h : a.m_data = some cells)
    (n : Nat) (hn : N ≤ n) : a.at n = Except.error Failure.out_of_range := by
  unfold FreeStoreArray.at
  rw [checkRange_live a cells h, if_pos hn]
  rfl

theorem at_moved (a : FreeStoreArray T N) (h : a.m_data = none) (n : Nat) :
    a.at n = Except.error Failure.runtime_error := by
  unfold FreeStoreArray.at
  rw [checkRange_moved a h]
  rfl

theorem size_live (a : FreeStoreArray T N) (cells : List T) (h : a.m_data = some cells) :
    a.size = N := by
  simp [FreeStoreArray.size, h]

theorem size_moved (a : FreeStoreArray T N) (h : a.m_data = none) : a.size = 0 := by
  simp [FreeStoreArray.size, h]

theorem visitRange_live (a : FreeStoreArray T N) (cells : List T) (h : a.m_data = some cells)
    (hv : cells.length = N) (fuel k : Nat) (hk : k + fuel = N) :
    a.visitRange (Pointer.elem N) fuel (Pointer.elem k) = some (cells.drop k) := by
  induction fuel generalizing k with
  | zero =>
    have : k = N := by omega
    subst this
    simp [FreeStoreArray.visitRange, ← hv]
  | succ fuel ih =>
    have hlt : k < cells.length := by omega
    have hne : (Pointer.elem (k : Int)) ≠ Pointer.elem (N : Int) := by
      intro he
      injection he with he
      omega
    have hd : a.deref (Pointer.elem (k : Int)) = Except.ok cells[k] := by
      simp [FreeStoreArray.deref, subscript_live a cells h k hlt]
    have hnext : (Pointer.elem (k : Int)).add 1 = Pointer.elem ((k + 1 : Nat) : Int) := by
      show Pointer.elem ((k : Int) + 1) = Pointer.elem ((k + 1 : Nat) : Int)
      rw [Nat.cast_succ]
    unfold FreeStoreArray.visitRange
    rw [if_neg hne, hd]
    simp only []
    rw [hnext, ih (k + 1) (by omega), List.drop_eq_getElem_cons hlt]
    rfl

theorem rangeFor_live (a : FreeStoreArray T N) (cells : List T) (h : a.m_data = some cells)
    (hv : cells.length = N) : a.rangeFor = some cells := by
  have hb : a.begin = Pointer.elem ((0 : Nat) : Int) := by
    simp [FreeStoreArray.begin, FreeStoreArray.data, h]
  have he : a.end = Pointer.elem (N : Int) := by
    unfold FreeStoreArray.end FreeStoreArray.data
    rw [size_live a cells h, h]
    show Pointer.elem (0 + (N : Int)) = Pointer.elem (N : Int)
    rw [Int.zero_add]
  unfold FreeStoreArray.rangeFor
  rw [hb, he, visitRange_live a cells h hv N 0 (by omega)]
  rfl

theorem begin_end_moved (a : FreeStoreArray T N) (h : a.m_data = none) :
    a.begin = Pointer.null ∧ a.end = Pointer.null := by
  simp [FreeStoreArray.begin, FreeStoreArray.end, FreeStoreArray.data, h, size_moved a h,
    Pointer.add]

theorem rangeFor_moved (a : FreeStoreArray T N) (h : a.m_data = none) :
    a.rangeFor = some [] := by
  obtain ⟨hb, he⟩ := begin_end_moved a h
  unfold FreeStoreArray.rangeFor
  rw [hb, he]
  cases N <;> simp [FreeStoreArray.visitRange]

theorem fromList_exact (fresh list : List T) (hf : fresh.length = N) (hl : list.length = N) :
    FreeStoreArray.fromList (N := N) fresh list = some { m_data := some list } := by
  unfold FreeStoreArray.fromList uninitialized_copy
  rw [if_pos (by omega), List.drop_of_length_le (by omega), List.append_nil]
  rfl

theorem construct_cells (fresh : List T) (init : T) (hf : fresh.length = N) :
    (FreeStoreArray.construct (N := N) fresh init).m_data = some (List.replicate N init) := by
  unfold FreeStoreArray.construct uninitialized_fill_n
  rw [List.drop_of_length_le (by omega), List.append_nil]


/-! ## The container: the claims -/

/-- C16. For a `FreeStoreArray<T,N>` that has not been moved from and every index `n`: when
`n < N`, `at(n)` returns element `n` of the block, the element `operator[](n)` yields; `at(n)`
throws `std::out_of_range` exactly when `n ≥ N`. So `at(i)` succeeds for every `i < size()`
and throws `std::out_of_range` at `i = size()`. -/
theorem at_checks_range (a : FreeStoreArray T N) (cells : List T) (h : a.m_data = some cells)
    (hv : cells.length = N) (n : Nat) :
    (∀ hn : n < N, a.at n = Except.ok (cells.get ⟨n, by omega⟩) ∧ a.at n = a.subscript n) ∧
    (a.at n = Except.error Failure.out_of_range ↔ N ≤ n) ∧
    (∀ i, i < a.size → ∃ x, a.at i = Except.ok x) ∧
    a.at a.size = Except.error Failure.out_of_range := by
  refine ⟨fun hn => ⟨at_live_lt a cells h hv n hn, ?_⟩, ⟨fun he => ?_, at_live_ge a cells h n⟩,
    fun i hi => ?_, ?_⟩
  · rw [at_live_lt a cells h hv n hn, subscript_live a cells h n (by omega)]
    rfl
  · by_contra hlt
    rw [at_live_lt a cells h hv n (by omega)] at he
    cases he
  · rw [size_live a cells h] at hi
    exact ⟨_, at_live_lt a cells h hv i hi⟩
  · rw [size_live a cells h]
    exact at_live_ge a cells h N (le_refl _)

theorem at_checks_range_witness :
    (FreeStoreArray.mk (N := 3) (some [10, 20, 30])).at 3
      = Except.error Failure.out_of_range :=
  (at_checks_range (FreeStoreArray.mk (N := 3) (some [10, 20, 30])) [10, 20, 30] rfl rfl
    3).2.2.2

/-- C17. For a moved-from `FreeStoreArray` and every index `n`, also `n ≥ N`, the member
functions `at(n)`, `front()` and `back()` throw `std::runtime_error`: they neither return an
element nor throw `std::out_of_range`. -/
theorem moved_from_access_throws (a : FreeStoreArray T N) (h : a.m_data = none) (n : Nat) :
    a.at n = Except.error Failure.runtime_error ∧
    a.front = Except.error Failure.runtime_error ∧
    a.back = Except.error Failure.runtime_error ∧
    a.at n ≠ Except.error Failure.out_of_range ∧
    ∀ x, a.at n ≠ Except.ok x := by
  refine ⟨at_moved a h n, at_moved a h 0, at_moved a h _, ?_, fun x => ?_⟩
  · rw [at_moved a h n]
    intro he
    cases he
  · rw [at_moved a h n]
    intro he
    cases he

theorem moved_from_access_throws_witness :
    (FreeStoreArray.mk (T := Nat) (N := 3) none).at 7 = Except.error Failure.runtime_error :=
  (moved_from_access_throws (FreeStoreArray.mk (T := Nat) (N := 3) none) rfl 7).1

/-- C18. After `b` is move-constructed from a live `FreeStoreArray` `a`: `b.size()` is `N` and
`b` holds the former elements of `a` in the same order, while `a.size()` is 0, `a.empty()` is
true, `a.begin()` equals `a.end()` and a range-based `for` over `a` visits no element. -/
theorem move_construct_empties_source (a : FreeStoreArray T N) (cells : List T)
    (h : a.m_data = some cells) (hv : cells.length = N) :
    a.moveConstruct.1.size = N ∧
    a.moveConstruct.1.m_data = some cells ∧
    a.moveConstruct.1.rangeFor = some cells ∧
    a.moveConstruct.2.size = 0 ∧
    a.moveConstruct.2.empty = true ∧
    a.moveConstruct.2.begin = a.moveConstruct.2.end ∧
    a.moveConstruct.2.rangeFor = some [] := by
  have hb : a.moveConstruct.1.m_data = some cells := h
  have hm : a.moveConstruct.2.m_data = none := rfl
  obtain ⟨e1, e2⟩ := begin_end_moved _ hm
  refine ⟨size_live _ cells hb, hb, rangeFor_live _ cells hb hv, size_moved _ hm, ?_,
    e1.trans e2.symm, rangeFor_moved _ hm⟩
  simp [FreeStoreArray.empty, size_moved _ hm]

theorem move_construct_empties_source_witness :
    (FreeStoreArray.mk (N := 3) (some [10, 20, 30])).moveConstruct.2.rangeFor = some [] :=
  (move_construct_empties_source (FreeStoreArray.mk (N := 3) (some [10, 20, 30])) [10, 20, 30]
    rfl rfl).2.2.2.2.2.2

/-- C19. A `FreeStoreArray<T,N>` constructed from an initializer list of exactly `N` values has
`size() == N`, `at(i)` is the `i`-th value of the list for every `i < N`, and the iteration
from `begin()` to `end()` visits the values of the list in order; the span over the array
built from `{0, 1, ..., 9}` sums to 45. -/
theorem initializer_list_elements (fresh list : List T) (hf : fresh.length = N)
    (hl : list.length = N) :
    (∃ a : FreeStoreArray T N, FreeStoreArray.fromList fresh list = some a ∧
      a.size = N ∧
      (∀ i (hi : i < list.length), a.at i = Except.ok (list.get ⟨i, hi⟩)) ∧
      a.rangeFor = some list) ∧
    ∀ fresh10 : List Int, fresh10.length = 10 →
      (FreeStoreArray.fromList (N := 10) fresh10 [0, 1, 2, 3, 4, 5, 6, 7, 8, 9]).bind testSpan
        = some 45 := by
  constructor
  · refine ⟨{ m_data := some list }, fromList_exact fresh list hf hl, size_live _ list rfl,
      fun i hi => ?_, rangeFor_live _ list rfl hl⟩
    exact at_live_lt _ list rfl hl i (by omega)
  · intro fresh10 h10
    rw [fromList_exact fresh10 [0, 1, 2, 3, 4, 5, 6, 7, 8, 9] h10 rfl]
    rfl

theorem initializer_list_elements_witness :
    ∃ a : FreeStoreArray Nat 3, FreeStoreArray.fromList [0, 0, 0] [10, 20, 30] = some a ∧
      a.size = 3 ∧
      (∀ i (hi : i < [10, 20, 30].length), a.at i = Except.ok ([10, 20, 30].get ⟨i, hi⟩)) ∧
      a.rangeFor = some [10, 20, 30] :=
  (initializer_list_elements [0, 0, 0] [10, 20, 30] rfl rfl).1

/-- C20. A default-constructed `FreeStoreArray<T,N>` is live: `size()` is `N`, `empty()` is
false when `N > 0`, and every one of its `N` elements is the value-initialised `T{}`. -/
theorem default_constructed_elements (fresh : List T) (init : T) (hf : fresh.length = N) :
    (FreeStoreArray.construct (N := N) fresh init).m_data.isSome = true ∧
    (FreeStoreArray.construct (N := N) fresh init).size = N ∧
    (0 < N → (FreeStoreArray.construct (N := N) fresh init).empty = false) ∧
    (∀ i, i < N → (FreeStoreArray.construct (N := N) fresh init).at i = Except.ok init) ∧
    (FreeStoreArray.construct (N := N) fresh init).rangeFor = some (List.replicate N init) := by
  have hc := construct_cells fresh init hf
  have hs := size_live _ _ hc
  refine ⟨by rw [hc]; rfl, hs, fun hN => ?_, fun i hi => ?_,
    rangeFor_live _ _ hc (List.length_replicate _ _)⟩
  · simp [FreeStoreArray.empty, hs]
    omega
  · rw [at_live_lt _ _ hc (List.length_replicate _ _) i hi]
    simp

theorem default_constructed_elements_witness :
    (FreeStoreArray.construct (N := 3) [7, 8, 9] (0 : Nat)).rangeFor = some [0, 0, 0] :=
  (default_constructed_elements [7, 8, 9] (0 : Nat) rfl).2.2.2.2

/-- C24, on a moved-from source. The copy of a moved-from `FreeStoreArray<T,3>` is live: the
copy constructor allocates a block and copies the empty range from `begin()` to `end()`, so
the copy has `size() == 3` and `empty() == false` over a block in which no object was
constructed, while the source has `size() == 0` and `empty() == true`. -/
theorem copy_of_moved_from_is_live :
    ∃ c : FreeStoreArray Nat 3,
      FreeStoreArray.copyConstruct [7, 8, 9] (FreeStoreArray.mk none) = some c ∧
      c.size = 3 ∧ c.empty = false ∧ c.m_data = some [7, 8, 9] ∧
      (FreeStoreArray.mk (T := Nat) (N := 3) none).size = 0 ∧
      (FreeStoreArray.mk (T := Nat) (N := 3) none).empty = true :=
  ⟨_, rfl, rfl, rfl, rfl, rfl, rfl⟩

end FreeStore

namespace CRC

/-! ## The CRC tables -/

theorem bitwiseStep_xor_even (poly x y : Nat) (hy : y % 2 = 0) :
    bitwiseStep poly (x ^^^ y) = bitwiseStep poly x ^^^ (y / 2) := by
  have hpar : (x ^^^ y) % 2 = x % 2 := by
    rw [Nat.xor_mod_two_eq]; omega
  have hsh : (x ^^^ y) >>> 1 = (x >>> 1) ^^^ (y / 2) := by
    rw [Nat.shiftRight_eq_div_pow, Nat.shiftRight_eq_div_pow, pow_one, Nat.xor_div_two]
  unfold bitwiseStep
  rw [hpar, hsh]
  by_cases h : x % 2 = 1
  · rw [if_pos h, if_pos h, Nat.xor_assoc, Nat.xor_comm (y / 2) poly, ← Nat.xor_assoc]
  · rw [if_neg h, if_neg h]

theorem bitwiseStep_iterate_xor (poly : Nat) (k x q : Nat) :
    (bitwiseStep poly)^[k] (x ^^^ (2 ^ k * q)) = (bitwiseStep poly)^[k] x ^^^ q := by
  induction k generalizing x with
  | zero => simp
  | succ k ih =>
    have e : 2 ^ (k + 1) * q = 2 * (2 ^ k * q) := by ring
    rw [Function.iterate_succ_apply, Function.iterate_succ_apply, e,
      bitwiseStep_xor_even poly x (2 * (2 ^ k * q)) (Nat.mul_mod_right _ _),
      Nat.mul_div_cancel_left _ (by norm_num : 0 < 2), ih]

theorem split_low_byte (z : Nat) : z = (z % 2 ^ 8) ^^^ (2 ^ 8 * (z >>> 8)) := by
  apply Nat.eq_of_testBit_eq
  intro i
  rw [Nat.testBit_xor, Nat.testBit_mod_two_pow, Nat.testBit_mul_pow_two, Nat.testBit_shiftRight]
  by_cases hi : i < 8
  · have : ¬ i ≥ 8 := by omega
    simp [hi, this]
  · have h8 : i ≥ 8 := by omega
    have : 8 + (i - 8) = i := by omega
    simp [hi, h8, this]

theorem xor_byte_shiftRight (crc b : Nat) (hb : b < 256) : (crc ^^^ b) >>> 8 = crc >>> 8 := by
  apply Nat.eq_of_testBit_eq
  intro j
  have hlt : b < 2 ^ (8 + j) :=
    lt_of_lt_of_le hb (by
      calc 256 = 2 ^ 8 := by norm_num
        _ ≤ 2 ^ (8 + j) := Nat.pow_le_pow_right (by norm_num) (by omega))
  rw [Nat.testBit_shiftRight, Nat.testBit_shiftRight, Nat.testBit_xor,
    Nat.testBit_lt_two_pow hlt, Bool.xor_false]

theorem bitwiseUpdate_split (poly crc b : Nat) (hb : b < 256) :
    bitwiseUpdate poly crc b
      = (bitwiseStep poly)^[8] ((crc ^^^ b) % 2 ^ 8) ^^^ (crc >>> 8) := by
  unfold bitwiseUpdate
  conv_lhs => rw [split_low_byte (crc ^^^ b)]
  rw [bitwiseStep_iterate_xor, xor_byte_shiftRight crc b hb]

theorem table16_eq_map :
    table16 = (List.range 256).map (fun i => (bitwiseStep CRC16_POLYNOM)^[8] i) := by
  decide!

theorem table32_eq_map :
    table32 = (List.range 256).map (fun i => (bitwiseStep CRC32_POLYNOM)^[8] i) := by
  decide!

theorem getD_map_range (f : Nat → Nat) (n i : Nat) (hi : i < n) :
    ((List.range n).map f).getD i 0 = f i := by
  rw [List.getD_eq_getElem?_getD, List.getElem?_eq_getElem (by simpa using hi)]
  simp

theorem table16_entries (i : Nat) (hi : i < 256) :
    table16.getD i 0 = (bitwiseStep CRC16_POLYNOM)^[8] i := by
  rw [table16_eq_map, getD_map_range _ 256 i hi]

theorem table32_entries (i : Nat) (hi : i < 256) :
    table32.getD i 0 = (bitwiseStep CRC32_POLYNOM)^[8] i := by
  rw [table32_eq_map, getD_map_range _ 256 i hi]

/-! ## The CRC tables: the claims -/

/-- C21. The polynomial constants of the table generators hold the documented generator
polynomials bit-reflected: bit `15 - k` of `CRC16_POLYNOM` is the coefficient of `x^k` in
`x^16 + x^15 + x^2 + x^0` for `k` in 0..15, and bit `31 - k` of `CRC32_POLYNOM` is the
coefficient of `x^k` in the polynomial of `gen32.c` for `k` in 0..31; the leading
coefficients `x^16` and `x^32` have no bit. -/
theorem polynomials_are_reflected :
    (∀ k, k < 16 → CRC16_POLYNOM.testBit (15 - k) = decide (k ∈ crc16Exponents)) ∧
    (∀ k, k < 32 → CRC32_POLYNOM.testBit (31 - k) = decide (k ∈ crc32Exponents)) ∧
    CRC16_POLYNOM < 2 ^ 16 ∧ CRC32_POLYNOM < 2 ^ 32 ∧
    16 ∈ crc16Exponents ∧ 32 ∈ crc32Exponents := by
  decide

/-- C26. With the tables that `gen16.c` and `gen32.c` compute, table-driven updating equals
bitwise updating: for every register value `crc` and every byte `b`,
`table[(crc xor b) and 0xff] xor (crc >> 8)` is the value obtained by xoring `b` into `crc`
and applying eight times the step "if the low bit is set then `(x >> 1) xor POLYNOM` else
`x >> 1`". The tables have 256 entries. -/
theorem table_update_eq_bitwise (crc b : Nat) (hb : b < 256) :
    tableUpdate table16 crc b = bitwiseUpdate CRC16_POLYNOM crc b ∧
    tableUpdate table32 crc b = bitwiseUpdate CRC32_POLYNOM crc b ∧
    table16.length = 256 ∧ table32.length = 256 := by
  have hidx : (crc ^^^ b) &&& 0xff = (crc ^^^ b) % 2 ^ 8 :=
    Nat.and_pow_two_sub_one_eq_mod _ 8
  have hlt : (crc ^^^ b) % 2 ^ 8 < 256 := Nat.mod_lt _ (by norm_num)
  refine ⟨?_, ?_, by rw [table16_eq_map]; simp, by rw [table32_eq_map]; simp⟩
  · rw [bitwiseUpdate_split _ crc b hb]
    unfold tableUpdate
    rw [hidx, table16_entries _ hlt]
  · rw [bitwiseUpdate_split _ crc b hb]
    unfold tableUpdate
    rw [hidx, table32_entries _ hlt]

theorem table_update_eq_bitwise_witness :
    tableUpdate table16 0xffff 0x31 = bitwiseUpdate CRC16_POLYNOM 0xffff 0x31 :=
  (table_update_eq_bitwise 0xffff 0x31 (by decide)).1

end CRC

namespace Tcp

/-! ## The peer port: the claim -/

/-- C25, on a little-endian host. For the peer address that `connect` builds for port 8080,
whose `sin_port` reads `36895` (`0x901f`) on the host, the socket constructed from
`(fd, sockaddr_in)` has `port() == 36895`, whereas `ntohs(sockaddr.sin_port)` is `8080` and
the socket of the connecting constructor has `port() == 8080`; the address bytes of both are
`127.0.0.1`, since `TcpAddress(const sockaddr_in&)` does convert with `ntohl`. -/
theorem accepted_port_is_not_converted :
    (connectSockaddr true [127, 0, 0, 1] 8080).sin_port = 36895 ∧
    (TcpSocket.fromDescriptor true 5 (connectSockaddr true [127, 0, 0, 1] 8080)).port = 36895 ∧
    ntohs true (connectSockaddr true [127, 0, 0, 1] 8080).sin_port = 8080 ∧
    (TcpSocket.connectTo 5 [127, 0, 0, 1] 8080).port = 8080 ∧
    (TcpSocket.fromDescriptor true 5 (connectSockaddr true [127, 0, 0, 1] 8080)).m_address
      = [127, 0, 0, 1] := by
  decide

end Tcp

namespace Sinc

/-! ## The filter sizes -/

variable {R : Type}

theorem foldlM_ok {σ α : Type} (Inv : σ → Prop) (f : σ → α → σ)
    (g : σ → α → Except Failure σ) (l : List α)
    (hstep : ∀ s x, x ∈ l → Inv s → g s x = Except.ok (f s x) ∧ Inv (f s x)) (s0 : σ)
    (h0 : Inv s0) : l.foldlM g s0 = Except.ok (l.foldl f s0) ∧ Inv (l.foldl f s0) := by
  induction l generalizing s0 with
  | nil => exact ⟨rfl, h0⟩
  | cons x t ih =>
    obtain ⟨h1, h2⟩ := hstep s0 x (by simp) h0
    rw [List.foldlM_cons, h1, List.foldl_cons]
    exact ih (fun s i hi hs => hstep s i (by simp [hi]) hs) _ h2

theorem bind_ok {α β : Type} (x : α) (f : α → Except Failure β) :
    (Except.ok x).bind f = f x := rfl

theorem size_add_eq (x y : Nat) (h : x + y < 2 ^ 64) : size_add x y = x + y :=
  Nat.mod_eq_of_lt h

theorem size_sub_one (n : Nat) (h1 : 1 ≤ n) (h2 : n < 2 ^ 64) : size_sub n 1 = n - 1 := by
  unfold size_sub
  omega

theorem assert_false (cond : Bool) (a : Assertion) :
    assert false cond a
      = if cond then Except.ok () else Except.error (Failure.assertion a) := by
  cases cond <;> rfl

theorem construct_false [Zero R] (size : Nat) :
    SincFilter.construct (R := R) false size =
      if size ≤ max_size then
        if size ≥ MinimumSize ∧ size % 2 = 1 then
          Except.ok { m_coeffs := List.replicate size 0 }
        else Except.error (Failure.assertion Assertion.constructorSize)
      else Except.error Failure.length_error := by
  unfold SincFilter.construct vector
  by_cases h1 : size ≤ max_size
  · by_cases h2 : size ≥ MinimumSize ∧ size % 2 = 1
    · rw [if_pos h1, if_pos h1, if_pos h2, assert_false, if_pos (decide_eq_true h2)]
      rfl
    · rw [if_pos h1, if_pos h1, if_neg h2, assert_false, if_neg (by simpa using h2)]
      rfl
  · rw [if_neg h1, if_neg h1]
    rfl

theorem construct_eq_ok [Zero R] (size : Nat) (h1 : size ≤ max_size)
    (h2 : size ≥ MinimumSize ∧ size % 2 = 1) :
    SincFilter.construct (R := R) false size
      = Except.ok { m_coeffs := List.replicate size 0 } := by
  rw [construct_false, if_pos h1, if_pos h2]

theorem construct_ok_inv [Zero R] (size : Nat) (out : SincFilter R)
    (h : SincFilter.construct false size = Except.ok out) :
    size ≤ max_size ∧ (size ≥ MinimumSize ∧ size % 2 = 1) ∧
      out.m_coeffs = List.replicate size 0 := by
  rw [construct_false] at h
  by_cases h1 : size ≤ max_size
  · by_cases h2 : size ≥ MinimumSize ∧ size % 2 = 1
    · rw [if_pos h1, if_pos h2] at h
      injection h with h
      exact ⟨h1, h2, by rw [← h]⟩
    · rw [if_pos h1, if_neg h2] at h
      cases h
  · rw [if_neg h1] at h
    cases h

theorem transform_ok (op : R → R) (src dst : List R) (h : dst.length = src.length) :
    ∃ out, transform op src dst = Except.ok out ∧ out.length = src.length := by
  unfold transform
  rw [if_pos (by omega)]
  exact ⟨_, rfl, by simp [h]⟩

theorem transform_ok_length (op : R → R) (src dst out : List R)
    (h : transform op src dst = Except.ok out) : out.length = dst.length := by
  unfold transform at h
  by_cases hl : src.length ≤ dst.length
  · rw [if_pos hl] at h
    injection h with h
    rw [← h]
    simp
    omega
  · rw [if_neg hl] at h
    cases h

theorem transform2_ok (op : R → R → R) (src1 src2 dst : List R)
    (h2 : src2.length = src1.length) (h : dst.length = src1.length) :
    ∃ out, transform2 op src1 src2 dst = Except.ok out ∧ out.length = src1.length := by
  unfold transform2
  rw [if_pos (by omega)]
  exact ⟨_, rfl, by simp [h, h2]⟩

theorem transform2_ok_length (op : R → R → R) (src1 src2 dst out : List R)
    (h : transform2 op src1 src2 dst = Except.ok out) : out.length = dst.length := by
  unfold transform2 at h
  by_cases hl : src1.length ≤ src2.length ∧ src1.length ≤ dst.length
  · rw [if_pos hl] at h
    injection h with h
    rw [← h]
    simp
    omega
  · rw [if_neg hl] at h
    cases h

theorem convolve_loops_ok [Zero R] [Add R] [Mul R] (in1 in2 acc : List R)
    (h : in1.length + in2.length ≤ acc.length + 1) :
    ∃ out, (List.range in1.length).foldlM
        (fun acc i => (List.range in2.length).foldlM (convolveStep in1 in2 i) acc) acc
      = Except.ok out ∧ out.length = acc.length := by
  have inner : ∀ (i : Nat) (s : List R), i < in1.length → s.length = acc.length →
      (List.range in2.length).foldlM (convolveStep in1 in2 i) s
        = Except.ok ((List.range in2.length).foldl (fun out j =>
            out.set (i + j) (out.getD (i + j) 0 + in1.getD i 0 * in2.getD j 0)) s) ∧
      ((List.range in2.length).foldl (fun out j =>
            out.set (i + j) (out.getD (i + j) 0 + in1.getD i 0 * in2.getD j 0)) s).length
        = acc.length := by
    intro i s hi hs
    refine foldlM_ok (fun out => out.length = acc.length) _ _ _ (fun out j hj hout => ?_) s hs
    have hj' : j < in2.length := List.mem_range.mp hj
    unfold convolveStep
    rw [if_pos (by omega)]
    exact ⟨rfl, by simp [hout]⟩
  obtain ⟨h1, h2⟩ := foldlM_ok (fun out => out.length = acc.length)
    (fun s i => (List.range in2.length).foldl (fun out j =>
      out.set (i + j) (out.getD (i + j) 0 + in1.getD i 0 * in2.getD j 0)) s)
    (fun acc i => (List.range in2.length).foldlM (convolveStep in1 in2 i) acc)
    (List.range in1.length)
    (fun s i hi hs => inner i s (List.mem_range.mp hi) hs) acc rfl
  exact ⟨_, h1, h2⟩

theorem convolve_ok [Zero R] [Add R] [Mul R] (in1 in2 out : List R)
    (hs : in1.length + in2.length < 2 ^ 64) (h1 : 1 ≤ in1.length + in2.length)
    (h : out.length ≥ in1.length + in2.length - 1) :
    ∃ coeffs, convolve false in1 in2 out = Except.ok coeffs ∧ coeffs.length = out.length := by
  unfold convolve
  rw [assert_false, size_add_eq _ _ hs, size_sub_one _ h1 hs, if_pos (decide_eq_true h)]
  obtain ⟨c, hc1, hc2⟩ := convolve_loops_ok in1 in2 (List.replicate out.length (0 : R))
    (by rw [List.length_replicate]; omega)
  exact ⟨c, hc1, by rw [hc2, List.length_replicate]⟩

theorem foldlM_inv {σ α : Type} (Inv : σ → Prop) (g : σ → α → Except Failure σ) (l : List α)
    (hstep : ∀ s x r, g s x = Except.ok r → Inv s → Inv r) (s0 r : σ) (h0 : Inv s0)
    (h : l.foldlM g s0 = Except.ok r) : Inv r := by
  induction l generalizing s0 with
  | nil =>
    injection h with h
    rw [← h]; exact h0
  | cons x t ih =>
    rw [List.foldlM_cons] at h
    cases hg : g s0 x with
    | error e =>
      rw [hg] at h
      cases h
    | ok s1 =>
      rw [hg] at h
      exact ih s1 (hstep s0 x s1 hg h0) h

theorem convolveStep_ok_length [Zero R] [Add R] [Mul R] (in1 in2 : List R) (i : Nat)
    (out : List R) (j : Nat) (r : List R) (h : convolveStep in1 in2 i out j = Except.ok r) :
    r.length = out.length := by
  unfold convolveStep at h
  by_cases hl : i + j < out.length
  · rw [if_pos hl] at h
    injection h with h
    rw [← h]; simp
  · rw [if_neg hl] at h
    cases h

theorem convolve_ok_length [Zero R] [Add R] [Mul R] (ndebug : Bool)
    (in1 in2 out coeffs : List R) (h : convolve ndebug in1 in2 out = Except.ok coeffs) :
    coeffs.length = out.length := by
  unfold convolve at h
  cases ha : assert ndebug (decide (out.length ≥ size_sub (size_add in1.length in2.length) 1))
      Assertion.convolveSize with
  | error e =>
    rw [ha] at h
    cases h
  | ok u =>
    rw [ha] at h
    have := foldlM_inv (fun s : List R => s.length = out.length)
      (fun acc i => (List.range in2.length).foldlM (convolveStep in1 in2 i) acc)
      (List.range in1.length)
      (fun s i r hr hs => foldlM_inv (fun s : List R => s.length = out.length)
        (convolveStep in1 in2 i) (List.range in2.length)
        (fun s1 j r1 hr1 hs1 => (convolveStep_ok_length in1 in2 i s1 j r1 hr1).trans hs1)
        s r hs hr)
      (List.replicate out.length 0) coeffs (List.length_replicate _ _) h
    exact this

theorem add_false [Zero R] [Add R] (a b : SincFilter R) :
    a.add false b =
      if b.size = a.m_coeffs.length then
        (SincFilter.construct false a.m_coeffs.length).bind (fun out =>
          (transform2 (fun x y => x + y) a.m_coeffs b.m_coeffs out.m_coeffs).map
            (fun coeffs => { m_coeffs := coeffs }))
      else Except.error (Failure.assertion Assertion.sameSize) := by
  unfold SincFilter.add
  rw [assert_false]
  by_cases h : b.size = a.m_coeffs.length
  · rw [if_pos (decide_eq_true h), if_pos h]; rfl
  · rw [if_neg (by simpa using h), if_neg h]; rfl

theorem sub_false [Zero R] [Sub R] (a b : SincFilter R) :
    a.sub false b =
      if b.size = a.m_coeffs.length then
        (SincFilter.construct false a.m_coeffs.length).bind (fun out =>
          (transform2 (fun x y => x - y) a.m_coeffs b.m_coeffs out.m_coeffs).map
            (fun coeffs => { m_coeffs := coeffs }))
      else Except.error (Failure.assertion Assertion.sameSize) := by
  unfold SincFilter.sub
  rw [assert_false]
  by_cases h : b.size = a.m_coeffs.length
  · rw [if_pos (decide_eq_true h), if_pos h]; rfl
  · rw [if_neg (by simpa using h), if_neg h]; rfl

theorem add_eq_ok [Zero R] [Add R] (a b : SincFilter R) (ha : a.OddSize)
    (hm : a.size ≤ max_size) (hab : a.size = b.size) :
    ∃ f, a.add false b = Except.ok f ∧ f.size = a.size := by
  obtain ⟨out, h1, h2⟩ := transform2_ok (fun x y : R => x + y) a.m_coeffs b.m_coeffs
    (List.replicate a.m_coeffs.length 0) hab.symm (List.length_replicate _ _)
  rw [add_false, if_pos (show b.size = a.m_coeffs.length from hab.symm),
    construct_eq_ok a.m_coeffs.length hm ha]
  show ∃ f, (transform2 (fun x y => x + y) a.m_coeffs b.m_coeffs
    (List.replicate a.m_coeffs.length 0)).map _ = Except.ok f ∧ _
  rw [h1]
  exact ⟨_, rfl, h2⟩

theorem sub_eq_ok [Zero R] [Sub R] (a b : SincFilter R) (ha : a.OddSize)
    (hm : a.size ≤ max_size) (hab : a.size = b.size) :
    ∃ f, a.sub false b = Except.ok f ∧ f.size = a.size := by
  obtain ⟨out, h1, h2⟩ := transform2_ok (fun x y : R => x - y) a.m_coeffs b.m_coeffs
    (List.replicate a.m_coeffs.length 0) hab.symm (List.length_replicate _ _)
  rw [sub_false, if_pos (show b.size = a.m_coeffs.length from hab.symm),
    construct_eq_ok a.m_coeffs.length hm ha]
  show ∃ f, (transform2 (fun x y => x - y) a.m_coeffs b.m_coeffs
    (List.replicate a.m_coeffs.length 0)).map _ = Except.ok f ∧ _
  rw [h1]
  exact ⟨_, rfl, h2⟩

theorem invert_eq_ok [Zero R] [One R] [Add R] [Neg R] (a : SincFilter R) (ha : a.OddSize)
    (hm : a.size ≤ max_size) : ∃ f, a.invert false = Except.ok f ∧ f.size = a.size := by
  obtain ⟨out, h1, h2⟩ := transform_ok (fun x : R => -x) a.m_coeffs
    (List.replicate a.m_coeffs.length 0) (List.length_replicate _ _)
  have hlt : a.m_coeffs.length < 2 ^ 64 := by
    have : a.m_coeffs.length ≤ max_size := hm
    unfold max_size at this
    omega
  have h3 : 3 ≤ a.m_coeffs.length := ha.1
  unfold SincFilter.invert
  rw [construct_eq_ok a.m_coeffs.length hm ha]
  show ∃ f, (transform (fun x => -x) a.m_coeffs (List.replicate a.m_coeffs.length 0)).bind _
    = Except.ok f ∧ _
  rw [h1]
  show ∃ f, (if size_sub out.length 1 / 2 < out.length then _ else _) = Except.ok f ∧ _
  rw [h2, size_sub_one _ (by omega) hlt, if_pos (by omega)]
  exact ⟨_, rfl, by simp [SincFilter.size, h2]⟩

theorem mul_size (x y : Nat) (hx : 3 ≤ x) (hy : 3 ≤ y) (h : x + y - 1 ≤ max_size) :
    size_sub (size_add x y) 1 = x + y - 1 := by
  unfold max_size at h
  rw [size_add_eq _ _ (by omega), size_sub_one _ (by omega) (by omega)]

theorem mul_eq_ok [Zero R] [Add R] [Mul R] (a b : SincFilter R) (ha : a.OddSize)
    (hb : b.OddSize) (hm : a.size + b.size - 1 ≤ max_size) :
    ∃ f, a.mul false b = Except.ok f ∧ f.size = a.size + b.size - 1 := by
  have h3a : 3 ≤ a.m_coeffs.length := ha.1
  have h3b : 3 ≤ b.m_coeffs.length := hb.1
  have hm1 : a.m_coeffs.length + b.m_coeffs.length - 1 ≤ max_size := hm
  have hm2 := hm1
  unfold max_size at hm2
  have hodd : a.m_coeffs.length + b.m_coeffs.length - 1 ≥ MinimumSize ∧
      (a.m_coeffs.length + b.m_coeffs.length - 1) % 2 = 1 := by
    have := ha.2
    have := hb.2
    unfold SincFilter.size at *
    unfold MinimumSize
    omega
  obtain ⟨coeffs, h1, h2⟩ := convolve_ok a.m_coeffs b.m_coeffs
    (List.replicate (a.m_coeffs.length + b.m_coeffs.length - 1) (0 : R)) (by omega) (by omega)
    (by rw [List.length_replicate])
  unfold SincFilter.mul
  rw [show b.size = b.m_coeffs.length from rfl, mul_size _ _ h3a h3b hm1,
    construct_eq_ok _ hm1 hodd, bind_ok]
  simp only []
  rw [h1]
  exact ⟨_, rfl, by rw [SincFilter.size, h2, List.length_replicate]; rfl⟩

theorem mul_eq_length_error [Zero R] [Add R] [Mul R] (a b : SincFilter R)
    (hma : a.size ≤ max_size) (hmb : b.size ≤ max_size) (h1 : 1 ≤ a.size + b.size)
    (hm : max_size < a.size + b.size - 1) :
    a.mul false b = Except.error Failure.length_error := by
  have e : size_sub (size_add a.m_coeffs.length b.m_coeffs.length) 1
      = a.m_coeffs.length + b.m_coeffs.length - 1 := by
    have h2 : a.m_coeffs.length ≤ max_size := hma
    have h3 : b.m_coeffs.length ≤ max_size := hmb
    have h4 : 1 ≤ a.m_coeffs.length + b.m_coeffs.length := h1
    unfold max_size at h2 h3
    rw [size_add_eq _ _ (by omega), size_sub_one _ h4 (by omega)]
  unfold SincFilter.mul
  rw [show b.size = b.m_coeffs.length from rfl, e, construct_false,
    if_neg (by exact Nat.not_le.mpr hm)]
  rfl

theorem bind_eq_ok {α β : Type} (x : Except Failure α) (f : α → Except Failure β) (b : β)
    (h : x.bind f = Except.ok b) : ∃ a, x = Except.ok a ∧ f a = Except.ok b := by
  cases x with
  | error e => cases h
  | ok a => exact ⟨a, rfl, h⟩

theorem map_eq_ok {α β : Type} (x : Except Failure α) (f : α → β) (b : β)
    (h : x.map f = Except.ok b) : ∃ a, x = Except.ok a ∧ f a = b := by
  cases x with
  | error e => cases h
  | ok a =>
    injection h with h
    exact ⟨a, rfl, h⟩

theorem foldl_set_length {ι : Type} (g : List R → ι → Nat) (v : List R → ι → R) (l : List ι)
    (acc : List R) :
    (l.foldl (fun c i => c.set (g c i) (v c i)) acc).length = acc.length := by
  induction l generalizing acc with
  | nil => rfl
  | cons x t ih => rw [List.foldl_cons, ih]; simp

theorem lowPass_ok_inv [Zero R] (size : Nat) (fcInRange : Bool) (design : Nat → R)
    (f : SincFilter R) (h : SincFilter.lowPass false size fcInRange design = Except.ok f) :
    f.size = size ∧ f.OddSize ∧ f.size ≤ max_size := by
  unfold SincFilter.lowPass at h
  obtain ⟨out, h1, h2⟩ := bind_eq_ok _ _ _ h
  obtain ⟨_, _, h3⟩ := map_eq_ok _ _ _ h2
  obtain ⟨c1, c2, c3⟩ := construct_ok_inv size out h1
  have hl : f.size = size := by
    rw [← h3, SincFilter.size]
    simp only []
    rw [foldl_set_length (fun _ i => i) (fun _ i => design i), c3, List.length_replicate]
  exact ⟨hl, by unfold SincFilter.OddSize; rw [hl]; exact c2, by rw [hl]; exact c1⟩

theorem add_ok_inv [Zero R] [Add R] (a b f : SincFilter R)
    (h : a.add false b = Except.ok f) : f.size = a.size ∧ f.OddSize ∧ f.size ≤ max_size := by
  unfold SincFilter.add at h
  obtain ⟨_, _, h1⟩ := bind_eq_ok _ _ _ h
  obtain ⟨out, h2, h3⟩ := bind_eq_ok _ _ _ h1
  obtain ⟨coeffs, h4, h5⟩ := map_eq_ok _ _ _ h3
  obtain ⟨c1, c2, c3⟩ := construct_ok_inv _ out h2
  have hl : f.size = a.size := by
    rw [← h5, SincFilter.size]
    simp only []
    rw [transform2_ok_length _ _ _ _ _ h4, c3, List.length_replicate]
    rfl
  exact ⟨hl, by unfold SincFilter.OddSize; rw [hl]; exact c2, by rw [hl]; exact c1⟩

theorem sub_ok_inv [Zero R] [Sub R] (a b f : SincFilter R)
    (h : a.sub false b = Except.ok f) : f.size = a.size ∧ f.OddSize ∧ f.size ≤ max_size := by
  unfold SincFilter.sub at h
  obtain ⟨_, _, h1⟩ := bind_eq_ok _ _ _ h
  obtain ⟨out, h2, h3⟩ := bind_eq_ok _ _ _ h1
  obtain ⟨coeffs, h4, h5⟩ := map_eq_ok _ _ _ h3
  obtain ⟨c1, c2, c3⟩ := construct_ok_inv _ out h2
  have hl : f.size = a.size := by
    rw [← h5, SincFilter.size]
    simp only []
    rw [transform2_ok_length _ _ _ _ _ h4, c3, List.length_replicate]
    rfl
  exact ⟨hl, by unfold SincFilter.OddSize; rw [hl]; exact c2, by rw [hl]; exact c1⟩

theorem invert_ok_inv [Zero R] [One R] [Add R] [Neg R] (a f : SincFilter R)
    (h : a.invert false = Except.ok f) : f.size = a.size ∧ f.OddSize ∧ f.size ≤ max_size := by
  unfold SincFilter.invert at h
  obtain ⟨out, h2, h3⟩ := bind_eq_ok _ _ _ h
  obtain ⟨negated, h4, h5⟩ := bind_eq_ok _ _ _ h3
  obtain ⟨c1, c2, c3⟩ := construct_ok_inv _ out h2
  have hn : negated.length = a.m_coeffs.length := by
    rw [transform_ok_length _ _ _ _ h4, c3, List.length_replicate]
  have hl : f.size = a.size := by
    simp only [] at h5
    by_cases hc : size_sub negated.length 1 / 2 < negated.length
    · rw [if_pos hc] at h5
      injection h5 with h5
      rw [← h5, SincFilter.size]
      simp only [List.length_set]
      exact hn
    · rw [if_neg hc] at h5
      cases h5
  exact ⟨hl, by unfold SincFilter.OddSize; rw [hl]; exact c2, by rw [hl]; exact c1⟩

theorem mul_ok_inv [Zero R] [Add R] [Mul R] (a b f : SincFilter R)
    (h : a.mul false b = Except.ok f) :
    f.size = size_sub (size_add a.size b.size) 1 ∧ f.OddSize ∧ f.size ≤ max_size := by
  unfold SincFilter.mul at h
  obtain ⟨out, h2, h3⟩ := bind_eq_ok _ _ _ h
  obtain ⟨coeffs, h4, h5⟩ := map_eq_ok _ _ _ h3
  obtain ⟨c1, c2, c3⟩ := construct_ok_inv _ out h2
  have hl : f.size = size_sub (size_add a.size b.size) 1 := by
    rw [← h5, SincFilter.size]
    simp only []
    rw [convolve_ok_length _ _ _ _ _ h4, c3, List.length_replicate]
    rfl
  exact ⟨hl, by unfold SincFilter.OddSize; rw [hl]; exact c2, by rw [hl]; exact c1⟩

/-- With assertions active, a filter that a program can hold has an odd number of
coefficients, at least 3, or it is a moved-from filter. -/
theorem reachable_sizes [Zero R] [One R] [Add R] [Sub R] [Neg R] [Mul R] (f : SincFilter R)
    (h : Reachable false f) : (f.OddSize ∧ f.size ≤ max_size) ∨ f.m_coeffs = [] := by
  cases h with
  | lowPass size fc design _ h => exact Or.inl (lowPass_ok_inv size fc design f h).2
  | add a b _ _ _ h => exact Or.inl (add_ok_inv a b f h).2
  | sub a b _ _ _ h => exact Or.inl (sub_ok_inv a b f h).2
  | mul a b _ _ _ h => exact Or.inl (mul_ok_inv a b f h).2
  | invert a _ _ h => exact Or.inl (invert_ok_inv a f h).2
  | moved a _ => exact Or.inr rfl

/-- The results of `highPass`, `stopBand` and `bandPass` are among the filters that
`Reachable` describes. -/
theorem compositions_reachable [Zero R] [One R] [Add R] [Sub R] [Neg R] [Mul R]
    (ndebug : Bool) (size : Nat) (b1 b2 b3 : Bool) (d1 d2 : Nat → R) (f : SincFilter R) :
    (SincFilter.highPass ndebug size b1 d1 = Except.ok f → Reachable ndebug f) ∧
    (SincFilter.stopBand ndebug size b1 b2 b3 d1 d2 = Except.ok f → Reachable ndebug f) ∧
    (SincFilter.bandPass ndebug size b1 b2 b3 d1 d2 = Except.ok f → Reachable ndebug f) := by
  have high : ∀ (b : Bool) (d : Nat → R) (g : SincFilter R),
      SincFilter.highPass ndebug size b d = Except.ok g → Reachable ndebug g := by
    intro b d g h
    obtain ⟨l, h1, h2⟩ := bind_eq_ok _ _ _ h
    exact Reachable.invert l g (Reachable.lowPass size b d l h1) h2
  have stop : ∀ (g : SincFilter R),
      SincFilter.stopBand ndebug size b1 b2 b3 d1 d2 = Except.ok g → Reachable ndebug g := by
    intro g h
    obtain ⟨_, _, h1⟩ := bind_eq_ok _ _ _ h
    obtain ⟨l, h2, h3⟩ := bind_eq_ok _ _ _ h1
    obtain ⟨u, h4, h5⟩ := bind_eq_ok _ _ _ h3
    exact Reachable.add l u g (Reachable.lowPass size b2 d1 l h2) (high b3 d2 u h4) h5
  refine ⟨high b1 d1 f, stop f, fun h => ?_⟩
  obtain ⟨g, h1, h2⟩ := bind_eq_ok _ _ _ h
  exact Reachable.invert g f (stop g h1) h2

/-! ## The filter sizes: the claim -/

/-- C27. In a build with assertions active, a `SincFilter` that a program can hold has an
odd number of coefficients, at least `MinimumSize` (3), or is a moved-from filter, which has
none; every filter that `lowPass` or an operator returns has an odd number of coefficients,
at least 3. For operands `a`, `b` with an odd number of coefficients, at least 3 (and at most
`max_size`, as in every vector), the size assertion of the constructor and the assertion of
`convolve` do not fail inside an operator: `operator~` returns a filter of the size of its
operand; `operator+` and `operator-` return a filter of that size when the operands have the
same size, and fail with their own assertion `rhs.size() == size()` when they have not;
`operator*` returns a filter of size `a.size() + b.size() - 1`, again odd and at least 3,
when that size is at most `max_size`, and throws `std::length_error` when it is not; its
call of `convolve` returns. -/
theorem filter_sizes_stay_odd [Zero R] [One R] [Add R] [Sub R] [Neg R] [Mul R]
    (a b : SincFilter R) (ha : a.OddSize) (hb : b.OddSize) (hma : a.size ≤ max_size)
    (hmb : b.size ≤ max_size) :
    (∀ f : SincFilter R, Reachable false f →
      (f.OddSize ∧ f.size ≤ max_size) ∨ f.m_coeffs = []) ∧
    (∀ (x y f : SincFilter R) (size : Nat) (fcInRange : Bool) (design : Nat → R),
      SincFilter.lowPass false size fcInRange design = Except.ok f ∨
        x.invert false = Except.ok f ∨ x.add false y = Except.ok f ∨
        x.sub false y = Except.ok f ∨ x.mul false y = Except.ok f →
      f.OddSize ∧ f.size ≤ max_size) ∧
    (∃ f, a.invert false = Except.ok f ∧ f.size = a.size ∧ f.OddSize) ∧
    (a.size = b.size → ∃ f, a.add false b = Except.ok f ∧ f.size = a.size ∧ f.OddSize) ∧
    (a.size = b.size → ∃ f, a.sub false b = Except.ok f ∧ f.size = a.size ∧ f.OddSize) ∧
    (a.size ≠ b.size →
      a.add false b = Except.error (Failure.assertion Assertion.sameSize) ∧
      a.sub false b = Except.error (Failure.assertion Assertion.sameSize)) ∧
    (a.size + b.size - 1 ≤ max_size →
      ∃ f, a.mul false b = Except.ok f ∧ f.size = a.size + b.size - 1 ∧ f.OddSize) ∧
    (max_size < a.size + b.size - 1 → a.mul false b = Except.error Failure.length_error) ∧
    (a.size + b.size - 1 ≤ max_size →
      ∃ coeffs, convolve false a.m_coeffs b.m_coeffs
        (List.replicate (a.size + b.size - 1) (0 : R)) = Except.ok coeffs ∧
        coeffs.length = a.size + b.size - 1) := by
  have h3a : 3 ≤ a.size := ha.1
  have h3b : 3 ≤ b.size := hb.1
  refine ⟨fun f hf => reachable_sizes f hf, ?_, ?_, ?_, ?_, ?_, ?_, ?_, ?_⟩
  · intro x y f size fcInRange design h
    rcases h with h | h | h | h | h
    · exact (lowPass_ok_inv size fcInRange design f h).2
    · exact (invert_ok_inv x f h).2
    · exact (add_ok_inv x y f h).2
    · exact (sub_ok_inv x y f h).2
    · exact (mul_ok_inv x y f h).2
  · obtain ⟨f, h1, h2⟩ := invert_eq_ok a ha hma
    exact ⟨f, h1, h2, (invert_ok_inv a f h1).2.1⟩
  · intro hab
    obtain ⟨f, h1, h2⟩ := add_eq_ok a b ha hma hab
    exact ⟨f, h1, h2, (add_ok_inv a b f h1).2.1⟩
  · intro hab
    obtain ⟨f, h1, h2⟩ := sub_eq_ok a b ha hma hab
    exact ⟨f, h1, h2, (sub_ok_inv a b f h1).2.1⟩
  · intro hab
    have hne : ¬ b.size = a.m_coeffs.length := fun h => hab h.symm
    exact ⟨by rw [add_false, if_neg hne], by rw [sub_false, if_neg hne]⟩
  · intro hm
    obtain ⟨f, h1, h2⟩ := mul_eq_ok a b ha hb hm
    exact ⟨f, h1, h2, (mul_ok_inv a b f h1).2.1⟩
  · intro hm
    exact mul_eq_length_error a b hma hmb (by omega) hm
  · intro hm
    have hm2 : a.m_coeffs.length + b.m_coeffs.length - 1 ≤ max_size := hm
    unfold max_size at hm2
    have h3a1 : 3 ≤ a.m_coeffs.length := h3a
    obtain ⟨coeffs, h1, h2⟩ := convolve_ok a.m_coeffs b.m_coeffs
      (List.replicate (a.size + b.size - 1) (0 : R)) (by omega) (by omega)
      (by rw [List.length_replicate]; exact le_refl _)
    exact ⟨coeffs, h1, by rw [h2, List.length_replicate]⟩

theorem filter_sizes_stay_odd_witness :
    ∃ f : SincFilter Int,
      (SincFilter.mk [1, 2, 3]).mul false (SincFilter.mk [1, 0, 0, 0, 1]) = Except.ok f ∧
      f.size = 3 + 5 - 1 ∧ f.OddSize :=
  (filter_sizes_stay_odd (SincFilter.mk ([1, 2, 3] : List Int))
    (SincFilter.mk ([1, 0, 0, 0, 1] : List Int))
    ⟨by decide, by decide⟩ ⟨by decide, by decide⟩ (by decide) (by decide)).2.2.2.2.2.2.1
    (by decide)

/-- C27, on a moved-from filter and on operands of different sizes. After
`SincFilter b = std::move(a)` the filter `a` has no coefficients, and `~a` fails the size
assertion of the constructor; `a * a` asks for a vector of `SIZE_MAX` elements and throws
`std::length_error`. For operands of 3 and 5 coefficients, both odd and at least 3,
`operator+` returns no filter: its own assertion fails. Built with `NDEBUG`, `lowPass(4, ...)`
returns a filter of 4 coefficients. -/
theorem moved_from_filter_has_no_coefficients :
    Reachable false (SincFilter.mk ([] : List Int)) ∧
    (SincFilter.mk ([] : List Int)).size = 0 ∧
    (SincFilter.mk ([] : List Int)).invert false
      = Except.error (Failure.assertion Assertion.constructorSize) ∧
    (SincFilter.mk ([] : List Int)).mul false (SincFilter.mk [])
      = Except.error Failure.length_error ∧
    (SincFilter.mk ([1, 2, 3] : List Int)).OddSize ∧
    (SincFilter.mk ([1, 0, 0, 0, 1] : List Int)).OddSize ∧
    (SincFilter.mk ([1, 2, 3] : List Int)).add false (SincFilter.mk [1, 0, 0, 0, 1])
      = Except.error (Failure.assertion Assertion.sameSize) ∧
    SincFilter.lowPass true 4 true (fun _ => (0 : Int))
      = Except.ok (SincFilter.mk [0, 0, 0, 0]) :=
  ⟨Reachable.moved (SincFilter.mk [0, 0, 0])
      (Reachable.lowPass 3 true (fun _ => 0) (SincFilter.mk [0, 0, 0]) rfl),
    rfl, rfl, rfl, ⟨by decide, by decide⟩, ⟨by decide, by decide⟩, rfl, rfl⟩

end Sinc
